import Mathlib

/-!
# Small-region merging of label images (OTB `LabelImageSmallRegionMergingFilter`)

A shallow embedding of `otbLabelImageSmallRegionMergingFilter.hxx`:

* labels are natural numbers (the unsigned `InputLabelType`);
* `m_LUT`, `m_LabelPopulation` and `m_LabelStatistic` are label-indexed vectors,
  embedded as lists; an access outside the vector has no defined result (`none`);
* populations are unbounded naturals and feature means are vectors of exact rationals;
* a `while` loop is embedded with a step budget; running out of budget is `none`.
  `rootWalk_complete` shows that a budget equal to the table size is never exhausted by a
  walk that terminates at all.
-/

namespace SmallRegionMerging

/-! ## Data model -/

/-- The persistent state of `PersistentLabelImageSmallRegionMergingFilter`. -/
structure State where
  /-- Parent table `m_LUT`. -/
  m_LUT : List Nat
  /-- Pixel counts `m_LabelPopulation`. -/
  m_LabelPopulation : List Nat
  /-- Feature means `m_LabelStatistic`. -/
  m_LabelStatistic : List (List ℚ)
deriving DecidableEq

/-- Checked element write `v[i] = x`: defined only inside the vector. -/
def write {α : Type} (v : List α) (i : Nat) (x : α) : Option (List α) :=
  if i < v.length then some (v.set i x) else none

/-! ## Root walks -/

/-- The inline loop of `Synthetize`:
`while (m_LUT[cur] != cur) cur = m_LUT[cur];` with a step budget; the result is the final
value of `cur`. -/
def rootWalk (lut : List Nat) : Nat → Nat → Option Nat
  | 0, _ => none
  | fuel + 1, cur =>
    match lut[cur]? with
    | none => none
    | some p => if p ≠ cur then rootWalk lut fuel p else some cur

/-- The loop of `FindCorrespondingLabel`:
`while (label != correspondingLabel) { label = correspondingLabel;
correspondingLabel = m_LUT[correspondingLabel]; }` followed by `return correspondingLabel`. -/
def findLoop (lut : List Nat) : Nat → Nat → Nat → Option Nat
  | 0, _, _ => none
  | fuel + 1, label, correspondingLabel =>
    if label ≠ correspondingLabel then
      match lut[correspondingLabel]? with
      | none => none
      | some next => findLoop lut fuel correspondingLabel next
    else some correspondingLabel

/-- The method `FindCorrespondingLabel(label)`: reads `m_LUT[label]` and runs the loop. -/
def FindCorrespondingLabel (lut : List Nat) (label : Nat) : Option Nat :=
  match lut[label]? with
  | none => none
  | some correspondingLabel => findLoop lut lut.length label correspondingLabel

/-! ## The union step of `Synthetize` -/

/-- The union step of `Synthetize` for one pair `(label, closestNeighbour)`: the two inline
root walks followed by the branch on `curLabelLUT < adjLabelLUT`. -/
def unionStep (lut : List Nat) (label closestNeighbour : Nat) : Option (List Nat) := do
  let curLabelLUT ← rootWalk lut lut.length label
  let adjLabelLUT ← rootWalk lut lut.length closestNeighbour
  if curLabelLUT < adjLabelLUT then
    write lut adjLabelLUT curLabelLUT
  else
    let inner ← lut[curLabelLUT]?
    let lut1 ← write lut inner adjLabelLUT
    write lut1 curLabelLUT adjLabelLUT

/-! ## The flatten loop of `Synthetize` -/

/-- One iteration of the flatten loop: `can` is the label reached by the root walk from
`label` in the current table, then `m_LUT[label] = can`. -/
def flattenStep (lut : List Nat) (label : Nat) : Option (List Nat) := do
  let can ← rootWalk lut lut.length label
  write lut label can

/-- The flatten loop `for (label = 0; label < m_LUT.size(); ++label)`. -/
def flattenLoop (lut : List Nat) : Option (List Nat) :=
  (List.range lut.length).foldlM flattenStep lut

/-! ## The statistics loop of `Synthetize` -/

/-- The product `v * c` of `itk::VariableLengthVector` with a scalar, componentwise. -/
def vscale (v : List ℚ) (c : ℚ) : List ℚ := v.map (fun a => a * c)

/-- The sum `v + w` of two `itk::VariableLengthVector`s, componentwise. ITK requires both
operands to have the same length; on other operands the embedding keeps the common
components. -/
def vadd (v w : List ℚ) : List ℚ := List.zipWith (fun a b => a + b) v w

/-- The quotient `v / c` of `itk::VariableLengthVector` by a scalar, componentwise. -/
def vdiv (v : List ℚ) (c : ℚ) : List ℚ := v.map (fun a => a / c)

/-- One iteration of the statistics loop for `label`: with
`correspondingLabel = m_LUT[label]`, when `m_LabelPopulation[label] != 0` and
`correspondingLabel != label`, the weighted mean is stored in
`m_LabelStatistic[correspondingLabel]`, the population of `label` is added to
`m_LabelPopulation[correspondingLabel]` and `m_LabelPopulation[label]` is set to `0`. -/
def statStep (s : State) (label : Nat) : Option State := do
  let correspondingLabel ← s.m_LUT[label]?
  let popLabel ← s.m_LabelPopulation[label]?
  if popLabel ≠ 0 ∧ correspondingLabel ≠ label then
    let statCorr ← s.m_LabelStatistic[correspondingLabel]?
    let popCorr ← s.m_LabelPopulation[correspondingLabel]?
    let statLabel ← s.m_LabelStatistic[label]?
    let stat1 ← write s.m_LabelStatistic correspondingLabel
      (vdiv (vadd (vscale statCorr popCorr) (vscale statLabel popLabel))
        ((popLabel : ℚ) + (popCorr : ℚ)))
    let pop1 ← write s.m_LabelPopulation correspondingLabel (popCorr + popLabel)
    let pop2 ← write pop1 label 0
    some { s with m_LabelStatistic := stat1, m_LabelPopulation := pop2 }
  else
    some s

/-- The statistics loop `for (label = 0; label < m_LUT.size(); ++label)`. -/
def statLoop (s : State) : Option State :=
  (List.range s.m_LUT.length).foldlM statStep s

/-! ## Neighbour maps -/

/-- The type `NeigboursMapType`: a map from a label to the set of its neighbour labels,
embedded as the list of its entries in iteration order. The set of an entry is the list of
its elements in the iteration order of `std::set`, that is ascending. -/
abbrev NeighboursMap := List (Nat × List Nat)

/-- The call `set.insert(v)` on a `std::set`: the ascending list with `v` added when it
was absent. -/
def setInsert (v : Nat) : List Nat → List Nat
  | [] => [v]
  | y :: ys => if v < y then v :: y :: ys else if v = y then y :: ys else y :: setInsert v ys

/-- The call `set.insert(first, last)`: every element of the range is inserted. -/
def setInsertRange (set vals : List Nat) : List Nat :=
  vals.foldl (fun acc v => setInsert v acc) set

/-- The statement `m[key].insert(v)`: `operator[]` creates the entry with an empty set when
the key is absent. -/
def mapInsert : NeighboursMap → Nat → Nat → NeighboursMap
  | [], key, v => [(key, setInsert v [])]
  | (k, set) :: rest, key, v =>
    if k = key then (k, setInsert v set) :: rest else (k, set) :: mapInsert rest key v

/-- The statement `m[key].insert(first, last)`. -/
def mapInsertRange : NeighboursMap → Nat → List Nat → NeighboursMap
  | [], key, vals => [(key, setInsertRange [] vals)]
  | (k, set) :: rest, key, vals =>
    if k = key then (k, setInsertRange set vals) :: rest
    else (k, set) :: mapInsertRange rest key vals

/-- The first loop nest of `Synthetize`: the maps of all threads are merged into
`neighboursMap`, entry by entry. -/
def reduceMaps (m_NeighboursMapsTmp : List NeighboursMap) : NeighboursMap :=
  m_NeighboursMapsTmp.foldl
    (fun neighboursMap threadMap =>
      threadMap.foldl (fun acc it => mapInsertRange acc it.1 it.2) neighboursMap) []

/-! ## Selection of the closest neighbour -/

/-- The constant `std::numeric_limits<double>::max()`, that is `(2^53 - 1) * 2^971`. -/
def doubleMax : ℚ := (2 ^ 53 - 1) * 2 ^ 971

/-- The inner loop `for (i = 0; i < statsLabel.Size(); i++)
distance += pow(statsLabel[i] - statsNeighbour[i], 2);` starting from `distance = 0`, for
two vectors of the same length. -/
def sqDistance (statsLabel statsNeighbour : List ℚ) : ℚ :=
  (List.zipWith (fun a b => (a - b) ^ 2) statsLabel statsNeighbour).foldl (fun d t => d + t) 0

/-- One iteration of `for (auto neighbour : neighbours.second)`; the accumulator holds
`(proximity, closestNeighbour)`. The `assert` on the two sizes has no result when it
fails. -/
def closestStep (stat : List (List ℚ)) (label : Nat) (acc : ℚ × Nat) (neighbour : Nat) :
    Option (ℚ × Nat) := do
  let statsLabel ← stat[label]?
  let statsNeighbour ← stat[neighbour]?
  if statsLabel.length = statsNeighbour.length then
    let distance := sqDistance statsLabel statsNeighbour
    if distance < acc.1 then some (distance, neighbour) else some acc
  else
    none

/-- The value of `closestNeighbour` after the loop over the neighbour set of `label`,
starting from `proximity = max()` and `closestNeighbour = label`. -/
def closestNeighbour (stat : List (List ℚ)) (label : Nat) (neighbours : List Nat) :
    Option Nat :=
  (neighbours.foldlM (closestStep stat label) (doubleMax, label)).map Prod.snd

/-! ## `Synthetize` -/

/-- The body of `for (auto neighbours : neighboursMap)`: selection of the closest
neighbour followed by the union step. The statistics are not written by this loop. -/
def resolveStep (stat : List (List ℚ)) (lut : List Nat) (neighbours : Nat × List Nat) :
    Option (List Nat) := do
  let closest ← closestNeighbour stat neighbours.1 neighbours.2
  unionStep lut neighbours.1 closest

/-- The part of `Synthetize` that follows the merge of the thread maps, on a global map
given with the order in which its entries are visited. -/
def SynthetizeOn (s : State) (neighboursMap : NeighboursMap) : Option State := do
  let lut1 ← neighboursMap.foldlM (resolveStep s.m_LabelStatistic) s.m_LUT
  let lut2 ← flattenLoop lut1
  statLoop { s with m_LUT := lut2 }

/-- The method `Synthetize`. The order in which `for (auto neighbours : neighboursMap)`
visits the entries of the map is a parameter `keyOrder`. -/
def Synthetize (keyOrder : NeighboursMap → NeighboursMap) (s : State)
    (m_NeighboursMapsTmp : List NeighboursMap) : Option State :=
  SynthetizeOn s (keyOrder (reduceMaps m_NeighboursMapsTmp))

/-! ## The scan `ThreadedGenerateData` -/

/-- A pixel index `(column, row)`. -/
abbrev Pixel := Nat × Nat

/-- The input label image: `raw x y` is the label stored at column `x` and row `y`, for
`x < width` and `y < height`. -/
structure LabelImage where
  /-- Number of columns. -/
  width : Nat
  /-- Number of rows. -/
  height : Nat
  /-- Label of a pixel. -/
  raw : Nat → Nat → Nat

/-- The pixel lies inside the raster. -/
def LabelImage.inside (img : LabelImage) (p : Pixel) : Prop :=
  p.1 < img.width ∧ p.2 < img.height

instance (img : LabelImage) (p : Pixel) : Decidable (img.inside p) := by
  unfold LabelImage.inside; infer_instance

/-- The positions visited by `for (auto ci = itN.Begin(); !ci.IsAtEnd(); ci++)` at pixel
`p`: the activated offsets `{0,-1}`, `{-1,0}`, `{1,0}`, `{0,1}` in the order of the
neighbourhood, a position outside the raster being an absent neighbour. -/
def activeNeighbours (img : LabelImage) (p : Pixel) : List Pixel :=
  (if 0 < p.2 then [(p.1, p.2 - 1)] else []) ++
  (if 0 < p.1 then [(p.1 - 1, p.2)] else []) ++
  (if p.1 + 1 < img.width then [(p.1 + 1, p.2)] else []) ++
  (if p.2 + 1 < img.height then [(p.1, p.2 + 1)] else [])

/-- The body of the neighbour loop of `ThreadedGenerateData` for the neighbour pixel `q`. -/
def recordNeighbour (s : State) (img : LabelImage) (currentLabel : Nat) (m : NeighboursMap)
    (q : Pixel) : Option NeighboursMap := do
  let neighbourLabel ← FindCorrespondingLabel s.m_LUT (img.raw q.1 q.2)
  if neighbourLabel ≠ currentLabel then
    some (mapInsert m currentLabel neighbourLabel)
  else
    some m

/-- The body of the pixel loop of `ThreadedGenerateData` at pixel `p`. -/
def scanPixel (s : State) (m_Size : Nat) (img : LabelImage) (m : NeighboursMap) (p : Pixel) :
    Option NeighboursMap := do
  let currentLabel ← FindCorrespondingLabel s.m_LUT (img.raw p.1 p.2)
  let population ← s.m_LabelPopulation[currentLabel]?
  if population = m_Size then
    (activeNeighbours img p).foldlM (recordNeighbour s img currentLabel) m
  else
    some m

/-- The method `ThreadedGenerateData` on the pixels of `outputRegionForThread`, given in
the order of the region iterator; `m` is the map of the thread before the call and the
result is that map after the call. -/
def ThreadedGenerateData (s : State) (m_Size : Nat) (img : LabelImage)
    (outputRegionForThread : List Pixel) (m : NeighboursMap) : Option NeighboursMap :=
  outputRegionForThread.foldlM (scanPixel s m_Size img) m

/-! ## The driver `LabelImageSmallRegionMergingFilter::GenerateData` -/

/-- The scan phase of one `Update()`: after `Reset()` every thread scans its region from an
empty map; the result lists the maps of the threads. -/
def scanAll (s : State) (m_Size : Nat) (img : LabelImage) (regions : List (List Pixel)) :
    Option (List NeighboursMap) :=
  regions.mapM (fun region => ThreadedGenerateData s m_Size img region [])

/-- One `Update()` of the persistent filter for the threshold `m_Size`: `Reset()` gives
every thread an empty map, every thread scans its region, then `Synthetize()` runs. -/
def Update (keyOrder : NeighboursMap → NeighboursMap) (img : LabelImage)
    (regions : List (List Pixel)) (s : State) (m_Size : Nat) : Option State := do
  let tmp ← scanAll s m_Size img regions
  Synthetize keyOrder s tmp

/-- The loop `for (unsigned int size = 1; size < m_MinSize; size++)` of `GenerateData`,
each iteration calling `SetSize(size)` and `Update()`. -/
def GenerateData (keyOrder : NeighboursMap → NeighboursMap) (img : LabelImage)
    (regions : List (List Pixel)) (m_MinSize : Nat) (s : State) : Option State :=
  (List.range' 1 (m_MinSize - 1)).foldlM (Update keyOrder img regions) s

/-! ## Predicates of the statements and example data -/

/-- Big-step reading of the root walk: `RootN lut k x r` says that following parent pointers
from `x` reaches, after exactly `k` pointer steps, the label `r` with `m_LUT[r] = r`. -/
inductive RootN (lut : List Nat) : Nat → Nat → Nat → Prop
  | root {r : Nat} : lut[r]? = some r → RootN lut 0 r r
  | step {k x p r : Nat} : lut[x]? = some p → p ≠ x → RootN lut k p r → RootN lut (k + 1) x r

/-- The parent chain of `x` reaches the root `r`. -/
def RootOf (lut : List Nat) (x r : Nat) : Prop := ∃ k, RootN lut k x r

/-- Every parent chain of the table reaches a label `r` with `m_LUT[r] = r`:
for every label some step budget lets the root walk return. -/
def Acyclic (lut : List Nat) : Prop :=
  ∀ x, x < lut.length → ∃ n r, rootWalk lut n x = some r

/-- The entry of `l` holds a label that is its own parent. -/
def PointsToRoot (lut : List Nat) (l : Nat) : Prop :=
  ∃ s, lut[l]? = some s ∧ lut[s]? = some s

/-- The squared Euclidean distance between the feature means of two labels, as computed by
the inner loop of `Synthetize` (an absent mean reads as the empty vector). -/
def meanDistance (stat : List (List ℚ)) (label neighbour : Nat) : ℚ :=
  sqDistance ((stat[label]?).getD []) ((stat[neighbour]?).getD [])

/-- The reads of the selection loop are defined for `label` and `neighbour`: both means are
present and the `assert` on their sizes holds. -/
def Comparable (stat : List (List ℚ)) (label neighbour : Nat) : Prop :=
  ∃ a b, stat[label]? = some a ∧ stat[neighbour]? = some b ∧ a.length = b.length

/-- Every entry of the table holds a label that is its own parent: the table is flat. -/
def Flat (lut : List Nat) : Prop := ∀ x, x < lut.length → PointsToRoot lut x

/-- The state and the global map are consistent: every parent chain reaches a root, the
three vectors have one entry per label, every label of the map is a valid index, and the
means compared by the selection loop have the same length. -/
structure WellFormed (s : State) (neighboursMap : NeighboursMap) : Prop where
  /-- Every parent chain reaches a root. -/
  acyclic : Acyclic s.m_LUT
  /-- One population per label. -/
  popLen : s.m_LabelPopulation.length = s.m_LUT.length
  /-- One mean per label. -/
  statLen : s.m_LabelStatistic.length = s.m_LUT.length
  /-- Keys and neighbours are labels of the table, with means of the same length. -/
  entries : ∀ e ∈ neighboursMap, e.1 < s.m_LUT.length ∧
    ∀ n ∈ e.2, n < s.m_LUT.length ∧ Comparable s.m_LabelStatistic e.1 n

/-- A state with four labels, each its own root. -/
def demoState : State :=
  { m_LUT := [0, 1, 2, 3]
    m_LabelPopulation := [3, 1, 1, 2]
    m_LabelStatistic := [[0], [1], [5], [7]] }

/-- A global map for `demoState`: label `1` touches `0` and `2`, label `2` touches `1` and
`3`. -/
def demoMap : NeighboursMap := [(1, [0, 2]), (2, [1, 3])]

/-- The set stored under `key`, as `m.find(key)` would give it: `none` when the map has no
such key. -/
def lookupSet : NeighboursMap → Nat → Option (List Nat)
  | [], _ => none
  | (k, set) :: rest, key => if k = key then some set else lookupSet rest key

/-- The pixel `q` lies inside the raster and is the north, south, west or east neighbour of
`p`. -/
def Adjacent4 (img : LabelImage) (p q : Pixel) : Prop :=
  img.inside q ∧
    ((q.1 = p.1 ∧ (q.2 + 1 = p.2 ∨ q.2 = p.2 + 1)) ∨
     (q.2 = p.2 ∧ (q.1 + 1 = p.1 ∨ q.1 = p.1 + 1)))

instance (img : LabelImage) (p q : Pixel) : Decidable (Adjacent4 img p q) := by
  unfold Adjacent4; infer_instance

/-- The keys of a map are pairwise distinct. -/
def UniqueKeys (m : NeighboursMap) : Prop := (m.map Prod.fst).Nodup

/-- Every set of the map is listed in strictly ascending order. -/
def SetsSorted (m : NeighboursMap) : Prop := ∀ e ∈ m, e.2.Pairwise (fun a b => a < b)

/-- The pixel `p` has canonical label `L` and one of its four in-raster neighbours has the
canonical label `M`, different from `L`. -/
def Touches (s : State) (img : LabelImage) (p : Pixel) (L M : Nat) : Prop :=
  FindCorrespondingLabel s.m_LUT (img.raw p.1 p.2) = some L ∧
    ∃ q, Adjacent4 img p q ∧ FindCorrespondingLabel s.m_LUT (img.raw q.1 q.2) = some M ∧ M ≠ L

/-- The labels of the raster are labels of the table. -/
def ValidImage (s : State) (img : LabelImage) : Prop :=
  ∀ p : Pixel, img.inside p → img.raw p.1 p.2 < s.m_LUT.length

/-- A raster of two columns and two rows carrying the labels `0`, `1` (first row) and `2`,
`3` (second row). -/
def demoImage : LabelImage :=
  { width := 2, height := 2, raw := fun x y => x + 2 * y }

/-- All pixels of `demoImage`, row by row. -/
def demoRegion : List Pixel := [(0, 0), (1, 0), (0, 1), (1, 1)]

/-- A state with two labels in which label `1` points to the root `0`. -/
def demoPair : State :=
  { m_LUT := [0, 0], m_LabelPopulation := [3, 1], m_LabelStatistic := [[2], [6]] }

/-- The thread regions cover the raster: they hold pixels of the raster only and every pixel
of the raster lies in one of them. -/
def Covers (img : LabelImage) (regions : List (List Pixel)) : Prop :=
  (∀ region ∈ regions, ∀ p ∈ region, img.inside p) ∧
    ∀ p, img.inside p → ∃ region ∈ regions, p ∈ region

/-- All feature means of the table have the same length `d`. -/
def UniformDim (stat : List (List ℚ)) (d : Nat) : Prop := ∀ v ∈ stat, v.length = d

/-- A raster of one row with the two labels `0` and `1`. -/
def pairImage : LabelImage := { width := 2, height := 1, raw := fun x _ => x }

/-- Two single-pixel regions with means of length zero. -/
def nearPair : State :=
  { m_LUT := [0, 1], m_LabelPopulation := [1, 1], m_LabelStatistic := [[], []] }

/-- The whole of `pairImage` as the region of a single thread. -/
def pairRegions : List (List Pixel) := [[(0, 0), (1, 0)]]

/-- The loop `for (unsigned int size = 1; size < m_MinSize; size++)` of `GenerateData` with
its counter, started at `size`, for any body `pass` in the place of `SetSize(size);
Update();`. The result is the final state together with the thresholds of the passes that
were run, in the order of the calls. -/
def driverLoop (pass : State → Nat → Option State) (m_MinSize : Nat) (size : Nat) (s : State) :
    Option (State × List Nat) :=
  if size < m_MinSize then
    match pass s size with
    | none => none
    | some s' =>
      (driverLoop pass m_MinSize (size + 1) s').map (fun r => (r.1, size :: r.2))
  else
    some (s, [])
termination_by m_MinSize - size

/-- The raster `demoImage` split into two thread regions, the second row first. -/
def demoSplit : List (List Pixel) := [[(0, 1), (1, 1)], [(0, 0), (1, 0)]]

/-- A raster with a single pixel, labelled `0`. -/
def dotImage : LabelImage := { width := 1, height := 1, raw := fun _ _ => 0 }

/-- The initial state for `dotImage`: one label with population `1`. -/
def dotState : State :=
  { m_LUT := [0], m_LabelPopulation := [1], m_LabelStatistic := [[]] }

/-- Three labels, each its own root; labels `1` and `2` are single pixels of equal mean. -/
def twinState : State :=
  { m_LUT := [0, 1, 2], m_LabelPopulation := [4, 1, 1], m_LabelStatistic := [[9], [3], [3]] }

/-- Every entry of the table is at most its own index: `m_LUT[x] <= x` for every label. -/
def Descending (lut : List Nat) : Prop := ∀ x c : Nat, lut[x]? = some c → c ≤ x

/-- An edge of the graph of one pass: the pre-pass pair `(x, m_LUT[x])`, or the pair of a key
label of the map and the closest neighbour selected for it. -/
def PassEdge (lut : List Nat) (stat : List (List ℚ)) (nm : NeighboursMap) (x y : Nat) : Prop :=
  lut[x]? = some y ∨ ∃ e ∈ nm, e.1 = x ∧ closestNeighbour stat e.1 e.2 = some y

/-- Two labels are connected in the undirected graph of the pass. -/
def Connected (lut : List Nat) (stat : List (List ℚ)) (nm : NeighboursMap) (x y : Nat) : Prop :=
  Relation.EqvGen (PassEdge lut stat nm) x y

/-- A state with four labels, each its own root, in which label `3` is closest to `2` and
label `2` is closest to `1`. -/
def chainState : State :=
  { m_LUT := [0, 1, 2, 3]
    m_LabelPopulation := [3, 1, 1, 2]
    m_LabelStatistic := [[0], [4], [5], [7]] }

/-- A global map for `chainState`: label `3` touches `2`, label `2` touches `1` and `3`. -/
def chainMap : NeighboursMap := [(3, [2]), (2, [1, 3])]

/-- The number of pixels `p` of the raster with `FindCorrespondingLabel(raw(p)) = r` in the
table `lut`. -/
def classCount (img : LabelImage) (lut : List Nat) (r : Nat) : Nat :=
  ((List.range img.width).product (List.range img.height)).countP
    (fun p => decide (FindCorrespondingLabel lut (img.raw p.1 p.2) = some r))

/-- A raster of one row and seven columns with the labels `0, 0, 0, 1, 2, 3, 3`. -/
def chainImage : LabelImage :=
  { width := 7, height := 1, raw := fun x _ => ([0, 0, 0, 1, 2, 3, 3] : List Nat).getD x 0 }

/-- Component `i` of the population-weighted sum of the means: the sum over all labels `x`
of `m_LabelPopulation[x] * m_LabelStatistic[x][i]`. -/
def weightedSum (s : State) (i : Nat) : ℚ :=
  ∑ x ∈ Finset.range s.m_LabelPopulation.length,
    (((s.m_LabelPopulation[x]?).getD 0 : Nat) : ℚ) * ((s.m_LabelStatistic[x]?).getD []).getD i 0

/-- The quotient `v / c` in which a division by zero has no result. -/
def vdivChecked (v : List ℚ) (c : ℚ) : Option (List ℚ) :=
  if c = 0 then none else some (vdiv v c)

/-- One iteration of the statistics loop, as `statStep`, in which the division by
`m_LabelPopulation[label] + m_LabelPopulation[correspondingLabel]` has no result when the
divisor is zero. -/
def statStepChecked (s : State) (label : Nat) : Option State := do
  let correspondingLabel ← s.m_LUT[label]?
  let popLabel ← s.m_LabelPopulation[label]?
  if popLabel ≠ 0 ∧ correspondingLabel ≠ label then
    let statCorr ← s.m_LabelStatistic[correspondingLabel]?
    let popCorr ← s.m_LabelPopulation[correspondingLabel]?
    let statLabel ← s.m_LabelStatistic[label]?
    let mean ← vdivChecked (vadd (vscale statCorr popCorr) (vscale statLabel popLabel))
      ((popLabel : ℚ) + (popCorr : ℚ))
    let stat1 ← write s.m_LabelStatistic correspondingLabel mean
    let pop1 ← write s.m_LabelPopulation correspondingLabel (popCorr + popLabel)
    let pop2 ← write pop1 label 0
    some { s with m_LabelStatistic := stat1, m_LabelPopulation := pop2 }
  else
    some s

/-- The statistics loop with the checked division. -/
def statLoopChecked (s : State) : Option State :=
  (List.range s.m_LUT.length).foldlM statStepChecked s

theorem RootN.fixedN {lut : List Nat} {k x r : Nat} (h : RootN lut k x r) :
    lut[r]? = some r := by
  induction h with
  | root h => exact h
  | step _ _ _ ih => exact ih

theorem RootN.ltN {lut : List Nat} {k x r : Nat} (h : RootN lut k x r) :
    x < lut.length := by
  cases h with
  | root h => exact (List.getElem?_eq_some_iff.1 h).1
  | step h _ _ => exact (List.getElem?_eq_some_iff.1 h).1

theorem RootN.uniqueN {lut : List Nat} {k x r : Nat} (h : RootN lut k x r) :
    ∀ {k' r' : Nat}, RootN lut k' x r' → k = k' ∧ r = r' := by
  induction h with
  | root h =>
    intro k' r' h'
    cases h' with
    | root _ => exact ⟨rfl, rfl⟩
    | step h1 h2 _ => rw [h] at h1; exact absurd (Option.some.inj h1).symm h2
  | step h1 h2 _ ih =>
    intro k' r' h'
    cases h' with
    | root h => rw [h] at h1; exact absurd (Option.some.inj h1).symm h2
    | step h1' _ h3' =>
      rw [h1] at h1'
      cases Option.some.inj h1'
      obtain ⟨hk, hr⟩ := ih h3'
      exact ⟨by rw [hk], hr⟩

theorem rootWalk_sound {lut : List Nat} : ∀ (n x r : Nat),
    rootWalk lut n x = some r → ∃ k, k < n ∧ RootN lut k x r := by
  intro n
  induction n with
  | zero => intro x r h; simp [rootWalk] at h
  | succ n ih =>
    intro x r h
    unfold rootWalk at h
    cases hx : lut[x]? with
    | none => simp [hx] at h
    | some p =>
      simp only [hx] at h
      by_cases hp : p = x
      · simp [hp] at h
        subst h; subst hp
        exact ⟨0, Nat.succ_pos _, RootN.root hx⟩
      · simp [hp] at h
        obtain ⟨k, hk, hr⟩ := ih p r h
        exact ⟨k + 1, Nat.succ_lt_succ hk, RootN.step hx hp hr⟩

theorem rootWalk_of_RootN {lut : List Nat} {k x r : Nat} (h : RootN lut k x r) :
    ∀ n, k < n → rootWalk lut n x = some r := by
  induction h with
  | root h =>
    intro n hn
    obtain ⟨m, rfl⟩ : ∃ m, n = m + 1 := ⟨n - 1, by omega⟩
    simp [rootWalk, h]
  | step h1 h2 _ ih =>
    intro n hn
    obtain ⟨m, rfl⟩ : ∃ m, n = m + 1 := ⟨n - 1, by omega⟩
    simp [rootWalk, h1, h2, ih m (by omega)]

theorem findLoop_eq_rootWalk {lut : List Nat} : ∀ (n label c : Nat),
    lut[label]? = some c → findLoop lut n label c = rootWalk lut n label := by
  intro n
  induction n with
  | zero => intro label c _; rfl
  | succ n ih =>
    intro label c h
    unfold findLoop rootWalk
    simp only [h]
    by_cases hc : c = label
    · subst hc; simp
    · have hc' : label ≠ c := fun e => hc e.symm
      simp only [ne_eq, hc, hc', not_false_eq_true, if_true]
      cases hn : lut[c]? with
      | none => cases n <;> simp [rootWalk, hn]
      | some next => exact ih c next hn

theorem FindCorrespondingLabel_eq_rootWalk (lut : List Nat) (label : Nat) :
    FindCorrespondingLabel lut label = rootWalk lut lut.length label := by
  unfold FindCorrespondingLabel
  cases h : lut[label]? with
  | none => cases hl : lut.length <;> simp [rootWalk, h]
  | some c => exact findLoop_eq_rootWalk _ _ _ h

/-- The labels on a chain of `k` pointer steps are `k + 1` distinct valid indices. -/
theorem RootN.chain_set {lut : List Nat} {k x r : Nat} (h : RootN lut k x r) :
    ∃ S : Finset Nat, S.card = k + 1 ∧
      ∀ y ∈ S, y < lut.length ∧ ∃ j, j ≤ k ∧ RootN lut j y r := by
  induction h with
  | root h =>
    rename_i r
    exact ⟨{r}, by simp, fun y hy => by
      rw [Finset.mem_singleton] at hy
      subst hy
      exact ⟨(List.getElem?_eq_some_iff.1 h).1, 0, le_refl _, RootN.root h⟩⟩
  | step h1 h2 h3 ih =>
    rename_i k x p r
    obtain ⟨S, hcard, hS⟩ := ih
    have hx : x ∉ S := by
      intro hmem
      obtain ⟨_, j, hj, hjr⟩ := hS x hmem
      have := (hjr.uniqueN (RootN.step h1 h2 h3)).1
      omega
    refine ⟨insert x S, by rw [Finset.card_insert_of_not_mem hx, hcard], ?_⟩
    intro y hy
    rcases Finset.mem_insert.1 hy with rfl | hy
    · exact ⟨(List.getElem?_eq_some_iff.1 h1).1, k + 1, le_refl _, RootN.step h1 h2 h3⟩
    · obtain ⟨hlt, j, hj, hjr⟩ := hS y hy
      exact ⟨hlt, j, Nat.le_succ_of_le hj, hjr⟩

theorem RootN.steps_lt_length {lut : List Nat} {k x r : Nat} (h : RootN lut k x r) :
    k < lut.length := by
  obtain ⟨S, hcard, hS⟩ := h.chain_set
  have hsub : S ⊆ Finset.range lut.length := fun y hy =>
    Finset.mem_range.2 (hS y hy).1
  have := Finset.card_le_card hsub
  rw [Finset.card_range, hcard] at this
  omega

/-- A root walk that returns under some budget returns the same label under the budget
`m_LUT.size()`: the budget used by the embedding is never the reason for `none`. -/
theorem rootWalk_complete {lut : List Nat} {n x r : Nat} (h : rootWalk lut n x = some r) :
    rootWalk lut lut.length x = some r := by
  obtain ⟨k, _, hk⟩ := rootWalk_sound n x r h
  exact rootWalk_of_RootN hk _ hk.steps_lt_length

theorem rootOf_iff_rootWalk {lut : List Nat} {x r : Nat} :
    RootOf lut x r ↔ rootWalk lut lut.length x = some r := by
  constructor
  · rintro ⟨k, hk⟩
    exact rootWalk_of_RootN hk _ hk.steps_lt_length
  · intro h
    obtain ⟨k, _, hk⟩ := rootWalk_sound _ x r h
    exact ⟨k, hk⟩

theorem rootOf_iff_find {lut : List Nat} {x r : Nat} :
    RootOf lut x r ↔ FindCorrespondingLabel lut x = some r := by
  rw [FindCorrespondingLabel_eq_rootWalk]; exact rootOf_iff_rootWalk

theorem Acyclic.hasRoot {lut : List Nat} (h : Acyclic lut) {x : Nat} (hx : x < lut.length) :
    ∃ r, RootOf lut x r := by
  obtain ⟨n, r, hr⟩ := h x hx
  obtain ⟨k, _, hk⟩ := rootWalk_sound n x r hr
  exact ⟨r, k, hk⟩

theorem acyclic_of_rootOf {lut : List Nat} (h : ∀ x, x < lut.length → ∃ r, RootOf lut x r) :
    Acyclic lut := by
  intro x hx
  obtain ⟨r, hr⟩ := h x hx
  exact ⟨lut.length, r, rootOf_iff_rootWalk.1 hr⟩

theorem RootOf.unique {lut : List Nat} {x r r' : Nat} (h : RootOf lut x r)
    (h' : RootOf lut x r') : r = r' := by
  obtain ⟨k, hk⟩ := h
  obtain ⟨k', hk'⟩ := h'
  exact (hk.uniqueN hk').2

theorem RootOf.root_fixed {lut : List Nat} {x r : Nat} (h : RootOf lut x r) :
    lut[r]? = some r := by
  obtain ⟨k, hk⟩ := h
  exact hk.fixedN

theorem RootOf.lt_length {lut : List Nat} {x r : Nat} (h : RootOf lut x r) :
    x < lut.length := by
  obtain ⟨k, hk⟩ := h
  exact hk.ltN

theorem RootOf.root_lt_length {lut : List Nat} {x r : Nat} (h : RootOf lut x r) :
    r < lut.length :=
  (List.getElem?_eq_some_iff.1 h.root_fixed).1

theorem RootOf.self {lut : List Nat} {r : Nat} (h : lut[r]? = some r) : RootOf lut r r :=
  ⟨0, RootN.root h⟩

theorem RootOf.of_root {lut : List Nat} {x r : Nat} (h : RootOf lut x r) : RootOf lut r r :=
  RootOf.self h.root_fixed

theorem RootOf.step {lut : List Nat} {x p r : Nat} (h1 : lut[x]? = some p) (h2 : p ≠ x)
    (h : RootOf lut p r) : RootOf lut x r := by
  obtain ⟨k, hk⟩ := h
  exact ⟨k + 1, RootN.step h1 h2 hk⟩

/-- One pointer step moves along the chain: the parent of `x` has the same root. -/
theorem RootOf.parent {lut : List Nat} {x p r : Nat} (h : RootOf lut x r)
    (hp : lut[x]? = some p) : RootOf lut p r := by
  obtain ⟨k, hk⟩ := h
  cases hk with
  | root h0 => rw [h0] at hp; cases Option.some.inj hp; exact RootOf.self h0
  | step h1 _ h3 => rw [h1] at hp; cases Option.some.inj hp; exact ⟨_, h3⟩

/-! ## Effect of the union step on roots -/

/-- Re-pointing the root `rb` at another root `ra` sends every label whose root was `rb`
to `ra` and leaves the root of every other label unchanged. -/
theorem RootOf.set_link {lut : List Nat} {ra rb : Nat} (ha : lut[ra]? = some ra)
    (hb : lut[rb]? = some rb) (hne : ra ≠ rb) {x r : Nat} (h : RootOf lut x r) :
    RootOf (lut.set rb ra) x (if r = rb then ra else r) := by
  obtain ⟨k, hk⟩ := h
  have hrb : rb < lut.length := (List.getElem?_eq_some_iff.1 hb).1
  induction hk with
  | @root r h0 =>
    by_cases hr : r = rb
    · subst hr
      rw [if_pos rfl]
      refine RootOf.step (p := ra) ?_ hne (RootOf.self ?_)
      · rw [List.getElem?_set_self hrb]
      · rw [List.getElem?_set_ne (Ne.symm hne)]; exact ha
    · rw [if_neg hr]
      refine RootOf.self ?_
      rw [List.getElem?_set_ne (Ne.symm hr)]; exact h0
  | @step k x p r h1 h2 _ ih =>
    have hx : rb ≠ x := by
      intro e; subst e
      rw [hb] at h1; exact h2 (Option.some.inj h1).symm
    refine RootOf.step (p := p) ?_ h2 ih
    rw [List.getElem?_set_ne hx]; exact h1

theorem set_eq_self_of_getElem? {α : Type} {l : List α} {i : Nat} {a : α}
    (h : l[i]? = some a) : l.set i a = l := by
  apply List.ext_getElem?
  intro n
  rw [List.getElem?_set]
  split
  · next e => subst e; rw [h]; simp [(List.getElem?_eq_some_iff.1 h).1]
  · rfl

theorem write_eq_some {α : Type} {v v' : List α} {i : Nat} {x : α}
    (h : write v i x = some v') : i < v.length ∧ v' = v.set i x := by
  unfold write at h
  split at h
  · exact ⟨by assumption, (Option.some.inj h).symm⟩
  · cases h

theorem write_of_lt {α : Type} {v : List α} {i : Nat} (x : α) (h : i < v.length) :
    write v i x = some (v.set i x) := by
  simp [write, h]

/-- The table written by the union step, in terms of the two roots. -/
theorem unionStep_eq {lut : List Nat} {a b ra rb : Nat} (ha : RootOf lut a ra)
    (hb : RootOf lut b rb) :
    unionStep lut a b =
      some (if ra < rb then lut.set rb ra else if ra = rb then lut else lut.set ra rb) := by
  have hra := ha.root_fixed
  have hrb := hb.root_fixed
  have hral := ha.root_lt_length
  have hrbl := hb.root_lt_length
  unfold unionStep
  rw [rootOf_iff_rootWalk.1 ha, rootOf_iff_rootWalk.1 hb]
  simp only [Option.bind_eq_bind, Option.some_bind]
  by_cases hlt : ra < rb
  · rw [if_pos hlt, if_pos hlt, write_of_lt _ hrbl]
  · rw [if_neg hlt, if_neg hlt, hra]
    simp only [Option.some_bind]
    rw [write_of_lt _ hral]
    simp only [Option.some_bind]
    rw [write_of_lt _ (by rw [List.length_set]; exact hral)]
    by_cases he : ra = rb
    · subst he
      rw [if_pos rfl]
      rw [List.set_set, set_eq_self_of_getElem? hra]
    · rw [if_neg he, List.set_set]

/-- After the union step every label whose root was one of the two roots has the smaller of
them as root, and every other label keeps its root. -/
theorem unionStep_rootOf {lut lut' : List Nat} {a b ra rb : Nat} (ha : RootOf lut a ra)
    (hb : RootOf lut b rb) (hu : unionStep lut a b = some lut') {x r : Nat}
    (h : RootOf lut x r) :
    RootOf lut' x (if r = ra ∨ r = rb then min ra rb else r) := by
  rw [unionStep_eq ha hb] at hu
  have hu := (Option.some.inj hu).symm
  have hra := ha.root_fixed
  have hrb := hb.root_fixed
  by_cases hlt : ra < rb
  · rw [if_pos hlt] at hu
    subst hu
    have := h.set_link hra hrb (Nat.ne_of_lt hlt)
    by_cases h1 : r = rb
    · rw [if_pos h1] at this
      rw [if_pos (Or.inr h1), Nat.min_eq_left (Nat.le_of_lt hlt)]; exact this
    · rw [if_neg h1] at this
      by_cases h2 : r = ra
      · rw [if_pos (Or.inl h2), Nat.min_eq_left (Nat.le_of_lt hlt)]; rw [h2] at this; exact this
      · rw [if_neg (by tauto)]; exact this
  · rw [if_neg hlt] at hu
    by_cases he : ra = rb
    · rw [if_pos he] at hu
      subst hu; subst he
      by_cases h1 : r = ra
      · rw [if_pos (Or.inl h1), Nat.min_self]; rw [h1] at h; exact h
      · rw [if_neg (by tauto)]; exact h
    · rw [if_neg he] at hu
      subst hu
      have hle : rb ≤ ra := Nat.le_of_not_lt hlt
      have := h.set_link hrb hra (Ne.symm he)
      by_cases h1 : r = ra
      · rw [if_pos h1] at this
        rw [if_pos (Or.inl h1), Nat.min_eq_right hle]; exact this
      · rw [if_neg h1] at this
        by_cases h2 : r = rb
        · rw [if_pos (Or.inr h2), Nat.min_eq_right hle]; rw [h2] at this; exact this
        · rw [if_neg (by tauto)]; exact this

theorem unionStep_length {lut lut' : List Nat} {a b ra rb : Nat} (ha : RootOf lut a ra)
    (hb : RootOf lut b rb) (hu : unionStep lut a b = some lut') :
    lut'.length = lut.length := by
  rw [unionStep_eq ha hb] at hu
  have hu := (Option.some.inj hu).symm
  subst hu
  split
  · simp
  · split <;> simp

theorem unionStep_acyclic {lut lut' : List Nat} {a b ra rb : Nat} (hac : Acyclic lut)
    (ha : RootOf lut a ra) (hb : RootOf lut b rb) (hu : unionStep lut a b = some lut') :
    Acyclic lut' := by
  apply acyclic_of_rootOf
  intro x hx
  rw [unionStep_length ha hb hu] at hx
  obtain ⟨r, hr⟩ := hac.hasRoot hx
  exact ⟨_, unionStep_rootOf ha hb hu hr⟩

/-! ## The flatten loop -/

/-- Writing its own root into the entry of `x` changes the root of no label. -/
theorem RootOf.set_root {lut : List Nat} {x r : Nat} (hx : RootOf lut x r) {y s : Nat}
    (hy : RootOf lut y s) : RootOf (lut.set x r) y s := by
  have hxl := hx.lt_length
  obtain ⟨k, hk⟩ := hy
  induction hk with
  | @root s h0 =>
    refine RootOf.self ?_
    by_cases e : x = s
    · subst e
      have : r = x := hx.unique (RootOf.self h0)
      subst this
      rw [List.getElem?_set_self hxl]
    · rw [List.getElem?_set_ne e]; exact h0
  | @step k y p s h1 h2 h3 ih =>
    by_cases e : x = y
    · subst e
      have hrs : r = s := hx.unique (RootOf.step h1 h2 ⟨k, h3⟩)
      subst hrs
      have hne : r ≠ x := by
        intro e
        have := hx.root_fixed
        rw [e, h1] at this
        exact h2 (Option.some.inj this)
      refine RootOf.step (p := r) (List.getElem?_set_self hxl) hne (RootOf.self ?_)
      rw [List.getElem?_set_ne (Ne.symm hne)]; exact hx.root_fixed
    · exact RootOf.step (by rw [List.getElem?_set_ne e]; exact h1) h2 ih

theorem flattenStep_eq {lut : List Nat} {x r : Nat} (hx : RootOf lut x r) :
    flattenStep lut x = some (lut.set x r) := by
  unfold flattenStep
  rw [rootOf_iff_rootWalk.1 hx]
  simp [write, hx.lt_length]

theorem flattenStep_some {lut lut' : List Nat} {x : Nat} (h : flattenStep lut x = some lut') :
    ∃ r, RootOf lut x r ∧ lut' = lut.set x r := by
  unfold flattenStep at h
  cases hw : rootWalk lut lut.length x with
  | none => simp [hw] at h
  | some r =>
    have hr : RootOf lut x r := rootOf_iff_rootWalk.2 hw
    rw [hw] at h
    simp only [Option.bind_eq_bind, Option.some_bind] at h
    exact ⟨r, hr, (write_eq_some h).2⟩

theorem PointsToRoot.toRootOf {lut : List Nat} {l : Nat} (h : PointsToRoot lut l) :
    ∃ s, lut[l]? = some s ∧ RootOf lut l s := by
  obtain ⟨s, h1, h2⟩ := h
  refine ⟨s, h1, ?_⟩
  by_cases e : s = l
  · subst e; exact RootOf.self h2
  · exact RootOf.step h1 e (RootOf.self h2)

theorem PointsToRoot.set_root_pts {lut : List Nat} {x r l : Nat} (hx : RootOf lut x r)
    (h : PointsToRoot lut l) : PointsToRoot (lut.set x r) l := by
  obtain ⟨s, h1, hr⟩ := h.toRootOf
  have h2 := hr.root_fixed
  have hxl := hx.lt_length
  have key : ∀ z t, lut[z]? = some t → RootOf lut z t → (lut.set x r)[z]? = some t := by
    intro z t hz hzt
    by_cases e : x = z
    · subst e
      rw [List.getElem?_set_self hxl, hx.unique hzt]
    · rw [List.getElem?_set_ne e]; exact hz
  exact ⟨s, key l s h1 hr, key s s h2 (RootOf.self h2)⟩

theorem flatten_fold {ls : List Nat} : ∀ {lut lut' : List Nat},
    ls.foldlM flattenStep lut = some lut' →
      lut'.length = lut.length ∧ (∀ y s, RootOf lut y s → RootOf lut' y s) ∧
      (∀ l, PointsToRoot lut l → PointsToRoot lut' l) ∧ (∀ l ∈ ls, PointsToRoot lut' l) := by
  induction ls with
  | nil =>
    intro lut lut' h
    simp only [List.foldlM_nil, Option.pure_def, Option.some.injEq] at h
    subst h
    exact ⟨rfl, fun _ _ h => h, fun _ h => h, fun l hl => by cases hl⟩
  | cons a ls ih =>
    intro lut lut' h
    rw [List.foldlM_cons] at h
    cases hs : flattenStep lut a with
    | none => rw [hs] at h; cases h
    | some lut1 =>
      rw [hs] at h
      simp only [Option.bind_eq_bind, Option.some_bind] at h
      obtain ⟨r, hr, rfl⟩ := flattenStep_some hs
      obtain ⟨hlen, hroots, hkeep, hpts⟩ := ih h
      refine ⟨by rw [hlen, List.length_set], fun y s hy => hroots y s (hr.set_root hy),
        fun l hl => hkeep l (hl.set_root_pts hr), ?_⟩
      intro l hl
      rcases List.mem_cons.1 hl with rfl | hl
      · apply hkeep
        have hrr := hr.root_fixed
        have hrr' : (lut.set l r)[r]? = some r := by
          by_cases e : l = r
          · subst e; rw [List.getElem?_set_self hr.lt_length]
          · rw [List.getElem?_set_ne e]; exact hrr
        exact ⟨r, List.getElem?_set_self hr.lt_length, hrr'⟩
      · exact hpts l hl

theorem flatten_fold_total {ls : List Nat} : ∀ {lut : List Nat}, Acyclic lut →
    (∀ l ∈ ls, l < lut.length) → ∃ lut', ls.foldlM flattenStep lut = some lut' := by
  induction ls with
  | nil => intro lut _ _; exact ⟨lut, rfl⟩
  | cons a ls ih =>
    intro lut hac hls
    obtain ⟨r, hr⟩ := hac.hasRoot (hls a (List.mem_cons_self _ _))
    rw [List.foldlM_cons, flattenStep_eq hr]
    simp only [Option.bind_eq_bind, Option.some_bind]
    apply ih
    · apply acyclic_of_rootOf
      intro x hx
      rw [List.length_set] at hx
      obtain ⟨s, hs⟩ := hac.hasRoot hx
      exact ⟨s, hr.set_root hs⟩
    · intro l hl
      rw [List.length_set]
      exact hls l (List.mem_cons_of_mem _ hl)

theorem flattenLoop_total {lut : List Nat} (hac : Acyclic lut) :
    ∃ lut', flattenLoop lut = some lut' :=
  flatten_fold_total hac (fun _ hl => List.mem_range.1 hl)

/-- What the flatten loop leaves behind: the size is unchanged and every entry holds the
root that its label had before the loop, which is also its root afterwards. -/
theorem flattenLoop_spec {lut lut' : List Nat} (h : flattenLoop lut = some lut') :
    lut'.length = lut.length ∧ (∀ y s, RootOf lut y s → RootOf lut' y s) ∧
      ∀ x, x < lut.length → PointsToRoot lut' x := by
  obtain ⟨hlen, hroots, _, hpts⟩ := flatten_fold h
  exact ⟨hlen, hroots, fun x hx => hpts x (List.mem_range.2 hx)⟩

theorem acyclic_of_walks {lut : List Nat}
    (h : ∀ x, x < lut.length → (rootWalk lut lut.length x).isSome = true) : Acyclic lut := by
  intro x hx
  obtain ⟨r, hr⟩ := Option.isSome_iff_exists.1 (h x hx)
  exact ⟨_, r, hr⟩

theorem sum_set_add : ∀ (l : List Nat) (i : Nat) (a v : Nat), l[i]? = some a →
    (l.set i v).sum + a = l.sum + v := by
  intro l
  induction l with
  | nil => intro i a v h; simp at h
  | cons x xs ih =>
    intro i a v h
    cases i with
    | zero =>
      simp only [List.getElem?_cons_zero, Option.some.injEq] at h
      subst h
      simp only [List.set_cons_zero, List.sum_cons]; omega
    | succ i =>
      simp only [List.getElem?_cons_succ] at h
      have := ih i a v h
      simp only [List.set_cons_succ, List.sum_cons]; omega

/-- What one iteration of the statistics loop does, read off its definition. -/
theorem statStep_cases {s s' : State} {label : Nat} (h : statStep s label = some s') :
    ∃ c pl, s.m_LUT[label]? = some c ∧ s.m_LabelPopulation[label]? = some pl ∧
      ((¬ (pl ≠ 0 ∧ c ≠ label) ∧ s' = s) ∨
       (pl ≠ 0 ∧ c ≠ label ∧ ∃ sc pc sl, s.m_LabelStatistic[c]? = some sc ∧
          s.m_LabelPopulation[c]? = some pc ∧ s.m_LabelStatistic[label]? = some sl ∧
          s' = { s with
            m_LabelStatistic := s.m_LabelStatistic.set c
              (vdiv (vadd (vscale sc pc) (vscale sl pl)) ((pl : ℚ) + (pc : ℚ))),
            m_LabelPopulation := (s.m_LabelPopulation.set c (pc + pl)).set label 0 })) := by
  unfold statStep at h
  simp only [Option.bind_eq_bind, Option.bind_eq_some] at h
  obtain ⟨c, hc, pl, hpl, h⟩ := h
  refine ⟨c, pl, hc, hpl, ?_⟩
  split at h
  · next hcond =>
    right
    simp only [Option.bind_eq_some] at h
    obtain ⟨sc, hsc, pc, hpc, sl, hsl, st1, hst1, p1, hp1, p2, hp2, h⟩ := h
    obtain ⟨_, rfl⟩ := write_eq_some hst1
    obtain ⟨_, rfl⟩ := write_eq_some hp1
    obtain ⟨_, rfl⟩ := write_eq_some hp2
    exact ⟨hcond.1, hcond.2, sc, pc, sl, hsc, hpc, hsl, (Option.some.inj h).symm⟩
  · next hcond =>
    left
    exact ⟨hcond, (Option.some.inj h).symm⟩

theorem weighted_mean_component (mi mf : List ℚ) (pi pf : ℚ) (i : Nat) (a b : ℚ)
    (ha : mi[i]? = some a) (hb : mf[i]? = some b) :
    (vdiv (vadd (vscale mi pi) (vscale mf pf)) (pi + pf))[i]? =
      some ((a * pi + b * pf) / (pi + pf)) := by
  simp [vdiv, vadd, vscale, List.getElem?_map, List.getElem?_zipWith, ha, hb]

theorem statStep_merge {s : State} {label c pl pc : Nat} {sc sl : List ℚ}
    (hc : s.m_LUT[label]? = some c) (hpl : s.m_LabelPopulation[label]? = some pl)
    (hpl0 : pl ≠ 0) (hne : c ≠ label) (hsc : s.m_LabelStatistic[c]? = some sc)
    (hpc : s.m_LabelPopulation[c]? = some pc) (hsl : s.m_LabelStatistic[label]? = some sl) :
    statStep s label = some { s with
      m_LabelStatistic := s.m_LabelStatistic.set c
        (vdiv (vadd (vscale sc pc) (vscale sl pl)) ((pl : ℚ) + (pc : ℚ))),
      m_LabelPopulation := (s.m_LabelPopulation.set c (pc + pl)).set label 0 } := by
  unfold statStep
  have h1 : c < s.m_LabelStatistic.length := (List.getElem?_eq_some_iff.1 hsc).1
  have h2 : c < s.m_LabelPopulation.length := (List.getElem?_eq_some_iff.1 hpc).1
  have h3 : label < s.m_LabelPopulation.length := (List.getElem?_eq_some_iff.1 hpl).1
  simp only [hc, hpl, hsc, hpc, hsl, Option.bind_eq_bind, Option.some_bind, ne_eq, hpl0, hne,
    not_false_eq_true, and_self, if_true, write_of_lt _ h1, write_of_lt _ h2]
  rw [write_of_lt _ (by rw [List.length_set]; exact h3)]
  rfl

theorem statStep_skip {s : State} {label c pl : Nat}
    (hc : s.m_LUT[label]? = some c) (hpl : s.m_LabelPopulation[label]? = some pl)
    (h : ¬ (pl ≠ 0 ∧ c ≠ label)) : statStep s label = some s := by
  unfold statStep
  simp only [hc, hpl, Option.bind_eq_bind, Option.some_bind, if_neg h]

theorem statStep_frame {s s' : State} {label : Nat} (h : statStep s label = some s') :
    s'.m_LUT = s.m_LUT ∧ s'.m_LabelPopulation.length = s.m_LabelPopulation.length ∧
      s'.m_LabelStatistic.length = s.m_LabelStatistic.length ∧
      s'.m_LabelPopulation.sum = s.m_LabelPopulation.sum := by
  obtain ⟨c, pl, hc, hpl, h | h⟩ := statStep_cases h
  · obtain ⟨_, rfl⟩ := h
    exact ⟨rfl, rfl, rfl, rfl⟩
  · obtain ⟨hpl0, hne, sc, pc, sl, hsc, hpc, hsl, rfl⟩ := h
    refine ⟨rfl, by simp, by simp, ?_⟩
    show ((s.m_LabelPopulation.set c (pc + pl)).set label 0).sum = s.m_LabelPopulation.sum
    have h1 := sum_set_add s.m_LabelPopulation c pc (pc + pl) hpc
    have h2 := sum_set_add (s.m_LabelPopulation.set c (pc + pl)) label pl 0
      (by rw [List.getElem?_set_ne hne]; exact hpl)
    omega

theorem statFold_frame {ls : List Nat} : ∀ {s s' : State}, ls.foldlM statStep s = some s' →
    s'.m_LUT = s.m_LUT ∧ s'.m_LabelPopulation.length = s.m_LabelPopulation.length ∧
      s'.m_LabelStatistic.length = s.m_LabelStatistic.length ∧
      s'.m_LabelPopulation.sum = s.m_LabelPopulation.sum := by
  induction ls with
  | nil =>
    intro s s' h
    simp only [List.foldlM_nil, Option.pure_def, Option.some.injEq] at h
    subst h
    exact ⟨rfl, rfl, rfl, rfl⟩
  | cons a ls ih =>
    intro s s' h
    rw [List.foldlM_cons] at h
    simp only [Option.bind_eq_bind, Option.bind_eq_some] at h
    obtain ⟨s1, h1, h2⟩ := h
    obtain ⟨a1, a2, a3, a4⟩ := statStep_frame h1
    obtain ⟨b1, b2, b3, b4⟩ := ih h2
    exact ⟨b1.trans a1, b2.trans a2, b3.trans a3, b4.trans a4⟩

/-- The population table after the statistics loop has handled the labels below `k`, on a
table in which every entry points to a root: a root holds its own population plus the
populations of the labels below `k` that point to it, and a label that is not a root holds
`0` once handled and its own population before. -/
theorem statLoop_upto {s : State}
    (hflat : ∀ x c : Nat, s.m_LUT[x]? = some c → s.m_LUT[c]? = some c) :
    ∀ (k : Nat) (sk : State), (List.range k).foldlM statStep s = some sk →
      (∀ r : Nat, s.m_LUT[r]? = some r →
        (sk.m_LabelPopulation[r]?).getD 0 = (s.m_LabelPopulation[r]?).getD 0 +
          ∑ x ∈ Finset.range k, if x ≠ r ∧ s.m_LUT[x]? = some r
            then (s.m_LabelPopulation[x]?).getD 0 else 0) ∧
      (∀ x c : Nat, s.m_LUT[x]? = some c → c ≠ x →
        (sk.m_LabelPopulation[x]?).getD 0 =
          if x < k then 0 else (s.m_LabelPopulation[x]?).getD 0) := by
  intro k
  induction k with
  | zero =>
    intro sk h
    simp only [List.range_zero, List.foldlM_nil, Option.pure_def, Option.some.injEq] at h
    subst h
    simp
  | succ k ih =>
    intro s' h
    rw [List.range_succ, List.foldlM_append] at h
    simp only [Option.bind_eq_bind, Option.bind_eq_some] at h
    obtain ⟨sk, hk, hstep⟩ := h
    simp only [List.foldlM_cons, List.foldlM_nil, Option.bind_eq_bind, Option.pure_def,
      Option.bind_some] at hstep
    obtain ⟨hroot, hnon⟩ := ih sk hk
    have hlut : sk.m_LUT = s.m_LUT := (statFold_frame hk).1
    obtain ⟨c, pl, hc, hpl, hcase⟩ := statStep_cases hstep
    rw [hlut] at hc
    have hcroot := hflat k c hc
    by_cases hck : c = k
    · -- `k` is a root: nothing is written
      subst hck
      have hs' : s' = sk := by
        rcases hcase with h | h
        · exact h.2
        · exact absurd rfl h.2.1
      subst hs'
      constructor
      · intro r hr
        rw [hroot r hr, Finset.sum_range_succ]
        have : ¬ (c ≠ r ∧ s.m_LUT[c]? = some r) := by
          rintro ⟨h1, h2⟩
          rw [hc] at h2
          exact h1 (Option.some.inj h2)
        rw [if_neg this, add_zero]
      · intro x c' hx hne
        rw [hnon x c' hx hne]
        have hxk : x ≠ c := by
          intro e; subst e
          rw [hc] at hx
          exact hne (Option.some.inj hx).symm
        by_cases h1 : x < c
        · rw [if_pos h1, if_pos (Nat.lt_succ_of_lt h1)]
        · rw [if_neg h1, if_neg (by omega)]
    · have hplk : (s.m_LabelPopulation[k]?).getD 0 = pl := by
        have := hnon k c hc hck
        rw [if_neg (Nat.lt_irrefl k), hpl] at this
        exact this.symm
      have hsumk : ∀ r : Nat, s.m_LUT[r]? = some r →
          (∑ x ∈ Finset.range (k + 1), if x ≠ r ∧ s.m_LUT[x]? = some r
            then (s.m_LabelPopulation[x]?).getD 0 else 0) =
          (∑ x ∈ Finset.range k, if x ≠ r ∧ s.m_LUT[x]? = some r
            then (s.m_LabelPopulation[x]?).getD 0 else 0) + if r = c then pl else 0 := by
        intro r hr
        rw [Finset.sum_range_succ]
        congr 1
        by_cases hrc : r = c
        · subst hrc
          rw [if_pos rfl, if_pos ⟨fun e => hck e.symm, hc⟩, hplk]
        · rw [if_neg hrc, if_neg]
          rintro ⟨_, h2⟩
          rw [hc] at h2
          exact hrc (Option.some.inj h2).symm
      rcases hcase with ⟨hcond, hs'⟩ | ⟨hpl0, _, sc, pc, sl, hsc, hpc, hsl, hs'⟩
      · -- the population of `k` is zero: nothing is written
        subst hs'
        have hpl0 : pl = 0 := by
          by_contra h0
          exact hcond ⟨h0, hck⟩
        constructor
        · intro r hr
          rw [hroot r hr, hsumk r hr, hpl0]
          simp
        · intro x c' hx hne
          rw [hnon x c' hx hne]
          by_cases h1 : x < k
          · rw [if_pos h1, if_pos (Nat.lt_succ_of_lt h1)]
          · by_cases h2 : x = k
            · subst h2
              rw [if_neg h1, if_pos (Nat.lt_succ_self _), hplk, hpl0]
            · rw [if_neg h1, if_neg (by omega)]
      · -- the population of `k` is moved to its root `c`
        subst hs'
        have hcl : c < sk.m_LabelPopulation.length := (List.getElem?_eq_some_iff.1 hpc).1
        have hkl : k < sk.m_LabelPopulation.length := (List.getElem?_eq_some_iff.1 hpl).1
        constructor
        · intro r hr
          have hrk : k ≠ r := by
            intro e; subst e
            rw [hc] at hr
            exact hck (Option.some.inj hr)
          show (((sk.m_LabelPopulation.set c (pc + pl)).set k 0)[r]?).getD 0 = _
          rw [List.getElem?_set_ne hrk, hsumk r hr]
          by_cases hrc : r = c
          · subst hrc
            rw [List.getElem?_set_self hcl, if_pos rfl]
            have := hroot r hr
            rw [hpc] at this
            simp only [Option.getD_some] at this ⊢
            omega
          · rw [List.getElem?_set_ne (Ne.symm hrc), if_neg hrc, hroot r hr, add_zero]
        · intro x c' hx hne
          show (((sk.m_LabelPopulation.set c (pc + pl)).set k 0)[x]?).getD 0 = _
          have hxc : c ≠ x := by
            intro e; subst e
            rw [hcroot] at hx
            exact hne (Option.some.inj hx).symm
          by_cases h2 : x = k
          · subst h2
            rw [List.getElem?_set_self (by rw [List.length_set]; exact hkl),
              if_pos (Nat.lt_succ_self _)]
            rfl
          · rw [List.getElem?_set_ne (Ne.symm h2), List.getElem?_set_ne hxc, hnon x c' hx hne]
            by_cases h1 : x < k
            · rw [if_pos h1, if_pos (Nat.lt_succ_of_lt h1)]
            · rw [if_neg h1, if_neg (by omega)]

theorem closestStep_eq {stat : List (List ℚ)} {label n : Nat} (h : Comparable stat label n)
    (acc : ℚ × Nat) :
    closestStep stat label acc n =
      some (if meanDistance stat label n < acc.1 then (meanDistance stat label n, n)
        else acc) := by
  obtain ⟨a, b, ha, hb, hlen⟩ := h
  unfold closestStep meanDistance
  simp only [ha, hb, Option.bind_eq_bind, Option.some_bind, hlen, if_true, Option.getD_some]
  split <;> rfl

theorem closestStep_some {stat : List (List ℚ)} {label n : Nat} {acc acc' : ℚ × Nat}
    (h : closestStep stat label acc n = some acc') : Comparable stat label n := by
  unfold closestStep at h
  simp only [Option.bind_eq_bind, Option.bind_eq_some] at h
  obtain ⟨a, ha, b, hb, h⟩ := h
  split at h
  · next hlen => exact ⟨a, b, ha, hb, hlen⟩
  · cases h

/-- The selection loop over a neighbour list in iteration order: either no neighbour is
strictly closer than the initial proximity and the accumulator is unchanged, or the result
is the first neighbour of the list at the least distance. -/
theorem closest_fold {stat : List (List ℚ)} {label : Nat} :
    ∀ (ns : List Nat), (∀ n ∈ ns, Comparable stat label n) → ∀ acc : ℚ × Nat,
      ∃ acc', ns.foldlM (closestStep stat label) acc = some acc' ∧
        ((acc' = acc ∧ ∀ n ∈ ns, acc.1 ≤ meanDistance stat label n) ∨
         (acc'.2 ∈ ns ∧ acc'.1 = meanDistance stat label acc'.2 ∧ acc'.1 < acc.1 ∧
          (∀ n ∈ ns, acc'.1 ≤ meanDistance stat label n) ∧
          (ns.Pairwise (fun a b => a < b) →
            ∀ n ∈ ns, meanDistance stat label n = acc'.1 → acc'.2 ≤ n))) := by
  intro ns
  induction ns with
  | nil => intro _ acc; exact ⟨acc, rfl, Or.inl ⟨rfl, fun n hn => by cases hn⟩⟩
  | cons m ns ih =>
    intro hcmp acc
    have hm := hcmp m (List.mem_cons_self _ _)
    have hns : ∀ n ∈ ns, Comparable stat label n := fun n hn =>
      hcmp n (List.mem_cons_of_mem _ hn)
    rw [List.foldlM_cons, closestStep_eq hm]
    simp only [Option.bind_eq_bind, Option.some_bind]
    by_cases hlt : meanDistance stat label m < acc.1
    · rw [if_pos hlt]
      obtain ⟨acc', hf, h | h⟩ := ih hns (meanDistance stat label m, m)
      · obtain ⟨rfl, hall⟩ := h
        refine ⟨_, hf, Or.inr ⟨List.mem_cons_self _ _, rfl, hlt, ?_, ?_⟩⟩
        · intro n hn
          rcases List.mem_cons.1 hn with rfl | hn
          · exact le_refl _
          · exact hall n hn
        · intro hsorted n hn _
          rcases List.mem_cons.1 hn with rfl | hn
          · exact le_refl _
          · exact Nat.le_of_lt ((List.pairwise_cons.1 hsorted).1 n hn)
      · obtain ⟨hmem, hd, hlt', hall, htie⟩ := h
        refine ⟨_, hf, Or.inr ⟨List.mem_cons_of_mem _ hmem, hd, lt_trans hlt' hlt, ?_, ?_⟩⟩
        · intro n hn
          rcases List.mem_cons.1 hn with rfl | hn
          · exact le_of_lt hlt'
          · exact hall n hn
        · intro hsorted n hn hdn
          rcases List.mem_cons.1 hn with rfl | hn
          · exact absurd hdn (ne_of_gt hlt')
          · exact htie (List.pairwise_cons.1 hsorted).2 n hn hdn
    · rw [if_neg hlt]
      have hge : acc.1 ≤ meanDistance stat label m := not_lt.1 hlt
      obtain ⟨acc', hf, h | h⟩ := ih hns acc
      · obtain ⟨rfl, hall⟩ := h
        refine ⟨_, hf, Or.inl ⟨rfl, ?_⟩⟩
        intro n hn
        rcases List.mem_cons.1 hn with rfl | hn
        · exact hge
        · exact hall n hn
      · obtain ⟨hmem, hd, hlt', hall, htie⟩ := h
        refine ⟨_, hf, Or.inr ⟨List.mem_cons_of_mem _ hmem, hd, hlt', ?_, ?_⟩⟩
        · intro n hn
          rcases List.mem_cons.1 hn with rfl | hn
          · exact le_trans (le_of_lt hlt') hge
          · exact hall n hn
        · intro hsorted n hn hdn
          rcases List.mem_cons.1 hn with rfl | hn
          · exact absurd hdn (ne_of_gt (lt_of_lt_of_le hlt' hge))
          · exact htie (List.pairwise_cons.1 hsorted).2 n hn hdn

theorem closest_fold_some {stat : List (List ℚ)} {label : Nat} :
    ∀ (ns : List Nat) (acc acc' : ℚ × Nat),
      ns.foldlM (closestStep stat label) acc = some acc' →
      ∀ n ∈ ns, Comparable stat label n := by
  intro ns
  induction ns with
  | nil => intro _ _ _ n hn; cases hn
  | cons m ns ih =>
    intro acc acc' h n hn
    rw [List.foldlM_cons] at h
    simp only [Option.bind_eq_bind, Option.bind_eq_some] at h
    obtain ⟨acc1, h1, h2⟩ := h
    rcases List.mem_cons.1 hn with rfl | hn
    · exact closestStep_some h1
    · exact ih acc1 acc' h2 n hn

/-- The value of `closestNeighbour`: the key label itself when no neighbour is at a squared
distance below `max()`, and otherwise a neighbour at the least squared distance. -/
theorem closestNeighbour_spec {stat : List (List ℚ)} {label : Nat} {ns : List Nat}
    (hcmp : ∀ n ∈ ns, Comparable stat label n) :
    ∃ c, closestNeighbour stat label ns = some c ∧
      ((c = label ∧ ∀ n ∈ ns, doubleMax ≤ meanDistance stat label n) ∨
       (c ∈ ns ∧ meanDistance stat label c < doubleMax ∧
        (∀ n ∈ ns, meanDistance stat label c ≤ meanDistance stat label n) ∧
        (ns.Pairwise (fun a b => a < b) →
          ∀ n ∈ ns, meanDistance stat label n = meanDistance stat label c → c ≤ n))) := by
  obtain ⟨acc', hf, h⟩ := closest_fold ns hcmp (doubleMax, label)
  refine ⟨acc'.2, by rw [closestNeighbour, hf]; rfl, ?_⟩
  rcases h with ⟨rfl, hall⟩ | ⟨hmem, hd, hlt, hall, htie⟩
  · exact Or.inl ⟨rfl, hall⟩
  · refine Or.inr ⟨hmem, hd ▸ hlt, fun n hn => hd ▸ hall n hn, ?_⟩
    intro hs n hn hdn
    exact htie hs n hn (hdn.trans hd.symm)

theorem doubleMax_pos : (0 : ℚ) < doubleMax := by
  unfold doubleMax; norm_num

theorem unionStep_some {lut lut' : List Nat} {a b : Nat} (h : unionStep lut a b = some lut') :
    ∃ ra rb, RootOf lut a ra ∧ RootOf lut b rb := by
  unfold unionStep at h
  simp only [Option.bind_eq_bind, Option.bind_eq_some] at h
  obtain ⟨ra, hra, rb, hrb, _⟩ := h
  exact ⟨ra, rb, rootOf_iff_rootWalk.2 hra, rootOf_iff_rootWalk.2 hrb⟩

theorem resolveStep_some {stat : List (List ℚ)} {lut lut' : List Nat} {e : Nat × List Nat}
    (h : resolveStep stat lut e = some lut') :
    ∃ c, closestNeighbour stat e.1 e.2 = some c ∧ unionStep lut e.1 c = some lut' := by
  unfold resolveStep at h
  simp only [Option.bind_eq_bind, Option.bind_eq_some] at h
  exact h

/-- The resolve-and-union loop only merges classes: the new root of a label is a function
of its old root, the table keeps its size, and every visited key ends with the same root as
its selected neighbour. -/
theorem resolve_fold_spec {stat : List (List ℚ)} {es : NeighboursMap} :
    ∀ {lut lut' : List Nat}, es.foldlM (resolveStep stat) lut = some lut' →
      lut'.length = lut.length ∧
      (∃ g : Nat → Nat, ∀ x r, RootOf lut x r → RootOf lut' x (g r)) ∧
      (∀ e ∈ es, ∃ c r', closestNeighbour stat e.1 e.2 = some c ∧
        RootOf lut' e.1 r' ∧ RootOf lut' c r') := by
  induction es with
  | nil =>
    intro lut lut' h
    simp only [List.foldlM_nil, Option.pure_def, Option.some.injEq] at h
    subst h
    exact ⟨rfl, ⟨id, fun _ _ h => h⟩, fun e he => by cases he⟩
  | cons e es ih =>
    intro lut lut' h
    rw [List.foldlM_cons] at h
    simp only [Option.bind_eq_bind, Option.bind_eq_some] at h
    obtain ⟨lut1, h1, h2⟩ := h
    obtain ⟨c, hc, hu⟩ := resolveStep_some h1
    obtain ⟨ra, rb, hra, hrb⟩ := unionStep_some hu
    obtain ⟨hlen, ⟨g, hg⟩, hkeys⟩ := ih h2
    refine ⟨hlen.trans (unionStep_length hra hrb hu), ?_, ?_⟩
    · exact ⟨fun r => g (if r = ra ∨ r = rb then min ra rb else r), fun x r hx =>
        hg x _ (unionStep_rootOf hra hrb hu hx)⟩
    · intro e' he'
      rcases List.mem_cons.1 he' with rfl | he'
      · have h1 := unionStep_rootOf hra hrb hu hra
        have h2 := unionStep_rootOf hra hrb hu hrb
        rw [if_pos (Or.inl rfl)] at h1
        rw [if_pos (Or.inr rfl)] at h2
        exact ⟨c, _, hc, hg _ _ h1, hg _ _ h2⟩
      · exact hkeys e' he'

theorem acyclic_of_coarsening {lut lut' : List Nat} (hac : Acyclic lut)
    (hlen : lut'.length = lut.length)
    (hg : ∃ g : Nat → Nat, ∀ x r, RootOf lut x r → RootOf lut' x (g r)) : Acyclic lut' := by
  obtain ⟨g, hg⟩ := hg
  apply acyclic_of_rootOf
  intro x hx
  rw [hlen] at hx
  obtain ⟨r, hr⟩ := hac.hasRoot hx
  exact ⟨_, hg x r hr⟩

theorem closestNeighbour_lt {stat : List (List ℚ)} {label c n : Nat} {ns : List Nat}
    (hl : label < n) (hns : ∀ m ∈ ns, m < n ∧ Comparable stat label m)
    (hc : closestNeighbour stat label ns = some c) : c < n := by
  obtain ⟨c', hc', h⟩ := closestNeighbour_spec (fun m hm => (hns m hm).2)
  rw [hc] at hc'
  cases Option.some.inj hc'
  rcases h with ⟨rfl, _⟩ | ⟨hmem, _⟩
  · exact hl
  · exact (hns c hmem).1

theorem resolve_fold_total {stat : List (List ℚ)} {es : NeighboursMap} :
    ∀ {lut : List Nat}, Acyclic lut →
      (∀ e ∈ es, e.1 < lut.length ∧ ∀ n ∈ e.2, n < lut.length ∧ Comparable stat e.1 n) →
      ∃ lut', es.foldlM (resolveStep stat) lut = some lut' := by
  induction es with
  | nil => intro lut _ _; exact ⟨lut, rfl⟩
  | cons e es ih =>
    intro lut hac hes
    obtain ⟨hk, hns⟩ := hes e (List.mem_cons_self _ _)
    obtain ⟨c, hc, _⟩ := closestNeighbour_spec (fun m hm => (hns m hm).2)
    have hcl := closestNeighbour_lt hk hns hc
    obtain ⟨ra, hra⟩ := hac.hasRoot hk
    obtain ⟨rb, hrb⟩ := hac.hasRoot hcl
    have hu := unionStep_eq hra hrb
    have hstep : resolveStep stat lut e =
        some (if ra < rb then lut.set rb ra else if ra = rb then lut else lut.set ra rb) := by
      unfold resolveStep
      rw [hc]
      exact hu
    rw [List.foldlM_cons, hstep]
    simp only [Option.bind_eq_bind, Option.some_bind]
    apply ih (unionStep_acyclic hac hra hrb hu)
    intro e' he'
    rw [unionStep_length hra hrb hu]
    exact hes e' (List.mem_cons_of_mem _ he')

theorem statFold_total {ls : List Nat} : ∀ {s : State},
    (∀ x c : Nat, s.m_LUT[x]? = some c → c < s.m_LUT.length) →
    s.m_LabelPopulation.length = s.m_LUT.length →
    s.m_LabelStatistic.length = s.m_LUT.length →
    (∀ l ∈ ls, l < s.m_LUT.length) → ∃ s', ls.foldlM statStep s = some s' := by
  induction ls with
  | nil => intro s _ _ _ _; exact ⟨s, rfl⟩
  | cons l ls ih =>
    intro s hin hp hst hls
    have hl := hls l (List.mem_cons_self _ _)
    obtain ⟨c, hc⟩ : ∃ c, s.m_LUT[l]? = some c :=
      ⟨_, List.getElem?_eq_getElem hl⟩
    obtain ⟨pl, hpl⟩ : ∃ pl, s.m_LabelPopulation[l]? = some pl :=
      ⟨_, List.getElem?_eq_getElem (hp ▸ hl)⟩
    have hcl := hin l c hc
    have hstep : ∃ s1, statStep s l = some s1 := by
      by_cases hcond : pl ≠ 0 ∧ c ≠ l
      · obtain ⟨sc, hsc⟩ : ∃ sc, s.m_LabelStatistic[c]? = some sc :=
          ⟨_, List.getElem?_eq_getElem (hst ▸ hcl)⟩
        obtain ⟨pc, hpc⟩ : ∃ pc, s.m_LabelPopulation[c]? = some pc :=
          ⟨_, List.getElem?_eq_getElem (hp ▸ hcl)⟩
        obtain ⟨sl, hsl⟩ : ∃ sl, s.m_LabelStatistic[l]? = some sl :=
          ⟨_, List.getElem?_eq_getElem (hst ▸ hl)⟩
        exact ⟨_, statStep_merge hc hpl hcond.1 hcond.2 hsc hpc hsl⟩
      · exact ⟨_, statStep_skip hc hpl hcond⟩
    obtain ⟨s1, h1⟩ := hstep
    obtain ⟨a1, a2, a3, _⟩ := statStep_frame h1
    rw [List.foldlM_cons, h1]
    simp only [Option.bind_eq_bind, Option.some_bind]
    apply ih
    · rw [a1]; exact hin
    · rw [a1, a2]; exact hp
    · rw [a1, a3]; exact hst
    · rw [a1]; exact fun l' hl' => hls l' (List.mem_cons_of_mem _ hl')

/-- The three phases of `SynthetizeOn`, when it returns. -/
theorem SynthetizeOn_some {s s' : State} {nm : NeighboursMap}
    (h : SynthetizeOn s nm = some s') :
    ∃ lut1 lut2, nm.foldlM (resolveStep s.m_LabelStatistic) s.m_LUT = some lut1 ∧
      flattenLoop lut1 = some lut2 ∧ statLoop { s with m_LUT := lut2 } = some s' := by
  unfold SynthetizeOn at h
  simp only [Option.bind_eq_bind, Option.bind_eq_some] at h
  obtain ⟨lut1, h1, lut2, h2, h3⟩ := h
  exact ⟨lut1, lut2, h1, h2, h3⟩

/-- On a consistent state and map `SynthetizeOn` returns a state. -/
theorem SynthetizeOn_total {s : State} {nm : NeighboursMap} (hwf : WellFormed s nm) :
    ∃ s', SynthetizeOn s nm = some s' := by
  obtain ⟨lut1, h1⟩ := @resolve_fold_total s.m_LabelStatistic nm _ hwf.acyclic hwf.entries
  obtain ⟨hlen1, hg, _⟩ := resolve_fold_spec h1
  have hac1 := acyclic_of_coarsening hwf.acyclic hlen1 hg
  obtain ⟨lut2, h2⟩ := flattenLoop_total hac1
  obtain ⟨hlen2, _, hpts⟩ := flattenLoop_spec h2
  have hin : ∀ x c : Nat, lut2[x]? = some c → c < lut2.length := by
    intro x c hx
    have hxl : x < lut1.length := hlen2 ▸ (List.getElem?_eq_some_iff.1 hx).1
    obtain ⟨c', hc1, hc2⟩ := hpts x hxl
    rw [hx] at hc1
    cases Option.some.inj hc1
    exact (List.getElem?_eq_some_iff.1 hc2).1
  obtain ⟨s', h3⟩ := @statFold_total (List.range lut2.length) { s with m_LUT := lut2 } hin
    (by show s.m_LabelPopulation.length = lut2.length; rw [hlen2, hlen1, hwf.popLen])
    (by show s.m_LabelStatistic.length = lut2.length; rw [hlen2, hlen1, hwf.statLen])
    (fun l hl => List.mem_range.1 hl)
  refine ⟨s', ?_⟩
  unfold SynthetizeOn
  rw [h1]
  simp only [Option.bind_eq_bind, Option.some_bind]
  rw [h2]
  exact h3

theorem statFold_reads {ls : List Nat} : ∀ {s s' : State}, ls.foldlM statStep s = some s' →
    ∀ l ∈ ls, l < s.m_LabelPopulation.length := by
  induction ls with
  | nil => intro _ _ _ l hl; cases hl
  | cons a ls ih =>
    intro s s' h l hl
    rw [List.foldlM_cons] at h
    simp only [Option.bind_eq_bind, Option.bind_eq_some] at h
    obtain ⟨s1, h1, h2⟩ := h
    rcases List.mem_cons.1 hl with rfl | hl
    · obtain ⟨c, pl, _, hpl, _⟩ := statStep_cases h1
      exact (List.getElem?_eq_some_iff.1 hpl).1
    · have := ih h2 l hl
      rwa [(statStep_frame h1).2.1] at this

theorem sum_class_split (lut : List Nat) (f : Nat → Nat) (n r : Nat) (hr : r < n)
    (hroot : lut[r]? = some r) :
    (∑ x ∈ (Finset.range n).filter (fun x => lut[x]? = some r), f x) =
      f r + ∑ x ∈ Finset.range n, if x ≠ r ∧ lut[x]? = some r then f x else 0 := by
  rw [Finset.sum_filter]
  have hpt : ∀ x ∈ Finset.range n, (if lut[x]? = some r then f x else 0) =
      (if x = r then f r else 0) + if x ≠ r ∧ lut[x]? = some r then f x else 0 := by
    intro x _
    by_cases hx : x = r
    · subst hx; simp [hroot]
    · simp [hx]
  rw [Finset.sum_congr rfl hpt, Finset.sum_add_distrib, Finset.sum_ite_eq']
  simp [hr]

theorem demo_wellFormed : WellFormed demoState demoMap := by
  refine ⟨acyclic_of_walks (by decide), rfl, rfl, ?_⟩
  intro e he
  simp only [demoMap, List.mem_cons, List.mem_singleton, List.not_mem_nil, or_false] at he
  rcases he with rfl | rfl
  · refine ⟨by decide, ?_⟩
    intro n hn
    simp only [List.mem_cons, List.mem_singleton, List.not_mem_nil, or_false] at hn
    rcases hn with rfl | rfl
    · exact ⟨by decide, _, _, rfl, rfl, rfl⟩
    · exact ⟨by decide, _, _, rfl, rfl, rfl⟩
  · refine ⟨by decide, ?_⟩
    intro n hn
    simp only [List.mem_cons, List.mem_singleton, List.not_mem_nil, or_false] at hn
    rcases hn with rfl | rfl
    · exact ⟨by decide, _, _, rfl, rfl, rfl⟩
    · exact ⟨by decide, _, _, rfl, rfl, rfl⟩

/-! ## Sets and maps of neighbours -/

theorem mem_setInsert {v x : Nat} : ∀ {l : List Nat}, x ∈ setInsert v l ↔ x = v ∨ x ∈ l := by
  intro l
  induction l with
  | nil => simp [setInsert]
  | cons y ys ih =>
    unfold setInsert
    split
    · simp
    · split
      · next h => subst h; simp
      · simp only [List.mem_cons, ih]; tauto

theorem setInsert_sorted {v : Nat} : ∀ {l : List Nat}, l.Pairwise (fun a b => a < b) →
    (setInsert v l).Pairwise (fun a b => a < b) := by
  intro l
  induction l with
  | nil => intro _; simp [setInsert]
  | cons y ys ih =>
    intro h
    obtain ⟨h1, h2⟩ := List.pairwise_cons.1 h
    unfold setInsert
    split
    · next hlt =>
      exact List.pairwise_cons.2 ⟨fun a ha => by
        rcases List.mem_cons.1 ha with rfl | ha
        · exact hlt
        · exact lt_trans hlt (h1 a ha), h⟩
    · split
      · exact h
      · next hnlt hne =>
        refine List.pairwise_cons.2 ⟨fun a ha => ?_, ih h2⟩
        rcases mem_setInsert.1 ha with rfl | ha
        · omega
        · exact h1 a ha

theorem mem_setInsertRange {x : Nat} : ∀ {vals set : List Nat},
    x ∈ setInsertRange set vals ↔ x ∈ set ∨ x ∈ vals := by
  intro vals
  induction vals with
  | nil => intro set; simp [setInsertRange]
  | cons v vs ih =>
    intro set
    have := @ih (setInsert v set)
    simp only [setInsertRange, List.foldl_cons] at this ⊢
    rw [this, mem_setInsert, List.mem_cons]
    tauto

theorem setInsertRange_sorted : ∀ {vals set : List Nat}, set.Pairwise (fun a b => a < b) →
    (setInsertRange set vals).Pairwise (fun a b => a < b) := by
  intro vals
  induction vals with
  | nil => intro set h; exact h
  | cons v vs ih =>
    intro set h
    exact @ih (setInsert v set) (setInsert_sorted h)

theorem lookupSet_mapInsert {key v L : Nat} : ∀ {m : NeighboursMap},
    lookupSet (mapInsert m key v) L =
      if L = key then some (setInsert v ((lookupSet m key).getD [])) else lookupSet m L := by
  intro m
  induction m with
  | nil =>
    by_cases h : L = key
    · subst h; simp [mapInsert, lookupSet]
    · simp [mapInsert, lookupSet, h, Ne.symm h]
  | cons e rest ih =>
    obtain ⟨k, set⟩ := e
    unfold mapInsert
    by_cases hk : k = key
    · subst hk
      by_cases h : L = k
      · subst h; simp [lookupSet]
      · simp [lookupSet, h, Ne.symm h]
    · simp only [hk, if_false, lookupSet]
      by_cases h : L = key
      · subst h
        simp only [hk, if_false, if_true, ih]
      · by_cases hkl : k = L
        · simp [hkl, h]
        · simp only [hkl, if_false, ih, h]

theorem lookupSet_mapInsertRange {key L : Nat} {vals : List Nat} : ∀ {m : NeighboursMap},
    lookupSet (mapInsertRange m key vals) L =
      if L = key then some (setInsertRange ((lookupSet m key).getD []) vals)
      else lookupSet m L := by
  intro m
  induction m with
  | nil =>
    by_cases h : L = key
    · subst h; simp [mapInsertRange, lookupSet]
    · simp [mapInsertRange, lookupSet, h, Ne.symm h]
  | cons e rest ih =>
    obtain ⟨k, set⟩ := e
    unfold mapInsertRange
    by_cases hk : k = key
    · subst hk
      by_cases h : L = k
      · subst h; simp [lookupSet]
      · simp [lookupSet, h, Ne.symm h]
    · simp only [hk, if_false, lookupSet]
      by_cases h : L = key
      · subst h
        simp only [hk, if_false, if_true, ih]
      · by_cases hkl : k = L
        · simp [hkl, h]
        · simp only [hkl, if_false, ih, h]

theorem keys_mapInsertRange {key : Nat} {vals : List Nat} : ∀ {m : NeighboursMap} {k : Nat},
    k ∈ (mapInsertRange m key vals).map Prod.fst ↔ k = key ∨ k ∈ m.map Prod.fst := by
  intro m
  induction m with
  | nil => intro k; simp [mapInsertRange]
  | cons e rest ih =>
    intro k
    obtain ⟨k0, set⟩ := e
    unfold mapInsertRange
    by_cases hk : k0 = key
    · subst hk; simp
    · simp only [hk, if_false, List.map_cons, List.mem_cons, ih]; tauto

theorem uniqueKeys_mapInsertRange {key : Nat} {vals : List Nat} : ∀ {m : NeighboursMap},
    UniqueKeys m → UniqueKeys (mapInsertRange m key vals) := by
  intro m
  induction m with
  | nil => intro _; simp [UniqueKeys, mapInsertRange]
  | cons e rest ih =>
    intro h
    obtain ⟨k0, set⟩ := e
    unfold UniqueKeys at h ⊢
    simp only [List.map_cons, List.nodup_cons] at h
    unfold mapInsertRange
    by_cases hk : k0 = key
    · subst hk
      simp only [if_true, List.map_cons, List.nodup_cons]
      exact h
    · simp only [hk, if_false, List.map_cons, List.nodup_cons]
      refine ⟨?_, ih h.2⟩
      intro hmem
      rcases keys_mapInsertRange.1 hmem with h1 | h1
      · exact hk h1
      · exact h.1 h1

theorem setsSorted_mapInsertRange {key : Nat} {vals : List Nat} : ∀ {m : NeighboursMap},
    SetsSorted m → SetsSorted (mapInsertRange m key vals) := by
  intro m
  induction m with
  | nil =>
    intro _ e he
    simp only [mapInsertRange, List.mem_singleton] at he
    subst he
    exact setInsertRange_sorted List.Pairwise.nil
  | cons e rest ih =>
    intro h
    obtain ⟨k0, set⟩ := e
    have h0 := h (k0, set) (List.mem_cons_self _ _)
    have hrest : SetsSorted rest := fun e he => h e (List.mem_cons_of_mem _ he)
    unfold mapInsertRange
    by_cases hk : k0 = key
    · simp only [hk, if_true]
      intro e he
      rcases List.mem_cons.1 he with rfl | he
      · exact setInsertRange_sorted h0
      · exact hrest e he
    · simp only [hk, if_false]
      intro e he
      rcases List.mem_cons.1 he with rfl | he
      · exact h0
      · exact ih hrest e he

/-- In a map with pairwise distinct keys, the entries are what `lookupSet` finds. -/
theorem mem_iff_lookupSet : ∀ {m : NeighboursMap}, UniqueKeys m → ∀ {L : Nat} {set : List Nat},
    (L, set) ∈ m ↔ lookupSet m L = some set := by
  intro m
  induction m with
  | nil => intro _ L set; simp [lookupSet]
  | cons e rest ih =>
    intro h L set
    obtain ⟨k0, set0⟩ := e
    unfold UniqueKeys at h
    simp only [List.map_cons, List.nodup_cons] at h
    unfold lookupSet
    by_cases hk : k0 = L
    · subst hk
      simp only [if_true, List.mem_cons, Prod.mk.injEq, true_and, Option.some.injEq]
      constructor
      · rintro (h1 | h1)
        · exact h1.symm
        · exact absurd (List.mem_map_of_mem Prod.fst h1) h.1
      · intro h1; exact Or.inl h1.symm
    · simp only [hk, if_false, List.mem_cons, Prod.mk.injEq]
      rw [← ih h.2]
      constructor
      · rintro (⟨h1, _⟩ | h1)
        · exact absurd h1.symm hk
        · exact h1
      · intro h1; exact Or.inr h1

theorem lookupSet_isSome_of_mem : ∀ {m : NeighboursMap} {L : Nat} {set : List Nat},
    (L, set) ∈ m → (lookupSet m L).isSome = true := by
  intro m
  induction m with
  | nil => intro L set h; cases h
  | cons e rest ih =>
    intro L set h
    obtain ⟨k0, set0⟩ := e
    unfold lookupSet
    by_cases hk : k0 = L
    · simp [hk]
    · simp only [hk, if_false]
      rcases List.mem_cons.1 h with h1 | h1
      · simp only [Prod.mk.injEq] at h1
        exact absurd h1.1.symm hk
      · exact ih h1

theorem lookupSet_mem : ∀ {m : NeighboursMap} {L : Nat} {set : List Nat},
    lookupSet m L = some set → (L, set) ∈ m := by
  intro m
  induction m with
  | nil => intro L set h; simp [lookupSet] at h
  | cons e rest ih =>
    intro L set h
    obtain ⟨k0, set0⟩ := e
    unfold lookupSet at h
    by_cases hk : k0 = L
    · simp only [hk, if_true, Option.some.injEq] at h
      subst h; subst hk
      exact List.mem_cons_self _ _
    · simp only [hk, if_false] at h
      exact List.mem_cons_of_mem _ (ih h)

theorem mergeThread_spec : ∀ (es g : NeighboursMap) (L : Nat),
    ((lookupSet (es.foldl (fun acc it => mapInsertRange acc it.1 it.2) g) L).isSome = true ↔
      (lookupSet g L).isSome = true ∨ ∃ set, (L, set) ∈ es) ∧
    (∀ M, M ∈ (lookupSet (es.foldl (fun acc it => mapInsertRange acc it.1 it.2) g) L).getD [] ↔
      M ∈ (lookupSet g L).getD [] ∨ ∃ set, (L, set) ∈ es ∧ M ∈ set) := by
  intro es
  induction es with
  | nil => intro g L; simp
  | cons e es ih =>
    intro g L
    obtain ⟨k, vals⟩ := e
    obtain ⟨ih1, ih2⟩ := ih (mapInsertRange g k vals) L
    simp only [List.foldl_cons]
    constructor
    · rw [ih1, lookupSet_mapInsertRange]
      by_cases h : L = k
      · subst h
        simp only [if_true, Option.isSome_some, true_or, true_iff]
        exact Or.inr ⟨vals, List.mem_cons_self _ _⟩
      · simp only [h, if_false, List.mem_cons, Prod.mk.injEq, false_and, false_or]
    · intro M
      rw [ih2, lookupSet_mapInsertRange]
      by_cases h : L = k
      · subst h
        simp only [if_true, Option.getD_some, mem_setInsertRange, List.mem_cons, Prod.mk.injEq,
          true_and]
        constructor
        · rintro ((h1 | h1) | ⟨set, h1, h2⟩)
          · exact Or.inl h1
          · exact Or.inr ⟨vals, Or.inl rfl, h1⟩
          · exact Or.inr ⟨set, Or.inr h1, h2⟩
        · rintro (h1 | ⟨set, h1 | h1, h2⟩)
          · exact Or.inl (Or.inl h1)
          · subst h1; exact Or.inl (Or.inr h2)
          · exact Or.inr ⟨set, h1, h2⟩
      · simp only [h, if_false, List.mem_cons, Prod.mk.injEq, false_and, false_or]

theorem mergeThread_invariants : ∀ (es g : NeighboursMap), UniqueKeys g → SetsSorted g →
    UniqueKeys (es.foldl (fun acc it => mapInsertRange acc it.1 it.2) g) ∧
    SetsSorted (es.foldl (fun acc it => mapInsertRange acc it.1 it.2) g) := by
  intro es
  induction es with
  | nil => intro g h1 h2; exact ⟨h1, h2⟩
  | cons e es ih =>
    intro g h1 h2
    exact ih _ (uniqueKeys_mapInsertRange h1) (setsSorted_mapInsertRange h2)

theorem reduce_fold_spec : ∀ (tmp : List NeighboursMap) (g : NeighboursMap) (L : Nat),
    ((lookupSet (tmp.foldl (fun neighboursMap threadMap =>
        threadMap.foldl (fun acc it => mapInsertRange acc it.1 it.2) neighboursMap) g)
        L).isSome = true ↔
      (lookupSet g L).isSome = true ∨ ∃ t ∈ tmp, ∃ set, (L, set) ∈ t) ∧
    (∀ M, M ∈ (lookupSet (tmp.foldl (fun neighboursMap threadMap =>
        threadMap.foldl (fun acc it => mapInsertRange acc it.1 it.2) neighboursMap) g)
        L).getD [] ↔
      M ∈ (lookupSet g L).getD [] ∨ ∃ t ∈ tmp, ∃ set, (L, set) ∈ t ∧ M ∈ set) := by
  intro tmp
  induction tmp with
  | nil => intro g L; simp
  | cons t tmp ih =>
    intro g L
    obtain ⟨ih1, ih2⟩ := ih (t.foldl (fun acc it => mapInsertRange acc it.1 it.2) g) L
    obtain ⟨m1, m2⟩ := mergeThread_spec t g L
    simp only [List.foldl_cons]
    constructor
    · rw [ih1, m1]
      simp only [List.mem_cons, exists_eq_or_imp, or_assoc]
    · intro M
      rw [ih2, m2]
      simp only [List.mem_cons, exists_eq_or_imp, or_assoc]

theorem reduce_fold_invariants : ∀ (tmp : List NeighboursMap) (g : NeighboursMap),
    UniqueKeys g → SetsSorted g →
    UniqueKeys (tmp.foldl (fun neighboursMap threadMap =>
        threadMap.foldl (fun acc it => mapInsertRange acc it.1 it.2) neighboursMap) g) ∧
    SetsSorted (tmp.foldl (fun neighboursMap threadMap =>
        threadMap.foldl (fun acc it => mapInsertRange acc it.1 it.2) neighboursMap) g) := by
  intro tmp
  induction tmp with
  | nil => intro g h1 h2; exact ⟨h1, h2⟩
  | cons t tmp ih =>
    intro g h1 h2
    obtain ⟨a, b⟩ := mergeThread_invariants t g h1 h2
    exact ih _ a b

theorem reduceMaps_uniqueKeys (tmp : List NeighboursMap) : UniqueKeys (reduceMaps tmp) :=
  (reduce_fold_invariants tmp [] (by simp [UniqueKeys]) (fun e he => by cases he)).1

theorem reduceMaps_setsSorted (tmp : List NeighboursMap) : SetsSorted (reduceMaps tmp) :=
  (reduce_fold_invariants tmp [] (by simp [UniqueKeys]) (fun e he => by cases he)).2

/-- Keys and sets of the reduced map are the unions over the thread maps, and the reduced
map has one entry per key. -/
theorem reduceMaps_spec (tmp : List NeighboursMap) (L : Nat) :
    ((lookupSet (reduceMaps tmp) L).isSome = true ↔ ∃ t ∈ tmp, ∃ set, (L, set) ∈ t) ∧
    (∀ M, M ∈ (lookupSet (reduceMaps tmp) L).getD [] ↔
      ∃ t ∈ tmp, ∃ set, (L, set) ∈ t ∧ M ∈ set) ∧
    (∀ set, (L, set) ∈ reduceMaps tmp ↔ lookupSet (reduceMaps tmp) L = some set) := by
  obtain ⟨h1, h2⟩ := reduce_fold_spec tmp [] L
  refine ⟨?_, ?_, fun set => mem_iff_lookupSet (reduceMaps_uniqueKeys _)⟩
  · unfold reduceMaps
    rw [h1]
    simp [lookupSet]
  · intro M
    unfold reduceMaps
    rw [h2]
    simp [lookupSet]

/-! ## The scan -/

theorem mapInsert_eq_range : ∀ (m : NeighboursMap) (key v : Nat),
    mapInsert m key v = mapInsertRange m key [v] := by
  intro m
  induction m with
  | nil => intro key v; rfl
  | cons e rest ih =>
    intro key v
    obtain ⟨k, set⟩ := e
    unfold mapInsert mapInsertRange
    rw [ih]
    rfl

theorem mem_activeNeighbours {img : LabelImage} {p q : Pixel} (hp : img.inside p) :
    q ∈ activeNeighbours img p ↔ Adjacent4 img p q := by
  obtain ⟨px, py⟩ := p
  obtain ⟨qx, qy⟩ := q
  unfold LabelImage.inside at hp
  simp only at hp
  unfold activeNeighbours Adjacent4 LabelImage.inside
  simp only [List.mem_append, List.mem_ite_nil_right, List.mem_singleton, Prod.mk.injEq]
  constructor
  · rintro (((⟨h, rfl, rfl⟩ | ⟨h, rfl, rfl⟩) | ⟨h, rfl, rfl⟩) | ⟨h, rfl, rfl⟩)
    · exact ⟨⟨hp.1, by omega⟩, Or.inl ⟨rfl, Or.inl (by omega)⟩⟩
    · exact ⟨⟨by omega, hp.2⟩, Or.inr ⟨rfl, Or.inl (by omega)⟩⟩
    · exact ⟨⟨h, hp.2⟩, Or.inr ⟨rfl, Or.inr rfl⟩⟩
    · exact ⟨⟨hp.1, h⟩, Or.inl ⟨rfl, Or.inr rfl⟩⟩
  · rintro ⟨⟨h1, h2⟩, (⟨rfl, h | h⟩ | ⟨rfl, h | h⟩)⟩
    · exact Or.inl (Or.inl (Or.inl ⟨by omega, rfl, by omega⟩))
    · exact Or.inr ⟨by omega, rfl, h⟩
    · exact Or.inl (Or.inl (Or.inr ⟨by omega, by omega, rfl⟩))
    · exact Or.inl (Or.inr ⟨by omega, h, rfl⟩)

theorem recordNeighbour_cases {s : State} {img : LabelImage} {cur : Nat} {m m' : NeighboursMap}
    {q : Pixel} (h : recordNeighbour s img cur m q = some m') :
    ∃ M, FindCorrespondingLabel s.m_LUT (img.raw q.1 q.2) = some M ∧
      m' = if M ≠ cur then mapInsert m cur M else m := by
  unfold recordNeighbour at h
  simp only [Option.bind_eq_bind, Option.bind_eq_some] at h
  obtain ⟨M, hM, h⟩ := h
  refine ⟨M, hM, ?_⟩
  split at h <;> rename_i hc
  · rw [if_pos hc]; exact (Option.some.inj h).symm
  · rw [if_neg hc]; exact (Option.some.inj h).symm

theorem recordNeighbour_eq {s : State} {img : LabelImage} {cur M : Nat} {m : NeighboursMap}
    {q : Pixel} (hM : FindCorrespondingLabel s.m_LUT (img.raw q.1 q.2) = some M) :
    recordNeighbour s img cur m q = some (if M ≠ cur then mapInsert m cur M else m) := by
  unfold recordNeighbour
  simp only [hM, Option.bind_eq_bind, Option.some_bind]
  split <;> rfl

/-- The neighbour loop at one pixel adds to the set of `cur` the canonical labels, other
than `cur`, of the visited neighbour pixels, and nothing else. -/
theorem recordFold_spec {s : State} {img : LabelImage} {cur : Nat} :
    ∀ (qs : List Pixel) (m m' : NeighboursMap),
      qs.foldlM (recordNeighbour s img cur) m = some m' →
      (∀ L M, M ∈ (lookupSet m' L).getD [] ↔ M ∈ (lookupSet m L).getD [] ∨
        (L = cur ∧ M ≠ cur ∧
          ∃ q ∈ qs, FindCorrespondingLabel s.m_LUT (img.raw q.1 q.2) = some M)) ∧
      (∀ L, (lookupSet m' L).isSome = true ↔ (lookupSet m L).isSome = true ∨
        (L = cur ∧ ∃ q ∈ qs, ∃ M, M ≠ cur ∧
          FindCorrespondingLabel s.m_LUT (img.raw q.1 q.2) = some M)) ∧
      (UniqueKeys m → UniqueKeys m') ∧ (SetsSorted m → SetsSorted m') := by
  intro qs
  induction qs with
  | nil =>
    intro m m' h
    simp only [List.foldlM_nil, Option.pure_def, Option.some.injEq] at h
    subst h
    simp
  | cons q qs ih =>
    intro m m' h
    rw [List.foldlM_cons] at h
    simp only [Option.bind_eq_bind, Option.bind_eq_some] at h
    obtain ⟨m1, h1, h2⟩ := h
    obtain ⟨M0, hM0, hm1⟩ := recordNeighbour_cases h1
    obtain ⟨i1, i2, i3, i4⟩ := ih m1 m' h2
    by_cases hc : M0 = cur
    · rw [if_neg (by simpa using hc)] at hm1
      subst hm1
      refine ⟨?_, ?_, i3, i4⟩
      · intro L M
        rw [i1]
        constructor
        · rintro (h | ⟨a, b, q', hq', c⟩)
          · exact Or.inl h
          · exact Or.inr ⟨a, b, q', List.mem_cons_of_mem _ hq', c⟩
        · rintro (h | ⟨a, b, q', hq', c⟩)
          · exact Or.inl h
          · rcases List.mem_cons.1 hq' with rfl | hq'
            · rw [hM0] at c
              exact absurd ((Option.some.inj c).symm.trans hc) b
            · exact Or.inr ⟨a, b, q', hq', c⟩
      · intro L
        rw [i2]
        constructor
        · rintro (h | ⟨a, q', hq', M, b, c⟩)
          · exact Or.inl h
          · exact Or.inr ⟨a, q', List.mem_cons_of_mem _ hq', M, b, c⟩
        · rintro (h | ⟨a, q', hq', M, b, c⟩)
          · exact Or.inl h
          · rcases List.mem_cons.1 hq' with rfl | hq'
            · rw [hM0] at c
              exact absurd ((Option.some.inj c).symm.trans hc) b
            · exact Or.inr ⟨a, q', hq', M, b, c⟩
    · rw [if_pos hc, mapInsert_eq_range] at hm1
      subst hm1
      refine ⟨?_, ?_, fun h => i3 (uniqueKeys_mapInsertRange h),
        fun h => i4 (setsSorted_mapInsertRange h)⟩
      · intro L M
        rw [i1, lookupSet_mapInsertRange]
        by_cases hL : L = cur
        · subst hL
          simp only [if_true, Option.getD_some, mem_setInsertRange, List.mem_singleton,
            true_and, List.mem_cons, exists_eq_or_imp, hM0, Option.some.injEq,
            List.not_mem_nil, or_false]
          constructor
          · rintro ((h | h) | ⟨b, h⟩)
            · exact Or.inl h
            · subst h; exact Or.inr ⟨hc, Or.inl rfl⟩
            · exact Or.inr ⟨b, Or.inr h⟩
          · rintro (h | ⟨b, h | h⟩)
            · exact Or.inl (Or.inl h)
            · exact Or.inl (Or.inr h.symm)
            · exact Or.inr ⟨b, h⟩
        · simp only [hL, if_false, false_and, or_false]
      · intro L
        rw [i2, lookupSet_mapInsertRange]
        by_cases hL : L = cur
        · subst hL
          simp only [if_true, Option.isSome_some, true_or, true_and, true_iff]
          exact Or.inr ⟨q, List.mem_cons_self _ _, M0, hc, hM0⟩
        · simp only [hL, if_false, false_and, or_false]

theorem recordFold_total {s : State} {img : LabelImage} {cur : Nat} :
    ∀ (qs : List Pixel) (m : NeighboursMap),
      (∀ q ∈ qs, ∃ M, FindCorrespondingLabel s.m_LUT (img.raw q.1 q.2) = some M) →
      ∃ m', qs.foldlM (recordNeighbour s img cur) m = some m' := by
  intro qs
  induction qs with
  | nil => intro m _; exact ⟨m, rfl⟩
  | cons q qs ih =>
    intro m h
    obtain ⟨M, hM⟩ := h q (List.mem_cons_self _ _)
    rw [List.foldlM_cons, recordNeighbour_eq hM]
    simp only [Option.bind_eq_bind, Option.some_bind]
    exact ih _ (fun q' hq' => h q' (List.mem_cons_of_mem _ hq'))

theorem scanPixel_cases {s : State} {t : Nat} {img : LabelImage} {m m' : NeighboursMap}
    {p : Pixel} (h : scanPixel s t img m p = some m') :
    ∃ cur pop, FindCorrespondingLabel s.m_LUT (img.raw p.1 p.2) = some cur ∧
      s.m_LabelPopulation[cur]? = some pop ∧
      ((pop = t ∧ (activeNeighbours img p).foldlM (recordNeighbour s img cur) m = some m') ∨
       (pop ≠ t ∧ m' = m)) := by
  unfold scanPixel at h
  simp only [Option.bind_eq_bind, Option.bind_eq_some] at h
  obtain ⟨cur, hcur, pop, hpop, h⟩ := h
  refine ⟨cur, pop, hcur, hpop, ?_⟩
  split at h <;> rename_i hc
  · exact Or.inl ⟨hc, h⟩
  · exact Or.inr ⟨hc, (Option.some.inj h).symm⟩

/-- The scan of a region adds to the map exactly the pairs `(L, M)` for which some pixel of
the region has canonical label `L` of population `t` and touches the canonical label `M`. -/
theorem scanFold_spec {s : State} {t : Nat} {img : LabelImage} :
    ∀ (region : List Pixel) (m m' : NeighboursMap), (∀ p ∈ region, img.inside p) →
      region.foldlM (scanPixel s t img) m = some m' →
      (∀ L M, M ∈ (lookupSet m' L).getD [] ↔ M ∈ (lookupSet m L).getD [] ∨
        ∃ p ∈ region, s.m_LabelPopulation[L]? = some t ∧ Touches s img p L M) ∧
      (∀ L, (lookupSet m' L).isSome = true ↔ (lookupSet m L).isSome = true ∨
        ∃ p ∈ region, s.m_LabelPopulation[L]? = some t ∧ ∃ M, Touches s img p L M) ∧
      (UniqueKeys m → UniqueKeys m') ∧ (SetsSorted m → SetsSorted m') := by
  intro region
  induction region with
  | nil =>
    intro m m' _ h
    simp only [List.foldlM_nil, Option.pure_def, Option.some.injEq] at h
    subst h
    simp
  | cons p region ih =>
    intro m m' hin h
    rw [List.foldlM_cons] at h
    simp only [Option.bind_eq_bind, Option.bind_eq_some] at h
    obtain ⟨m1, h1, h2⟩ := h
    have hp := hin p (List.mem_cons_self _ _)
    obtain ⟨i1, i2, i3, i4⟩ := ih m1 m' (fun q hq => hin q (List.mem_cons_of_mem _ hq)) h2
    obtain ⟨cur, pop, hcur, hpop, hcase⟩ := scanPixel_cases h1
    -- what the pixel `p` contributes
    have key : (∀ L M, M ∈ (lookupSet m1 L).getD [] ↔ M ∈ (lookupSet m L).getD [] ∨
          (s.m_LabelPopulation[L]? = some t ∧ Touches s img p L M)) ∧
        (∀ L, (lookupSet m1 L).isSome = true ↔ (lookupSet m L).isSome = true ∨
          (s.m_LabelPopulation[L]? = some t ∧ ∃ M, Touches s img p L M)) ∧
        (UniqueKeys m → UniqueKeys m1) ∧ (SetsSorted m → SetsSorted m1) := by
      rcases hcase with ⟨hpt, hf⟩ | ⟨hpt, rfl⟩
      · obtain ⟨r1, r2, r3, r4⟩ := recordFold_spec _ _ _ hf
        subst hpt
        refine ⟨?_, ?_, r3, r4⟩
        · intro L M
          rw [r1]
          constructor
          · rintro (h | ⟨rfl, hne, q, hq, hM⟩)
            · exact Or.inl h
            · exact Or.inr ⟨hpop, hcur, q, (mem_activeNeighbours hp).1 hq, hM, hne⟩
          · rintro (h | ⟨_, hL, q, hq, hM, hne⟩)
            · exact Or.inl h
            · rw [hcur] at hL
              cases Option.some.inj hL
              exact Or.inr ⟨rfl, hne, q, (mem_activeNeighbours hp).2 hq, hM⟩
        · intro L
          rw [r2]
          constructor
          · rintro (h | ⟨rfl, q, hq, M, hne, hM⟩)
            · exact Or.inl h
            · exact Or.inr ⟨hpop, M, hcur, q, (mem_activeNeighbours hp).1 hq, hM, hne⟩
          · rintro (h | ⟨_, M, hL, q, hq, hM, hne⟩)
            · exact Or.inl h
            · rw [hcur] at hL
              cases Option.some.inj hL
              exact Or.inr ⟨rfl, q, (mem_activeNeighbours hp).2 hq, M, hne, hM⟩
      · refine ⟨?_, ?_, id, id⟩
        · intro L M
          constructor
          · exact Or.inl
          · rintro (h | ⟨hL, hT, _⟩)
            · exact h
            · rw [hcur] at hT
              cases Option.some.inj hT
              rw [hpop] at hL
              exact absurd (Option.some.inj hL) hpt
        · intro L
          constructor
          · exact Or.inl
          · rintro (h | ⟨hL, M, hT, _⟩)
            · exact h
            · rw [hcur] at hT
              cases Option.some.inj hT
              rw [hpop] at hL
              exact absurd (Option.some.inj hL) hpt
    obtain ⟨k1, k2, k3, k4⟩ := key
    refine ⟨?_, ?_, fun h => i3 (k3 h), fun h => i4 (k4 h)⟩
    · intro L M
      rw [i1, k1]
      simp only [List.mem_cons, exists_eq_or_imp, or_assoc]
    · intro L
      rw [i2, k2]
      simp only [List.mem_cons, exists_eq_or_imp, or_assoc]

theorem find_total {lut : List Nat} (hac : Acyclic lut) {x : Nat} (hx : x < lut.length) :
    ∃ r, FindCorrespondingLabel lut x = some r ∧ r < lut.length := by
  obtain ⟨r, hr⟩ := hac.hasRoot hx
  exact ⟨r, rootOf_iff_find.1 hr, hr.root_lt_length⟩

theorem adjacent4_inside {img : LabelImage} {p q : Pixel} (h : Adjacent4 img p q) :
    img.inside q := h.1

theorem scanPixel_total {s : State} {t : Nat} {img : LabelImage} (hac : Acyclic s.m_LUT)
    (hpop : s.m_LabelPopulation.length = s.m_LUT.length) (himg : ValidImage s img)
    (m : NeighboursMap) {p : Pixel} (hp : img.inside p) :
    ∃ m', scanPixel s t img m p = some m' := by
  obtain ⟨cur, hcur, hlt⟩ := find_total hac (himg p hp)
  have hpc : s.m_LabelPopulation[cur]? = some s.m_LabelPopulation[cur] :=
    List.getElem?_eq_getElem (hpop ▸ hlt)
  unfold scanPixel
  simp only [hcur, hpc, Option.bind_eq_bind, Option.some_bind]
  split
  · apply recordFold_total
    intro q hq
    have hq' := ((mem_activeNeighbours hp).1 hq).1
    obtain ⟨M, hM, _⟩ := find_total hac (himg q hq')
    exact ⟨M, hM⟩
  · exact ⟨m, rfl⟩

theorem scanFold_total {s : State} {t : Nat} {img : LabelImage} (hac : Acyclic s.m_LUT)
    (hpop : s.m_LabelPopulation.length = s.m_LUT.length) (himg : ValidImage s img) :
    ∀ (region : List Pixel) (m : NeighboursMap), (∀ p ∈ region, img.inside p) →
      ∃ m', region.foldlM (scanPixel s t img) m = some m' := by
  intro region
  induction region with
  | nil => intro m _; exact ⟨m, rfl⟩
  | cons p region ih =>
    intro m hin
    obtain ⟨m1, h1⟩ := scanPixel_total (t := t) hac hpop himg m (hin p (List.mem_cons_self _ _))
    rw [List.foldlM_cons, h1]
    simp only [Option.bind_eq_bind, Option.some_bind]
    exact ih m1 (fun q hq => hin q (List.mem_cons_of_mem _ hq))





/-! ## One pass: the map visited by `Synthetize` -/

theorem mapM_option_spec {α β : Type} (f : α → Option β) :
    ∀ (l : List α) (l' : List β), l.mapM f = some l' →
      (∀ b ∈ l', ∃ a ∈ l, f a = some b) ∧ (∀ a ∈ l, ∃ b ∈ l', f a = some b) := by
  intro l
  induction l with
  | nil =>
    intro l' h
    simp only [List.mapM_nil, Option.pure_def, Option.some.injEq] at h
    subst h
    simp
  | cons a l ih =>
    intro l' h
    simp only [List.mapM_cons, Option.bind_eq_bind, Option.bind_eq_some, Option.pure_def,
      Option.some.injEq] at h
    obtain ⟨b, hb, bs, hbs, rfl⟩ := h
    obtain ⟨i1, i2⟩ := ih bs hbs
    constructor
    · intro b' hb'
      rcases List.mem_cons.1 hb' with rfl | hb'
      · exact ⟨a, List.mem_cons_self _ _, hb⟩
      · obtain ⟨a', ha', h'⟩ := i1 b' hb'
        exact ⟨a', List.mem_cons_of_mem _ ha', h'⟩
    · intro a' ha'
      rcases List.mem_cons.1 ha' with rfl | ha'
      · exact ⟨b, List.mem_cons_self _ _, hb⟩
      · obtain ⟨b', hb', h'⟩ := i2 a' ha'
        exact ⟨b', List.mem_cons_of_mem _ hb', h'⟩

theorem mapM_option_total {α β : Type} (f : α → Option β) :
    ∀ (l : List α), (∀ a ∈ l, ∃ b, f a = some b) → ∃ l', l.mapM f = some l' := by
  intro l
  induction l with
  | nil => intro _; exact ⟨[], rfl⟩
  | cons a l ih =>
    intro h
    obtain ⟨b, hb⟩ := h a (List.mem_cons_self _ _)
    obtain ⟨bs, hbs⟩ := ih (fun a' ha' => h a' (List.mem_cons_of_mem _ ha'))
    exact ⟨b :: bs, by rw [List.mapM_cons, hb, hbs]; rfl⟩

theorem scanAll_total {s : State} {t : Nat} {img : LabelImage} {regions : List (List Pixel)}
    (hac : Acyclic s.m_LUT) (hpop : s.m_LabelPopulation.length = s.m_LUT.length)
    (himg : ValidImage s img) (hcov : Covers img regions) :
    ∃ tmp, scanAll s t img regions = some tmp :=
  mapM_option_total _ regions (fun region hr =>
    scanFold_total hac hpop himg region [] (hcov.1 region hr))

/-- The entries of the global map visited by a pass with threshold `t`: the keys are the
canonical labels of population `t` that touch another canonical label, and the set of a key
holds exactly the canonical labels it touches. -/
theorem passMap_spec {s : State} {t : Nat} {img : LabelImage} {regions : List (List Pixel)}
    {tmp : List NeighboursMap} (hcov : Covers img regions)
    (htmp : scanAll s t img regions = some tmp) :
    (∀ e ∈ reduceMaps tmp, ∃ p M, img.inside p ∧ s.m_LabelPopulation[e.1]? = some t ∧
      Touches s img p e.1 M) ∧
    (∀ e ∈ reduceMaps tmp, ∀ M ∈ e.2, ∃ p, img.inside p ∧
      s.m_LabelPopulation[e.1]? = some t ∧ Touches s img p e.1 M) ∧
    (∀ p L M, img.inside p → s.m_LabelPopulation[L]? = some t → Touches s img p L M →
      ∃ e ∈ reduceMaps tmp, e.1 = L ∧ M ∈ e.2) := by
  obtain ⟨hback, hfwd⟩ := mapM_option_spec _ regions tmp htmp
  -- what a thread map holds
  have hthread : ∀ tm ∈ tmp, ∃ region ∈ regions,
      (∀ L set, (L, set) ∈ tm → ∀ M, M ∈ set ↔
        ∃ p ∈ region, s.m_LabelPopulation[L]? = some t ∧ Touches s img p L M) ∧
      (∀ L set, (L, set) ∈ tm →
        ∃ p ∈ region, s.m_LabelPopulation[L]? = some t ∧ ∃ M, Touches s img p L M) := by
    intro tm htm
    obtain ⟨region, hr, hscan⟩ := hback tm htm
    obtain ⟨a, b, c, _⟩ := scanFold_spec region [] tm (hcov.1 region hr) hscan
    have huniq : UniqueKeys tm := c (by simp [UniqueKeys])
    refine ⟨region, hr, ?_, ?_⟩
    · intro L set hmem M
      have hl := (mem_iff_lookupSet huniq).1 hmem
      have := a L M
      rw [hl] at this
      simpa [lookupSet] using this
    · intro L set hmem
      have := (b L).1 (lookupSet_isSome_of_mem hmem)
      simpa [lookupSet] using this
  refine ⟨?_, ?_, ?_⟩
  · intro e he
    obtain ⟨L, set⟩ := e
    have hsome := lookupSet_isSome_of_mem he
    obtain ⟨tm, htm, set', hmem⟩ := ((reduceMaps_spec tmp L).1).1 hsome
    obtain ⟨region, hr, _, hkeys⟩ := hthread tm htm
    obtain ⟨p, hp, hpop, M, hT⟩ := hkeys L set' hmem
    exact ⟨p, M, hcov.1 region hr p hp, hpop, hT⟩
  · intro e he M hM
    obtain ⟨L, set⟩ := e
    have hl := ((reduceMaps_spec tmp L).2.2 set).1 he
    have hM' : M ∈ (lookupSet (reduceMaps tmp) L).getD [] := by rw [hl]; exact hM
    obtain ⟨tm, htm, set', hmem, hMs⟩ := ((reduceMaps_spec tmp L).2.1 M).1 hM'
    obtain ⟨region, hr, hsets, _⟩ := hthread tm htm
    obtain ⟨p, hp, hpop, hT⟩ := (hsets L set' hmem M).1 hMs
    exact ⟨p, hcov.1 region hr p hp, hpop, hT⟩
  · intro p L M hp hpop hT
    obtain ⟨region, hr, hpr⟩ := hcov.2 p hp
    obtain ⟨tm, htm, hscan⟩ := hfwd region hr
    obtain ⟨a, b, c, _⟩ := scanFold_spec region [] tm (hcov.1 region hr) hscan
    have hMtm : M ∈ (lookupSet tm L).getD [] := (a L M).2 (Or.inr ⟨p, hpr, hpop, hT⟩)
    obtain ⟨set', hset'⟩ : ∃ set', lookupSet tm L = some set' := by
      cases hl : lookupSet tm L with
      | none => rw [hl] at hMtm; simp at hMtm
      | some set' => exact ⟨set', rfl⟩
    rw [hset'] at hMtm
    have hMg : M ∈ (lookupSet (reduceMaps tmp) L).getD [] :=
      ((reduceMaps_spec tmp L).2.1 M).2 ⟨tm, htm, set', lookupSet_mem hset', hMtm⟩
    obtain ⟨set, hset⟩ : ∃ set, lookupSet (reduceMaps tmp) L = some set := by
      cases hl : lookupSet (reduceMaps tmp) L with
      | none => rw [hl] at hMg; simp at hMg
      | some set => exact ⟨set, rfl⟩
    rw [hset] at hMg
    exact ⟨(L, set), lookupSet_mem hset, rfl, hMg⟩

theorem statStep_dim {s s' : State} {label d : Nat} (h : statStep s label = some s')
    (hd : UniformDim s.m_LabelStatistic d) : UniformDim s'.m_LabelStatistic d := by
  obtain ⟨c, pl, hc, hpl, h | h⟩ := statStep_cases h
  · obtain ⟨_, rfl⟩ := h; exact hd
  · obtain ⟨_, _, sc, pc, sl, hsc, hpc, hsl, rfl⟩ := h
    intro v hv
    rcases List.mem_or_eq_of_mem_set hv with hv | rfl
    · exact hd v hv
    · have h1 : sc.length = d := hd sc (List.getElem?_mem hsc)
      have h2 : sl.length = d := hd sl (List.getElem?_mem hsl)
      simp [vdiv, vadd, vscale, h1, h2]

/-- Whenever `SynthetizeOn` returns, the table it returns is flat, and every root of that
table holds the sum of the populations before the pass of the labels whose entry is that
root. -/
theorem SynthetizeOn_population {s s' : State} {nm : NeighboursMap}
    (h : SynthetizeOn s nm = some s') {r : Nat} (hr : s'.m_LUT[r]? = some r) :
    s'.m_LabelPopulation[r]? =
      some (∑ x ∈ (Finset.range s'.m_LUT.length).filter (fun x => s'.m_LUT[x]? = some r),
        (s.m_LabelPopulation[x]?).getD 0) := by
  obtain ⟨lut1, lut2, _, h2, h3⟩ := SynthetizeOn_some h
  obtain ⟨hlen2, _, hpts⟩ := flattenLoop_spec h2
  have hlut : s'.m_LUT = lut2 := (statFold_frame h3).1
  have hflat : ∀ x c : Nat, lut2[x]? = some c → lut2[c]? = some c := by
    intro x c hx
    have hxl : x < lut1.length := hlen2 ▸ (List.getElem?_eq_some_iff.1 hx).1
    obtain ⟨c', hc1, hc2⟩ := hpts x hxl
    rw [hx] at hc1
    cases Option.some.inj hc1
    exact hc2
  rw [hlut] at hr ⊢
  have hrl : r < lut2.length := (List.getElem?_eq_some_iff.1 hr).1
  have hrp : r < s'.m_LabelPopulation.length := by
    rw [(statFold_frame h3).2.1]
    exact statFold_reads h3 r (List.mem_range.2 hrl)
  have hpre := (statLoop_upto (s := { s with m_LUT := lut2 }) hflat lut2.length s' h3).1 r hr
  rw [List.getElem?_eq_getElem hrp] at hpre ⊢
  simp only [Option.getD_some] at hpre
  rw [hpre, sum_class_split lut2 _ lut2.length r hrl hr]

/-! ## One pass of the driver -/

theorem rootOf_range {n x : Nat} (hx : x < n) : RootOf (List.range n) x x :=
  RootOf.self (by rw [List.getElem?_range hx])

/-- A run of the statistics loop over labels that are roots or have population zero writes
nothing. -/
theorem statFold_skip {ls : List Nat} {s : State}
    (h : ∀ l ∈ ls, ∃ c pl, s.m_LUT[l]? = some c ∧ s.m_LabelPopulation[l]? = some pl ∧
      ¬ (pl ≠ 0 ∧ c ≠ l)) : ls.foldlM statStep s = some s := by
  induction ls with
  | nil => rfl
  | cons a ls ih =>
    obtain ⟨c, pl, hc, hpl, hcond⟩ := h a (List.mem_cons_self _ _)
    rw [List.foldlM_cons, statStep_skip hc hpl hcond]
    simp only [Option.bind_eq_bind, Option.some_bind]
    exact ih (fun l hl => h l (List.mem_cons_of_mem _ hl))

theorem flat_entries {lut : List Nat} (hflat : Flat lut) :
    ∀ x c : Nat, lut[x]? = some c → lut[c]? = some c := by
  intro x c hx
  obtain ⟨c', h1, h2⟩ := hflat x (List.getElem?_eq_some_iff.1 hx).1
  rw [hx] at h1
  cases Option.some.inj h1
  exact h2

/-- After the statistics loop on a flat table, every label that is not a root has
population zero. -/
theorem statLoop_nonroot_zero {s s1 : State}
    (hflat : ∀ x c : Nat, s.m_LUT[x]? = some c → s.m_LUT[c]? = some c)
    (h : statLoop s = some s1) {x c : Nat} (hx : s.m_LUT[x]? = some c) (hne : c ≠ x) :
    s1.m_LabelPopulation[x]? = some 0 := by
  have hxl : x < s.m_LUT.length := (List.getElem?_eq_some_iff.1 hx).1
  have h0 := (statLoop_upto hflat s.m_LUT.length s1 h).2 x c hx hne
  rw [if_pos hxl] at h0
  have hxp : x < s1.m_LabelPopulation.length := by
    rw [(statFold_frame h).2.1]
    exact statFold_reads h x (List.mem_range.2 hxl)
  rw [List.getElem?_eq_getElem hxp] at h0 ⊢
  simp only [Option.getD_some] at h0
  rw [h0]

theorem foldlM_none_of_step {α β : Type} (f : β → α → Option β) :
    ∀ (l : List α) (b : β), (∃ a ∈ l, ∀ b', f b' a = none) → l.foldlM f b = none := by
  intro l
  induction l with
  | nil => intro b h; obtain ⟨a, ha, _⟩ := h; cases ha
  | cons x l ih =>
    intro b h
    obtain ⟨a, ha, hf⟩ := h
    rw [List.foldlM_cons]
    rcases List.mem_cons.1 ha with rfl | ha
    · rw [hf b]; rfl
    · cases hx : f b x with
      | none => rfl
      | some b1 => exact ih b1 ⟨a, ha, hf⟩

theorem closestFold_none {stat : List (List ℚ)} {label n : Nat} {a b : List ℚ}
    (ha : stat[label]? = some a) (hb : stat[n]? = some b) (hlen : a.length ≠ b.length) :
    ∀ acc, closestStep stat label acc n = none := by
  intro acc
  unfold closestStep
  simp only [ha, hb, Option.bind_eq_bind, Option.some_bind, hlen, if_false]

/-! ## Independence of the partition into thread regions -/

theorem sorted_ext {l1 l2 : List Nat} (h1 : l1.Pairwise (fun a b => a < b))
    (h2 : l2.Pairwise (fun a b => a < b)) (h : ∀ x, x ∈ l1 ↔ x ∈ l2) : l1 = l2 := by
  have n1 : l1.Nodup := h1.imp (fun hab => Nat.ne_of_lt hab)
  have n2 : l2.Nodup := h2.imp (fun hab => Nat.ne_of_lt hab)
  exact List.eq_of_perm_of_sorted ((List.perm_ext_iff_of_nodup n1 n2).2 h) h1 h2

theorem lookupSet_sorted {m : NeighboursMap} (hs : SetsSorted m) {L : Nat} {set : List Nat}
    (h : lookupSet m L = some set) : set.Pairwise (fun a b => a < b) :=
  hs (L, set) (lookupSet_mem h)

/-- Two maps with ascending sets that have the same keys and the same members under every
key give the same set under every key. -/
theorem lookupSet_ext {m1 m2 : NeighboursMap} (hs1 : SetsSorted m1) (hs2 : SetsSorted m2)
    (hkeys : ∀ L, (lookupSet m1 L).isSome = true ↔ (lookupSet m2 L).isSome = true)
    (hmem : ∀ L M, M ∈ (lookupSet m1 L).getD [] ↔ M ∈ (lookupSet m2 L).getD []) :
    ∀ L, lookupSet m1 L = lookupSet m2 L := by
  intro L
  cases h1 : lookupSet m1 L with
  | none =>
    cases h2 : lookupSet m2 L with
    | none => rfl
    | some set2 =>
      have := (hkeys L).2 (by rw [h2]; rfl)
      rw [h1] at this
      cases this
  | some set1 =>
    cases h2 : lookupSet m2 L with
    | none =>
      have := (hkeys L).1 (by rw [h1]; rfl)
      rw [h2] at this
      cases this
    | some set2 =>
      have hm := hmem L
      rw [h1, h2] at hm
      simp only [Option.getD_some] at hm
      rw [sorted_ext (lookupSet_sorted hs1 h1) (lookupSet_sorted hs2 h2) hm]

theorem perm_of_lookupSet_eq {m1 m2 : NeighboursMap} (hu1 : UniqueKeys m1)
    (hu2 : UniqueKeys m2) (h : ∀ L, lookupSet m1 L = lookupSet m2 L) : m1.Perm m2 := by
  apply (List.perm_ext_iff_of_nodup (List.Nodup.of_map _ hu1) (List.Nodup.of_map _ hu2)).2
  rintro ⟨L, set⟩
  rw [mem_iff_lookupSet hu1, mem_iff_lookupSet hu2, h L]

/-- Keys and sets of the global map of a pass, read through `lookupSet`. -/
theorem passMap_lookup {s : State} {t : Nat} {img : LabelImage} {regions : List (List Pixel)}
    {tmp : List NeighboursMap} (hcov : Covers img regions)
    (htmp : scanAll s t img regions = some tmp) :
    (∀ L, (lookupSet (reduceMaps tmp) L).isSome = true ↔
      ∃ p, img.inside p ∧ s.m_LabelPopulation[L]? = some t ∧ ∃ M, Touches s img p L M) ∧
    (∀ L M, M ∈ (lookupSet (reduceMaps tmp) L).getD [] ↔
      ∃ p, img.inside p ∧ s.m_LabelPopulation[L]? = some t ∧ Touches s img p L M) := by
  obtain ⟨hkeys, hsets, hfwd⟩ := passMap_spec hcov htmp
  constructor
  · intro L
    constructor
    · intro h
      obtain ⟨set, hset⟩ := Option.isSome_iff_exists.1 h
      obtain ⟨p, M, hp, hpop, hT⟩ := hkeys (L, set) (lookupSet_mem hset)
      exact ⟨p, hp, hpop, M, hT⟩
    · rintro ⟨p, hp, hpop, M, hT⟩
      obtain ⟨e, he, heL, _⟩ := hfwd p L M hp hpop hT
      obtain ⟨L', set⟩ := e
      cases heL
      exact lookupSet_isSome_of_mem he
  · intro L M
    constructor
    · intro h
      cases hl : lookupSet (reduceMaps tmp) L with
      | none => rw [hl] at h; simp at h
      | some set =>
        rw [hl] at h
        exact hsets (L, set) (lookupSet_mem hl) M h
    · rintro ⟨p, hp, hpop, hT⟩
      obtain ⟨e, he, heL, hM⟩ := hfwd p L M hp hpop hT
      obtain ⟨L', set⟩ := e
      cases heL
      rw [(mem_iff_lookupSet (reduceMaps_uniqueKeys tmp)).1 he]
      exact hM

/-- Keys and sets of the map of a single thread that scans the whole raster. -/
theorem wholeScan_lookup {s : State} {t : Nat} {img : LabelImage} {whole : List Pixel}
    {m : NeighboursMap} (hcov : Covers img [whole])
    (hm : ThreadedGenerateData s t img whole [] = some m) :
    (∀ L, (lookupSet m L).isSome = true ↔
      ∃ p, img.inside p ∧ s.m_LabelPopulation[L]? = some t ∧ ∃ M, Touches s img p L M) ∧
    (∀ L M, M ∈ (lookupSet m L).getD [] ↔
      ∃ p, img.inside p ∧ s.m_LabelPopulation[L]? = some t ∧ Touches s img p L M) ∧
    UniqueKeys m ∧ SetsSorted m := by
  have hin : ∀ p ∈ whole, img.inside p := hcov.1 whole (List.mem_singleton.2 rfl)
  have hall : ∀ p, img.inside p → p ∈ whole := by
    intro p hp
    obtain ⟨r, hr, hpr⟩ := hcov.2 p hp
    rw [List.mem_singleton.1 hr] at hpr
    exact hpr
  obtain ⟨a, b, c, d⟩ := scanFold_spec whole [] m hin hm
  refine ⟨?_, ?_, c (by simp [UniqueKeys]), d (fun e he => by cases he)⟩
  · intro L
    rw [b]
    simp only [lookupSet, Option.isSome_none, Bool.false_eq_true, false_or]
    constructor
    · rintro ⟨p, hp, h⟩; exact ⟨p, hin p hp, h⟩
    · rintro ⟨p, hp, h⟩; exact ⟨p, hall p hp, h⟩
  · intro L M
    rw [a]
    simp only [lookupSet, Option.getD_none, List.not_mem_nil, false_or]
    constructor
    · rintro ⟨p, hp, h⟩; exact ⟨p, hin p hp, h⟩
    · rintro ⟨p, hp, h⟩; exact ⟨p, hall p hp, h⟩

/-- The global map of a pass does not depend on the partition into thread regions. -/
theorem passMap_eq_wholeScan {s : State} {t : Nat} {img : LabelImage}
    {regions : List (List Pixel)} {whole : List Pixel} {tmp : List NeighboursMap}
    {m : NeighboursMap} (hcov : Covers img regions) (hwhole : Covers img [whole])
    (htmp : scanAll s t img regions = some tmp)
    (hm : ThreadedGenerateData s t img whole [] = some m) :
    (∀ L, lookupSet (reduceMaps tmp) L = lookupSet m L) ∧ (reduceMaps tmp).Perm m := by
  obtain ⟨a1, a2⟩ := passMap_lookup hcov htmp
  obtain ⟨b1, b2, b3, b4⟩ := wholeScan_lookup hwhole hm
  have h : ∀ L, lookupSet (reduceMaps tmp) L = lookupSet m L :=
    lookupSet_ext (reduceMaps_setsSorted tmp) b4 (fun L => by rw [a1, b1])
      (fun L M => by rw [a2, b2])
  exact ⟨h, perm_of_lookupSet_eq (reduceMaps_uniqueKeys tmp) b3 h⟩

theorem demoImage_pixels : ∀ p : Pixel, demoImage.inside p →
    p = (0, 0) ∨ p = (1, 0) ∨ p = (0, 1) ∨ p = (1, 1) := by
  rintro ⟨x, y⟩ ⟨hx, hy⟩
  simp only [demoImage] at hx hy
  have hx' : x = 0 ∨ x = 1 := by omega
  have hy' : y = 0 ∨ y = 1 := by omega
  rcases hx' with rfl | rfl <;> rcases hy' with rfl | rfl <;> simp

theorem demoSplit_covers : Covers demoImage demoSplit := by
  constructor
  · decide
  · intro p hp
    rcases demoImage_pixels p hp with rfl | rfl | rfl | rfl <;> decide

theorem demoRegion_covers : Covers demoImage [demoRegion] := by
  constructor
  · decide
  · intro p hp
    rcases demoImage_pixels p hp with rfl | rfl | rfl | rfl <;> decide

/-! ## Passes that change nothing -/

/-- The flatten loop returns a flat table unchanged. -/
theorem flattenLoop_flat {lut : List Nat} (hflat : Flat lut) : flattenLoop lut = some lut := by
  have hroot : ∀ x, x < lut.length → ∃ r, lut[x]? = some r ∧ RootOf lut x r :=
    fun x hx => (hflat x hx).toRootOf
  have hac : Acyclic lut := acyclic_of_rootOf (fun x hx => by
    obtain ⟨r, _, hr⟩ := hroot x hx
    exact ⟨r, hr⟩)
  obtain ⟨lut2, h2⟩ := flattenLoop_total hac
  obtain ⟨hlen, hroots, hpts⟩ := flattenLoop_spec h2
  rw [h2]
  congr 1
  apply List.ext_getElem?
  intro x
  by_cases hx : x < lut.length
  · obtain ⟨r, h1, hr⟩ := hroot x hx
    obtain ⟨r2, h3, hr2⟩ := (hpts x hx).toRootOf
    rw [h1, h3, hr2.unique (hroots x r hr)]
  · rw [List.getElem?_eq_none (by omega), List.getElem?_eq_none (by omega)]

theorem flat_range (n : Nat) : Flat (List.range n) := by
  intro x hx
  rw [List.length_range] at hx
  exact ⟨x, List.getElem?_range hx, List.getElem?_range hx⟩

/-- On a flat table in which every label that is not a root has population zero,
`Synthetize` with an empty global map returns the state unchanged. -/
theorem SynthetizeOn_nil {s : State} (hflat : Flat s.m_LUT)
    (hpop : s.m_LabelPopulation.length = s.m_LUT.length)
    (hzero : ∀ x c : Nat, s.m_LUT[x]? = some c → c ≠ x → s.m_LabelPopulation[x]? = some 0) :
    SynthetizeOn s [] = some s := by
  unfold SynthetizeOn
  simp only [List.foldlM_nil, Option.pure_def, Option.bind_eq_bind, Option.some_bind,
    flattenLoop_flat hflat]
  have hs : ({ s with m_LUT := s.m_LUT } : State) = s := rfl
  rw [hs]
  unfold statLoop
  apply statFold_skip
  intro l hl
  have hll : l < s.m_LUT.length := List.mem_range.1 hl
  refine ⟨s.m_LUT[l], s.m_LabelPopulation[l], List.getElem?_eq_getElem hll,
    List.getElem?_eq_getElem (hpop ▸ hll), ?_⟩
  rintro ⟨hne0, hne⟩
  have := hzero l _ (List.getElem?_eq_getElem hll) hne
  rw [List.getElem?_eq_getElem (hpop ▸ hll)] at this
  exact hne0 (Option.some.inj this)

theorem foldlM_fixed {α β : Type} (f : β → α → Option β) (b : β) :
    ∀ (l : List α), (∀ a ∈ l, f b a = some b) → l.foldlM f b = some b := by
  intro l
  induction l with
  | nil => intro _; rfl
  | cons a l ih =>
    intro h
    rw [List.foldlM_cons, h a (List.mem_cons_self _ _)]
    simp only [Option.bind_eq_bind, Option.some_bind]
    exact ih (fun a' ha' => h a' (List.mem_cons_of_mem _ ha'))

/-- A pixel without any in-raster neighbour is the only pixel of its raster. -/
theorem no_neighbour_anywhere {img : LabelImage} {p : Pixel} (hp : img.inside p)
    (hiso : ∀ q, ¬ Adjacent4 img p q) : ∀ p' q, img.inside p' → ¬ Adjacent4 img p' q := by
  obtain ⟨x, y⟩ := p
  have hx : x < img.width := hp.1
  have hy : y < img.height := hp.2
  have hw : img.width = 1 := by
    by_contra hne
    by_cases hx0 : x = 0
    · exact hiso (x + 1, y)
        ⟨⟨show x + 1 < img.width by omega, hy⟩, Or.inr ⟨rfl, Or.inr rfl⟩⟩
    · exact hiso (x - 1, y)
        ⟨⟨show x - 1 < img.width by omega, hy⟩,
          Or.inr ⟨rfl, Or.inl (show x - 1 + 1 = x by omega)⟩⟩
  have hh : img.height = 1 := by
    by_contra hne
    by_cases hy0 : y = 0
    · exact hiso (x, y + 1)
        ⟨⟨hx, show y + 1 < img.height by omega⟩, Or.inl ⟨rfl, Or.inr rfl⟩⟩
    · exact hiso (x, y - 1)
        ⟨⟨hx, show y - 1 < img.height by omega⟩,
          Or.inl ⟨rfl, Or.inl (show y - 1 + 1 = y by omega)⟩⟩
  rintro ⟨x', y'⟩ ⟨qx, qy⟩ ⟨hx', hy'⟩ ⟨⟨hq1, hq2⟩, hadj⟩
  simp only at hx' hy' hq1 hq2 hadj
  omega

/-- When no pixel touches another canonical label, a pass returns the state unchanged. -/
theorem update_noTouch {keyOrder : NeighboursMap → NeighboursMap} {img : LabelImage}
    {regions : List (List Pixel)} {s : State} (t : Nat)
    (hperm : ∀ m, (keyOrder m).Perm m) (hcov : Covers img regions)
    (hflat : Flat s.m_LUT) (hpop : s.m_LabelPopulation.length = s.m_LUT.length)
    (hzero : ∀ x c : Nat, s.m_LUT[x]? = some c → c ≠ x → s.m_LabelPopulation[x]? = some 0)
    (hvalid : ValidImage s img)
    (hno : ∀ p L M, img.inside p → ¬ Touches s img p L M) :
    Update keyOrder img regions s t = some s := by
  have hac : Acyclic s.m_LUT := acyclic_of_rootOf (fun x hx => by
    obtain ⟨r, _, hr⟩ := (hflat x hx).toRootOf
    exact ⟨r, hr⟩)
  obtain ⟨tmp, htmp⟩ := @scanAll_total s t img regions hac hpop hvalid hcov
  obtain ⟨hkeys, _, _⟩ := passMap_spec hcov htmp
  have hnil : reduceMaps tmp = [] := by
    apply List.eq_nil_iff_forall_not_mem.2
    intro e he
    obtain ⟨p, M, hp, _, hT⟩ := hkeys e he
    exact hno p e.1 M hp hT
  have hnil' : keyOrder (reduceMaps tmp) = [] := by
    have := hperm (reduceMaps tmp)
    rw [hnil] at this ⊢
    exact List.Perm.eq_nil this
  unfold Update
  rw [htmp]
  simp only [Option.bind_eq_bind, Option.some_bind]
  unfold Synthetize
  rw [hnil']
  exact SynthetizeOn_nil hflat hpop hzero

/-! ## Two adjacent single-pixel regions -/

theorem foldl_add_zeros (l : List ℚ) (h : ∀ t ∈ l, t = 0) :
    l.foldl (fun d t => d + t) 0 = 0 := by
  induction l with
  | nil => rfl
  | cons a l ih =>
    rw [List.foldl_cons, h a (List.mem_cons_self _ _), add_zero]
    exact ih (fun t ht => h t (List.mem_cons_of_mem _ ht))

theorem sqDistance_self (m : List ℚ) : sqDistance m m = 0 := by
  unfold sqDistance
  apply foldl_add_zeros
  intro t ht
  obtain ⟨i, hi, rfl⟩ := List.getElem_of_mem ht
  simp [List.getElem_zipWith]

/-- A key with the single neighbour `b` whose mean equals its own selects `b`. -/
theorem closestNeighbour_equal_mean {stat : List (List ℚ)} {a b : Nat} {m : List ℚ}
    (ha : stat[a]? = some m) (hb : stat[b]? = some m) :
    closestNeighbour stat a [b] = some b := by
  have hcmp : Comparable stat a b := ⟨m, m, ha, hb, rfl⟩
  unfold closestNeighbour
  rw [List.foldlM_cons, closestStep_eq hcmp]
  have hd : meanDistance stat a b = 0 := by
    unfold meanDistance
    rw [ha, hb]
    exact sqDistance_self m
  simp [hd, doubleMax_pos]

/-- The table after the resolve-and-union loop for the two keys `a < b`, each with the
other as only neighbour, in either order: `b` points to `a`. -/
theorem resolve_pair {stat : List (List ℚ)} {n a b : Nat} {m : List ℚ} (hab : a < b)
    (hbn : b < n) (ha : stat[a]? = some m) (hb : stat[b]? = some m) {nm : NeighboursMap}
    (hnm : nm = [(a, [b]), (b, [a])] ∨ nm = [(b, [a]), (a, [b])]) :
    nm.foldlM (resolveStep stat) (List.range n) = some ((List.range n).set b a) := by
  have han : a < n := Nat.lt_trans hab hbn
  have hca := closestNeighbour_equal_mean ha hb
  have hcb := closestNeighbour_equal_mean hb ha
  have ra : RootOf (List.range n) a a := rootOf_range han
  have rb : RootOf (List.range n) b b := rootOf_range hbn
  have hne : a ≠ b := Nat.ne_of_lt hab
  have hset_a : ((List.range n).set b a)[a]? = some a := by
    rw [List.getElem?_set_ne (Ne.symm hne)]
    exact List.getElem?_range han
  have ra' : RootOf ((List.range n).set b a) a a := RootOf.self hset_a
  have rb' : RootOf ((List.range n).set b a) b a :=
    RootOf.step (List.getElem?_set_self (by rw [List.length_range]; exact hbn)) hne ra'
  rcases hnm with rfl | rfl
  · simp only [List.foldlM_cons, List.foldlM_nil, resolveStep, hca, hcb, Option.bind_eq_bind,
      Option.some_bind, Option.pure_def]
    rw [unionStep_eq ra rb, if_pos hab]
    simp only [Option.some_bind]
    rw [unionStep_eq rb' ra', if_neg (Nat.lt_irrefl a), if_pos rfl]
    rfl
  · simp only [List.foldlM_cons, List.foldlM_nil, resolveStep, hca, hcb, Option.bind_eq_bind,
      Option.some_bind, Option.pure_def]
    rw [unionStep_eq rb ra, if_neg (by omega), if_neg (Ne.symm hne)]
    simp only [Option.some_bind]
    rw [unionStep_eq ra' rb', if_neg (Nat.lt_irrefl a), if_pos rfl]
    rfl

theorem flat_range_set {n a b : Nat} (hab : a < b) (hbn : b < n) :
    Flat ((List.range n).set b a) := by
  have han : a < n := Nat.lt_trans hab hbn
  have hne : a ≠ b := Nat.ne_of_lt hab
  have hset_a : ((List.range n).set b a)[a]? = some a := by
    rw [List.getElem?_set_ne (Ne.symm hne)]
    exact List.getElem?_range han
  intro x hx
  rw [List.length_set, List.length_range] at hx
  by_cases hxb : x = b
  · subst hxb
    exact ⟨a, List.getElem?_set_self (by rw [List.length_range]; exact hbn), hset_a⟩
  · have : ((List.range n).set b a)[x]? = some x := by
      rw [List.getElem?_set_ne (Ne.symm hxb)]
      exact List.getElem?_range hx
    exact ⟨x, this, this⟩

/-! ## The scenario of a single pixel inside a ring -/

theorem descending_range (n : Nat) : Descending (List.range n) := by
  intro x c h
  have hx : x < n := by
    have := (List.getElem?_eq_some_iff.1 h).1
    simpa using this
  rw [List.getElem?_range hx] at h
  exact le_of_eq (Option.some.inj h).symm

theorem Descending.entry_lt {lut : List Nat} (h : Descending lut) {x c : Nat}
    (hx : lut[x]? = some c) : c < lut.length :=
  lt_of_le_of_lt (h x c hx) (List.getElem?_eq_some_iff.1 hx).1

theorem Descending.rootN {lut : List Nat} (h : Descending lut) :
    ∀ x, x < lut.length → ∃ k r, k ≤ x ∧ r ≤ x ∧ RootN lut k x r := by
  intro x
  induction x using Nat.strong_induction_on with
  | _ x ih =>
    intro hx
    have hc : lut[x]? = some lut[x] := List.getElem?_eq_getElem hx
    have hle := h x _ hc
    by_cases heq : lut[x] = x
    · exact ⟨0, x, Nat.zero_le _, le_refl _, RootN.root (by rw [hc, heq])⟩
    · have hlt : lut[x] < x := lt_of_le_of_ne hle heq
      obtain ⟨k, r, hk, hr, hroot⟩ := ih _ hlt (lt_trans hlt hx)
      exact ⟨k + 1, r, by omega, by omega, RootN.step hc heq hroot⟩

theorem Descending.acyclic {lut : List Nat} (h : Descending lut) : Acyclic lut :=
  acyclic_of_rootOf (fun x hx => by
    obtain ⟨k, r, _, _, hr⟩ := h.rootN x hx
    exact ⟨r, k, hr⟩)

theorem Descending.root_le {lut : List Nat} (h : Descending lut) {x r : Nat}
    (hr : RootOf lut x r) : r ≤ x := by
  obtain ⟨k, r', _, hle, hr'⟩ := h.rootN x hr.lt_length
  have := hr.unique ⟨k, hr'⟩
  omega

theorem Descending.set_le {lut : List Nat} (h : Descending lut) {a b : Nat} (hab : a ≤ b) :
    Descending (lut.set b a) := by
  intro x c hx
  rw [List.getElem?_set] at hx
  split at hx
  · rename_i hbx
    split at hx
    · cases hx; omega
    · cases hx
  · exact h x c hx

theorem unionStep_descending {lut lut' : List Nat} {a b : Nat} (h : Descending lut)
    (hu : unionStep lut a b = some lut') : Descending lut' := by
  obtain ⟨ra, rb, hra, hrb⟩ := unionStep_some hu
  rw [unionStep_eq hra hrb] at hu
  cases hu
  split
  · rename_i hlt
    exact h.set_le (le_of_lt hlt)
  · split
    · exact h
    · exact h.set_le (by omega)

theorem resolve_fold_descending {stat : List (List ℚ)} {es : NeighboursMap} :
    ∀ {lut lut' : List Nat}, Descending lut → es.foldlM (resolveStep stat) lut = some lut' →
      Descending lut' := by
  induction es with
  | nil =>
    intro lut lut' hd h
    simp only [List.foldlM_nil, Option.pure_def, Option.some.injEq] at h
    subst h
    exact hd
  | cons e es ih =>
    intro lut lut' hd h
    rw [List.foldlM_cons] at h
    simp only [Option.bind_eq_bind, Option.bind_eq_some] at h
    obtain ⟨lut1, h1, h2⟩ := h
    obtain ⟨c, _, hu⟩ := resolveStep_some h1
    exact ih (unionStep_descending hd hu) h2

theorem flatten_fold_descending {ls : List Nat} :
    ∀ {lut lut' : List Nat}, Descending lut → ls.foldlM flattenStep lut = some lut' →
      Descending lut' := by
  induction ls with
  | nil =>
    intro lut lut' hd h
    simp only [List.foldlM_nil, Option.pure_def, Option.some.injEq] at h
    subst h
    exact hd
  | cons l ls ih =>
    intro lut lut' hd h
    rw [List.foldlM_cons] at h
    simp only [Option.bind_eq_bind, Option.bind_eq_some] at h
    obtain ⟨lut1, h1, h2⟩ := h
    obtain ⟨r, hr, rfl⟩ := flattenStep_some h1
    exact ih (hd.set_le (hd.root_le hr)) h2

theorem flattenLoop_descending {lut lut' : List Nat} (hd : Descending lut)
    (h : flattenLoop lut = some lut') : Descending lut' :=
  flatten_fold_descending hd h

/-! ## The graph of one pass -/

theorem rootOf_connected {lut : List Nat} (stat : List (List ℚ)) (nm : NeighboursMap)
    {x r : Nat} (h : RootOf lut x r) : Connected lut stat nm x r := by
  obtain ⟨k, hk⟩ := h
  induction hk with
  | root _ => exact Relation.EqvGen.refl _
  | step hp _ _ ih => exact Relation.EqvGen.trans _ _ _ (Relation.EqvGen.rel _ _ (Or.inl hp)) ih

theorem resolve_fold_classes {stat : List (List ℚ)} {C : Nat → Nat → Prop}
    (hC : Equivalence C) {es : NeighboursMap} :
    ∀ {lut lut' : List Nat}, Acyclic lut →
      (∀ e ∈ es, ∀ c, closestNeighbour stat e.1 e.2 = some c → C e.1 c) →
      (∀ x r, RootOf lut x r → C x r) →
      es.foldlM (resolveStep stat) lut = some lut' → ∀ x r, RootOf lut' x r → C x r := by
  induction es with
  | nil =>
    intro lut lut' _ _ h0 h
    simp only [List.foldlM_nil, Option.pure_def, Option.some.injEq] at h
    subst h
    exact h0
  | cons e es ih =>
    intro lut lut' hac hes h0 h
    rw [List.foldlM_cons] at h
    simp only [Option.bind_eq_bind, Option.bind_eq_some] at h
    obtain ⟨lut1, h1, h2⟩ := h
    obtain ⟨c, hc, hu⟩ := resolveStep_some h1
    obtain ⟨ra, rb, hra, hrb⟩ := unionStep_some hu
    have hec : C e.1 c := hes e (List.mem_cons_self _ _) c hc
    have hab : C ra rb := hC.trans (hC.symm (h0 _ _ hra)) (hC.trans hec (h0 _ _ hrb))
    refine ih (unionStep_acyclic hac hra hrb hu)
      (fun e' he' => hes e' (List.mem_cons_of_mem _ he')) ?_ h2
    intro x r hx
    have hxl : x < lut.length := by
      rw [← unionStep_length hra hrb hu]
      exact hx.lt_length
    obtain ⟨r0, hr0⟩ := hac.hasRoot hxl
    have hr := hx.unique (unionStep_rootOf hra hrb hu hr0)
    have hx0 : C x r0 := h0 _ _ hr0
    rw [hr]
    split
    · rename_i hcase
      have hmin : min ra rb = ra ∨ min ra rb = rb := by omega
      rcases hcase with rfl | rfl <;> rcases hmin with hm | hm <;> rw [hm]
      · exact hx0
      · exact hC.trans hx0 hab
      · exact hC.trans hx0 (hC.symm hab)
      · exact hx0
    · exact hx0

theorem connected_equivalence (lut : List Nat) (stat : List (List ℚ)) (nm : NeighboursMap) :
    Equivalence (Connected lut stat nm) :=
  Relation.EqvGen.is_equivalence _

/-- After the loop over the map, the root of every label is connected to it. -/
theorem resolve_fold_sound {stat : List (List ℚ)} {es : NeighboursMap} {lut lut' : List Nat}
    (hac : Acyclic lut) (h : es.foldlM (resolveStep stat) lut = some lut') {x r : Nat}
    (hx : RootOf lut' x r) : Connected lut stat es x r :=
  resolve_fold_classes (connected_equivalence lut stat es) hac
    (fun e he _ hc => Relation.EqvGen.rel _ _ (Or.inr ⟨e, he, rfl, hc⟩))
    (fun _ _ hr => rootOf_connected stat es hr) h x r hx

/-- After the loop over the map, connected labels have the same root. -/
theorem resolve_fold_merges {stat : List (List ℚ)} {es : NeighboursMap} {lut lut' : List Nat}
    (hac : Acyclic lut) (h : es.foldlM (resolveStep stat) lut = some lut') {x y : Nat}
    (hxy : Connected lut stat es x y) :
    FindCorrespondingLabel lut' x = FindCorrespondingLabel lut' y := by
  obtain ⟨_, ⟨g, hg⟩, hkeys⟩ := resolve_fold_spec h
  induction hxy with
  | rel a b hab =>
    rcases hab with hp | ⟨e, he, rfl, hc⟩
    · have hal : a < lut.length := (List.getElem?_eq_some_iff.1 hp).1
      obtain ⟨r0, hr0⟩ := hac.hasRoot hal
      rw [rootOf_iff_find.1 (hg _ _ hr0), rootOf_iff_find.1 (hg _ _ (hr0.parent hp))]
    · obtain ⟨c, r', hc', h1, h2⟩ := hkeys e he
      rw [hc] at hc'
      cases hc'
      rw [rootOf_iff_find.1 h1, rootOf_iff_find.1 h2]
  | refl a => rfl
  | symm a b _ ih => exact ih.symm
  | trans a b c _ _ ih1 ih2 => exact ih1.trans ih2

/-- After the loop over the map on a table with `m_LUT[x] <= x`, the root of every label is
the smallest label of its component. -/
theorem resolve_fold_component {stat : List (List ℚ)} {es : NeighboursMap}
    {lut lut' : List Nat} (hd : Descending lut)
    (h : es.foldlM (resolveStep stat) lut = some lut') {x : Nat} (hx : x < lut.length) :
    ∃ r, RootOf lut' x r ∧ Connected lut stat es x r ∧
      ∀ y, Connected lut stat es x y → r ≤ y := by
  obtain ⟨hlen, hg, _⟩ := resolve_fold_spec h
  have hac' : Acyclic lut' := acyclic_of_coarsening hd.acyclic hlen hg
  obtain ⟨r, hr⟩ := hac'.hasRoot (hlen ▸ hx)
  refine ⟨r, hr, resolve_fold_sound hd.acyclic h hr, fun y hy => ?_⟩
  have hf := resolve_fold_merges hd.acyclic h hy
  rw [rootOf_iff_find.1 hr] at hf
  exact (resolve_fold_descending hd h).root_le (rootOf_iff_find.2 hf.symm)

theorem connected_of_subset {lut : List Nat} {stat : List (List ℚ)} {nm nm' : NeighboursMap}
    (hsub : ∀ e ∈ nm, e ∈ nm') {x y : Nat} (h : Connected lut stat nm x y) :
    Connected lut stat nm' x y := by
  refine Relation.EqvGen.mono ?_ h
  intro a b hab
  rcases hab with hp | ⟨e, he, h1, h2⟩
  · exact Or.inl hp
  · exact Or.inr ⟨e, hsub e he, h1, h2⟩

/-- Every entry visited by a loop that returns has a selected neighbour, and both labels are
labels of the table. -/
theorem resolve_fold_valid {stat : List (List ℚ)} {es : NeighboursMap} :
    ∀ {lut lut' : List Nat}, es.foldlM (resolveStep stat) lut = some lut' →
      ∀ e ∈ es, ∃ c, closestNeighbour stat e.1 e.2 = some c ∧ e.1 < lut.length ∧
        c < lut.length := by
  induction es with
  | nil => intro _ _ _ e he; cases he
  | cons e es ih =>
    intro lut lut' h e' he'
    rw [List.foldlM_cons] at h
    simp only [Option.bind_eq_bind, Option.bind_eq_some] at h
    obtain ⟨lut1, h1, h2⟩ := h
    obtain ⟨c, hc, hu⟩ := resolveStep_some h1
    obtain ⟨ra, rb, hra, hrb⟩ := unionStep_some hu
    rcases List.mem_cons.1 he' with rfl | he'
    · exact ⟨c, hc, hra.lt_length, hrb.lt_length⟩
    · have := ih h2 e' he'
      rwa [unionStep_length hra hrb hu] at this

theorem resolve_fold_returns {stat : List (List ℚ)} {es : NeighboursMap} :
    ∀ {lut : List Nat}, Acyclic lut →
      (∀ e ∈ es, ∃ c, closestNeighbour stat e.1 e.2 = some c ∧ e.1 < lut.length ∧
        c < lut.length) →
      ∃ lut', es.foldlM (resolveStep stat) lut = some lut' := by
  induction es with
  | nil => intro lut _ _; exact ⟨lut, rfl⟩
  | cons e es ih =>
    intro lut hac hes
    obtain ⟨c, hc, hk, hcl⟩ := hes e (List.mem_cons_self _ _)
    obtain ⟨ra, hra⟩ := hac.hasRoot hk
    obtain ⟨rb, hrb⟩ := hac.hasRoot hcl
    have hu := unionStep_eq hra hrb
    have hstep : resolveStep stat lut e =
        some (if ra < rb then lut.set rb ra else if ra = rb then lut else lut.set ra rb) := by
      unfold resolveStep
      rw [hc]
      exact hu
    rw [List.foldlM_cons, hstep]
    simp only [Option.bind_eq_bind, Option.some_bind]
    apply ih (unionStep_acyclic hac hra hrb hu)
    intro e' he'
    rw [unionStep_length hra hrb hu]
    exact hes e' (List.mem_cons_of_mem _ he')

/-- The flattened table after the loop over the map does not depend on the order in which
the entries are visited. -/
theorem resolve_flatten_perm {stat : List (List ℚ)} {nm nm' : NeighboursMap}
    {lut lut1 lut2 : List Nat} (hd : Descending lut) (hperm : nm.Perm nm')
    (h1 : nm.foldlM (resolveStep stat) lut = some lut1) (h2 : flattenLoop lut1 = some lut2) :
    ∃ lut1', nm'.foldlM (resolveStep stat) lut = some lut1' ∧
      flattenLoop lut1' = some lut2 := by
  obtain ⟨lut1', h1'⟩ := @resolve_fold_returns stat nm' lut hd.acyclic
    (fun e he => resolve_fold_valid h1 e (hperm.mem_iff.2 he))
  obtain ⟨hlen, hg, _⟩ := resolve_fold_spec h1
  obtain ⟨hlen', hg', _⟩ := resolve_fold_spec h1'
  obtain ⟨lut2', h2'⟩ := flattenLoop_total (acyclic_of_coarsening hd.acyclic hlen' hg')
  refine ⟨lut1', h1', ?_⟩
  rw [h2']
  congr 1
  obtain ⟨hl2, hroot2, hpts2⟩ := flattenLoop_spec h2
  obtain ⟨hl2', hroot2', hpts2'⟩ := flattenLoop_spec h2'
  apply List.ext_getElem?
  intro x
  by_cases hx : x < lut.length
  · obtain ⟨r, hr, hcr, hmin⟩ := resolve_fold_component hd h1 hx
    obtain ⟨r', hr', hcr', hmin'⟩ := resolve_fold_component hd h1' hx
    have hrr : r = r' :=
      le_antisymm (hmin _ (connected_of_subset (fun e he => hperm.mem_iff.2 he) hcr'))
        (hmin' _ (connected_of_subset (fun e he => hperm.mem_iff.1 he) hcr))
    obtain ⟨s, hs, hsr⟩ := (hpts2 x (hlen ▸ hx)).toRootOf
    obtain ⟨s', hs', hsr'⟩ := (hpts2' x (hlen' ▸ hx)).toRootOf
    rw [hs, hs', hsr.unique (hroot2 _ _ hr), hsr'.unique (hroot2' _ _ hr'), hrr]
  · rw [List.getElem?_eq_none (by omega), List.getElem?_eq_none (by omega)]

theorem SynthetizeOn_perm {s s' : State} {nm nm' : NeighboursMap}
    (hd : Descending s.m_LUT) (hperm : nm.Perm nm') (h : SynthetizeOn s nm = some s') :
    SynthetizeOn s nm' = some s' := by
  obtain ⟨lut1, lut2, h1, h2, h3⟩ := SynthetizeOn_some h
  obtain ⟨lut1', h1', h2'⟩ := resolve_flatten_perm hd hperm h1 h2
  unfold SynthetizeOn
  rw [h1']
  simp only [Option.bind_eq_bind, Option.some_bind, h2']
  exact h3

theorem chain_wellFormed : WellFormed chainState chainMap := by
  refine ⟨acyclic_of_walks (by decide), rfl, rfl, ?_⟩
  intro e he
  simp only [chainMap, List.mem_cons, List.mem_singleton, List.not_mem_nil, or_false] at he
  rcases he with rfl | rfl
  · refine ⟨by decide, ?_⟩
    intro n hn
    simp only [List.mem_cons, List.mem_singleton, List.not_mem_nil, or_false] at hn
    subst hn
    exact ⟨by decide, _, _, rfl, rfl, rfl⟩
  · refine ⟨by decide, ?_⟩
    intro n hn
    simp only [List.mem_cons, List.mem_singleton, List.not_mem_nil, or_false] at hn
    rcases hn with rfl | rfl
    · exact ⟨by decide, _, _, rfl, rfl, rfl⟩
    · exact ⟨by decide, _, _, rfl, rfl, rfl⟩

theorem chain_closest :
    closestNeighbour chainState.m_LabelStatistic 3 [2] = some 2 ∧
      closestNeighbour chainState.m_LabelStatistic 2 [1, 3] = some 1 := by
  constructor
  · simp [closestNeighbour, closestStep, sqDistance, doubleMax, chainState]
    norm_num
  · simp [closestNeighbour, closestStep, sqDistance, doubleMax, chainState]
    norm_num

/-- The two orders of visiting `chainMap` give different tables before the flatten loop. -/
theorem chain_resolve :
    chainMap.foldlM (resolveStep chainState.m_LabelStatistic) chainState.m_LUT =
        some [0, 1, 1, 2] ∧
      chainMap.reverse.foldlM (resolveStep chainState.m_LabelStatistic) chainState.m_LUT =
        some [0, 1, 1, 1] := by
  obtain ⟨h3, h2⟩ := chain_closest
  constructor
  · show List.foldlM _ _ [(3, [2]), (2, [1, 3])] = _
    simp only [List.foldlM_cons, List.foldlM_nil, resolveStep, h3, h2, Option.bind_eq_bind,
      Option.some_bind]
    decide
  · show List.foldlM _ _ [(2, [1, 3]), (3, [2])] = _
    simp only [List.foldlM_cons, List.foldlM_nil, resolveStep, h3, h2, Option.bind_eq_bind,
      Option.some_bind]
    decide

theorem flatten_entry {lut1 lut2 : List Nat} (h : flattenLoop lut1 = some lut2) {x r : Nat}
    (hr : RootOf lut1 x r) : lut2[x]? = some r := by
  obtain ⟨hlen, hroot, hpts⟩ := flattenLoop_spec h
  obtain ⟨s, hs, hsr⟩ := (hpts x hr.lt_length).toRootOf
  rw [hs, hsr.unique (hroot _ _ hr)]

theorem foldlM_preserves {α β : Type} (f : β → α → Option β) (P : β → Prop)
    (hstep : ∀ b a b', P b → f b a = some b' → P b') :
    ∀ (l : List α) (b b' : β), P b → l.foldlM f b = some b' → P b' := by
  intro l
  induction l with
  | nil =>
    intro b b' hb h
    simp only [List.foldlM_nil, Option.pure_def, Option.some.injEq] at h
    subst h
    exact hb
  | cons a l ih =>
    intro b b' hb h
    rw [List.foldlM_cons] at h
    simp only [Option.bind_eq_bind, Option.bind_eq_some] at h
    obtain ⟨b1, h1, h2⟩ := h
    exact ih b1 b' (hstep b a b1 hb h1) h2

theorem SynthetizeOn_descending {s s' : State} {nm : NeighboursMap}
    (hd : Descending s.m_LUT) (h : SynthetizeOn s nm = some s') : Descending s'.m_LUT := by
  obtain ⟨lut1, lut2, h1, h2, h3⟩ := SynthetizeOn_some h
  have hl : s'.m_LUT = lut2 := (statFold_frame h3).1
  rw [hl]
  exact flattenLoop_descending (resolve_fold_descending hd h1) h2

theorem generate_descending {keyOrder : NeighboursMap → NeighboursMap} {img : LabelImage}
    {regions : List (List Pixel)} {m_MinSize : Nat} {s s' : State}
    (hd : Descending s.m_LUT)
    (h : GenerateData keyOrder img regions m_MinSize s = some s') : Descending s'.m_LUT := by
  refine foldlM_preserves (Update keyOrder img regions) (fun t => Descending t.m_LUT) ?_
    _ s s' hd h
  intro b a b' hb hu
  unfold Update at hu
  simp only [Option.bind_eq_bind, Option.bind_eq_some] at hu
  obtain ⟨tmp, _, hsyn⟩ := hu
  exact SynthetizeOn_descending hb hsyn



/-! ## Populations after a pass -/

theorem SynthetizeOn_flat {s s' : State} {nm : NeighboursMap}
    (h : SynthetizeOn s nm = some s') :
    ∀ x c : Nat, s'.m_LUT[x]? = some c → s'.m_LUT[c]? = some c := by
  obtain ⟨lut1, lut2, _, h2, h3⟩ := SynthetizeOn_some h
  obtain ⟨hlen2, _, hpts⟩ := flattenLoop_spec h2
  rw [(statFold_frame h3).1]
  intro x c hx
  have hxl : x < lut1.length := hlen2 ▸ (List.getElem?_eq_some_iff.1 hx).1
  obtain ⟨c', hc1, hc2⟩ := hpts x hxl
  rw [hx] at hc1
  cases Option.some.inj hc1
  exact hc2

theorem SynthetizeOn_nonroot_zero {s s' : State} {nm : NeighboursMap}
    (h : SynthetizeOn s nm = some s') {x c : Nat} (hx : s'.m_LUT[x]? = some c)
    (hne : c ≠ x) : s'.m_LabelPopulation[x]? = some 0 := by
  have hflat := SynthetizeOn_flat h
  obtain ⟨lut1, lut2, _, _, h3⟩ := SynthetizeOn_some h
  have hl : s'.m_LUT = lut2 := (statFold_frame h3).1
  rw [hl] at hflat hx
  exact @statLoop_nonroot_zero { s with m_LUT := lut2 } s' hflat h3 x c hx hne

theorem sum_countP_fibres {α : Type} (f : α → Option Nat) (S : Finset Nat) :
    ∀ l : List α, (∑ x ∈ S, l.countP (fun p => decide (f p = some x))) =
      l.countP (fun p => decide (∃ x ∈ S, f p = some x)) := by
  intro l
  induction l with
  | nil => simp
  | cons a l ih =>
    simp only [List.countP_cons, Finset.sum_add_distrib, ih]
    congr 1
    cases hfa : f a with
    | none => simp
    | some y =>
      by_cases hy : y ∈ S
      · have h1 : (∃ x ∈ S, y = x) := ⟨y, hy, rfl⟩
        simp only [Option.some.injEq, decide_eq_true_eq, h1, if_true]
        rw [Finset.sum_ite_eq S y (fun _ => 1), if_pos hy]
      · have h1 : ¬ (∃ x ∈ S, y = x) := by
          rintro ⟨x, hx, rfl⟩
          exact hy hx
        simp only [Option.some.injEq, decide_eq_true_eq, h1, if_false]
        rw [Finset.sum_ite_eq S y (fun _ => 1), if_neg hy]

/-- The populations after a pass count the pixels of the classes of the new table, when
the populations before the pass counted the pixels of the classes of the old table. -/
theorem SynthetizeOn_counts {img : LabelImage} {s s' : State} {nm : NeighboursMap}
    (hac : Acyclic s.m_LUT)
    (hroot : ∀ r : Nat, s.m_LUT[r]? = some r →
      s.m_LabelPopulation[r]? = some (classCount img s.m_LUT r))
    (hzero : ∀ x c : Nat, s.m_LUT[x]? = some c → c ≠ x → s.m_LabelPopulation[x]? = some 0)
    (h : SynthetizeOn s nm = some s') {r : Nat} (hr : s'.m_LUT[r]? = some r) :
    s'.m_LabelPopulation[r]? = some (classCount img s'.m_LUT r) := by
  rw [SynthetizeOn_population h hr]
  obtain ⟨lut1, lut2, h1, h2, h3⟩ := SynthetizeOn_some h
  have hl : s'.m_LUT = lut2 := (statFold_frame h3).1
  obtain ⟨hlen1, ⟨g, hg⟩, _⟩ := resolve_fold_spec h1
  obtain ⟨hlen2, hroot2, hpts⟩ := flattenLoop_spec h2
  have hflat := SynthetizeOn_flat h
  rw [hl] at hr hflat ⊢
  have hentry : ∀ l x, RootOf s.m_LUT l x → lut2[l]? = some (g x) := by
    intro l x hlx
    have hr1 := hg _ _ hlx
    obtain ⟨c, hc, hcr⟩ := (hpts l hr1.lt_length).toRootOf
    rw [hc, hcr.unique (hroot2 _ _ hr1)]
  have hterm : ∀ x, x < lut2.length → (s.m_LabelPopulation[x]?).getD 0 =
      ((List.range img.width).product (List.range img.height)).countP
        (fun p => decide (FindCorrespondingLabel s.m_LUT (img.raw p.1 p.2) = some x)) := by
    intro x hx
    have hxl : x < s.m_LUT.length := by rw [← hlen1, ← hlen2]; exact hx
    have hc : s.m_LUT[x]? = some s.m_LUT[x] := List.getElem?_eq_getElem hxl
    by_cases heq : s.m_LUT[x] = x
    · rw [hroot x (by rw [hc, heq])]
      rfl
    · rw [hzero x _ hc heq]
      symm
      rw [Option.getD_some, List.countP_eq_zero]
      intro p _
      simp only [decide_eq_true_eq]
      intro hf
      have := (rootOf_iff_find.2 hf).root_fixed
      rw [hc] at this
      exact heq (Option.some.inj this)
  rw [Finset.sum_congr rfl (fun x hx => hterm x (Finset.mem_range.1 (Finset.mem_filter.1 hx).1)),
    sum_countP_fibres]
  congr 1
  unfold classCount
  apply List.countP_congr
  intro p _
  simp only [decide_eq_true_eq, Finset.mem_filter, Finset.mem_range]
  constructor
  · rintro ⟨x, ⟨_, hx2⟩, hf⟩
    have hlx := rootOf_iff_find.2 hf
    have e1 := hentry _ _ hlx
    have e2 := hentry _ _ hlx.of_root
    rw [hx2] at e2
    rw [← e2] at e1
    exact rootOf_iff_find.1 (PointsToRoot.toRootOf ⟨r, e1, hr⟩ |>.elim
      (fun c hc => by
        have := hc.1
        rw [e1] at this
        cases this
        exact hc.2))
  · intro hf
    have hl2 := rootOf_iff_find.2 hf
    have hll : img.raw p.1 p.2 < s.m_LUT.length := by
      rw [← hlen1, ← hlen2]
      exact hl2.lt_length
    obtain ⟨x, hx⟩ := hac.hasRoot hll
    have e1 := hentry _ _ hx
    have e2 := hentry _ _ hx.of_root
    have hgx : lut2[g x]? = some (g x) := hflat _ _ e1
    have hroot' : RootOf lut2 (img.raw p.1 p.2) (g x) := by
      obtain ⟨c, hc1, hc2⟩ := PointsToRoot.toRootOf ⟨g x, e1, hgx⟩
      rw [e1] at hc1
      cases hc1
      exact hc2
    have hrg : r = g x := hl2.unique hroot'
    refine ⟨x, ⟨?_, by rw [hrg]; exact e2⟩, rootOf_iff_find.1 hx⟩
    rw [hlen2, hlen1]
    exact hx.root_lt_length

theorem SynthetizeOn_acyclic {s s' : State} {nm : NeighboursMap}
    (h : SynthetizeOn s nm = some s') : Acyclic s'.m_LUT := by
  have hflat := SynthetizeOn_flat h
  apply acyclic_of_rootOf
  intro x hx
  have hc : s'.m_LUT[x]? = some s'.m_LUT[x] := List.getElem?_eq_getElem hx
  obtain ⟨c, _, hcr⟩ := PointsToRoot.toRootOf ⟨_, hc, hflat _ _ hc⟩
  exact ⟨c, hcr⟩

theorem chain_counts :
    (∀ r : Nat, chainState.m_LUT[r]? = some r →
      chainState.m_LabelPopulation[r]? = some (classCount chainImage chainState.m_LUT r)) ∧
    (∀ x c : Nat, chainState.m_LUT[x]? = some c → c ≠ x →
      chainState.m_LabelPopulation[x]? = some 0) := by
  constructor
  · intro r hr
    have hrl : r < 4 := (List.getElem?_eq_some_iff.1 hr).1
    interval_cases r <;> decide
  · intro x c hx hne
    have hxl : x < 4 := (List.getElem?_eq_some_iff.1 hx).1
    interval_cases x <;> cases hx <;> exact absurd rfl hne

/-! ## The population-weighted sum of the means -/

theorem sum_two_changed (N c l : Nat) (f f' : Nat → ℚ) (hc : c < N) (hl : l < N)
    (hne : c ≠ l) (hrest : ∀ x, x ≠ c → x ≠ l → f' x = f x)
    (hpair : f' c + f' l = f c + f l) :
    ∑ x ∈ Finset.range N, f' x = ∑ x ∈ Finset.range N, f x := by
  have hcm : c ∈ Finset.range N := Finset.mem_range.2 hc
  have hlm : l ∈ (Finset.range N).erase c :=
    Finset.mem_erase.2 ⟨hne.symm, Finset.mem_range.2 hl⟩
  rw [← Finset.add_sum_erase _ f' hcm, ← Finset.add_sum_erase _ f' hlm,
    ← Finset.add_sum_erase _ f hcm, ← Finset.add_sum_erase _ f hlm]
  have hsum : ∑ x ∈ ((Finset.range N).erase c).erase l, f' x =
      ∑ x ∈ ((Finset.range N).erase c).erase l, f x := by
    apply Finset.sum_congr rfl
    intro x hx
    have h1 := Finset.mem_erase.1 hx
    have h2 := Finset.mem_erase.1 h1.2
    exact hrest x h2.1 h1.1
  rw [hsum]
  linarith

theorem weighted_mean_getD (sc sl : List ℚ) (pc pl : Nat) (d i : Nat) (hsc : sc.length = d)
    (hsl : sl.length = d) (hpl : pl ≠ 0) :
    ((pc : ℚ) + (pl : ℚ)) *
        (vdiv (vadd (vscale sc pc) (vscale sl pl)) ((pl : ℚ) + (pc : ℚ))).getD i 0 =
      (pc : ℚ) * sc.getD i 0 + (pl : ℚ) * sl.getD i 0 := by
  have hpos : ((pl : ℚ) + (pc : ℚ)) ≠ 0 := by
    have h1 : (0 : ℚ) < (pl : ℚ) := by exact_mod_cast Nat.pos_of_ne_zero hpl
    have h2 : (0 : ℚ) ≤ (pc : ℚ) := by exact_mod_cast Nat.zero_le pc
    linarith
  simp only [List.getD_eq_getElem?_getD]
  by_cases hi : i < d
  · have ha : sc[i]? = some sc[i] := List.getElem?_eq_getElem (by omega)
    have hb : sl[i]? = some sl[i] := List.getElem?_eq_getElem (by omega)
    have hm := weighted_mean_component sc sl pc pl i _ _ ha hb
    rw [add_comm (pc : ℚ) (pl : ℚ)] at hm ⊢
    rw [hm, ha, hb]
    simp only [Option.getD_some]
    field_simp
    ring
  · have ha : sc[i]? = none := List.getElem?_eq_none (by omega)
    have hb : sl[i]? = none := List.getElem?_eq_none (by omega)
    have hm : (vdiv (vadd (vscale sc pc) (vscale sl pl)) ((pl : ℚ) + (pc : ℚ)))[i]? = none := by
      apply List.getElem?_eq_none
      simp [vdiv, vadd, vscale]
      omega
    rw [hm, ha, hb]
    simp

theorem statStep_weighted {s s' : State} {label d : Nat} (h : statStep s label = some s')
    (hd : UniformDim s.m_LabelStatistic d) (i : Nat) : weightedSum s' i = weightedSum s i := by
  obtain ⟨c, pl, hc, hpl, hcase⟩ := statStep_cases h
  rcases hcase with ⟨_, rfl⟩ | ⟨hpl0, hne, sc, pc, sl, hsc, hpc, hsl, rfl⟩
  · rfl
  · have hcl : c < s.m_LabelPopulation.length := (List.getElem?_eq_some_iff.1 hpc).1
    have hll : label < s.m_LabelPopulation.length := (List.getElem?_eq_some_iff.1 hpl).1
    have hcs : c < s.m_LabelStatistic.length := (List.getElem?_eq_some_iff.1 hsc).1
    have hscd : sc.length = d := hd sc (List.getElem?_mem hsc)
    have hsld : sl.length = d := hd sl (List.getElem?_mem hsl)
    unfold weightedSum
    simp only [List.length_set]
    apply sum_two_changed _ c label _ _ hcl hll hne
    · intro x hxc hxl
      rw [List.getElem?_set_ne (fun h => hxl h.symm), List.getElem?_set_ne (fun h => hxc h.symm),
        List.getElem?_set_ne (fun h => hxc h.symm)]
    · have e1 : ((s.m_LabelPopulation.set c (pc + pl)).set label 0)[c]? = some (pc + pl) := by
        rw [List.getElem?_set_ne (fun h => hne h.symm), List.getElem?_set_self hcl]
      have e2 : ((s.m_LabelPopulation.set c (pc + pl)).set label 0)[label]? = some 0 :=
        List.getElem?_set_self (by simpa using hll)
      have e3 : ∀ m : List ℚ, (s.m_LabelStatistic.set c m)[c]? = some m :=
        fun m => List.getElem?_set_self hcs
      have e4 : ∀ m : List ℚ, (s.m_LabelStatistic.set c m)[label]? = some sl := by
        intro m
        rw [List.getElem?_set_ne hne, hsl]
      rw [e1, e2, e3, e4, hpc, hpl, hsc, hsl]
      simp only [Option.getD_some, Nat.cast_zero, zero_mul, add_zero, Nat.cast_add]
      exact weighted_mean_getD sc sl pc pl d i hscd hsld hpl0

theorem statFold_weighted {ls : List Nat} {d : Nat} : ∀ {s s' : State},
    ls.foldlM statStep s = some s' → UniformDim s.m_LabelStatistic d →
    ∀ i, weightedSum s' i = weightedSum s i := by
  induction ls with
  | nil =>
    intro s s' h _ i
    simp only [List.foldlM_nil, Option.pure_def, Option.some.injEq] at h
    subst h
    rfl
  | cons l ls ih =>
    intro s s' h hd i
    rw [List.foldlM_cons] at h
    simp only [Option.bind_eq_bind, Option.bind_eq_some] at h
    obtain ⟨s1, h1, h2⟩ := h
    rw [ih h2 (statStep_dim h1 hd) i, statStep_weighted h1 hd i]

theorem chain_dim : UniformDim chainState.m_LabelStatistic 1 := by
  intro v hv
  simp only [chainState, List.mem_cons, List.mem_singleton, List.not_mem_nil, or_false] at hv
  rcases hv with rfl | rfl | rfl | rfl <;> rfl

/-! ## The divisor of the statistics loop; reads outside the tables -/

theorem statStepChecked_eq (s : State) (label : Nat) :
    statStepChecked s label = statStep s label := by
  unfold statStepChecked statStep
  cases hc : s.m_LUT[label]? with
  | none => rfl
  | some c =>
    cases hpl : s.m_LabelPopulation[label]? with
    | none => rfl
    | some pl =>
      simp only [Option.bind_eq_bind, Option.some_bind]
      split
      · rename_i hcond
        cases hsc : s.m_LabelStatistic[c]? with
        | none => rfl
        | some sc =>
          cases hpc : s.m_LabelPopulation[c]? with
          | none => rfl
          | some pc =>
            cases hsl : s.m_LabelStatistic[label]? with
            | none => rfl
            | some sl =>
              have hpos : ((pl : ℚ) + (pc : ℚ)) ≠ 0 := by
                have h1 : (0 : ℚ) < (pl : ℚ) := by exact_mod_cast Nat.pos_of_ne_zero hcond.1
                have h2 : (0 : ℚ) ≤ (pc : ℚ) := by exact_mod_cast Nat.zero_le pc
                linarith
              simp only [Option.some_bind, vdivChecked, if_neg hpos]
      · rfl

/-- C1 (canonical minimality of the union step): in a table in which every parent chain
reaches a root, after the union step of `Synthetize` on the pair `(a, b)` both
`FindCorrespondingLabel(a)` and `FindCorrespondingLabel(b)` return the smaller of the two
roots that `a` and `b` had before the step. -/
theorem union_canonical_minimality (lut : List Nat) (a b : Nat) (hac : Acyclic lut)
    (ha : a < lut.length) (hb : b < lut.length) :
    ∃ ra rb lut', FindCorrespondingLabel lut a = some ra ∧
      FindCorrespondingLabel lut b = some rb ∧ unionStep lut a b = some lut' ∧
      FindCorrespondingLabel lut' a = some (min ra rb) ∧
      FindCorrespondingLabel lut' b = some (min ra rb) := by
  obtain ⟨ra, hra⟩ := hac.hasRoot ha
  obtain ⟨rb, hrb⟩ := hac.hasRoot hb
  refine ⟨ra, rb, _, rootOf_iff_find.1 hra, rootOf_iff_find.1 hrb, unionStep_eq hra hrb, ?_, ?_⟩
  · have := unionStep_rootOf hra hrb (unionStep_eq hra hrb) hra
    rw [if_pos (Or.inl rfl)] at this
    exact rootOf_iff_find.1 this
  · have := unionStep_rootOf hra hrb (unionStep_eq hra hrb) hrb
    rw [if_pos (Or.inr rfl)] at this
    exact rootOf_iff_find.1 this

theorem union_canonical_minimality_witness :
    Acyclic [0, 1, 1, 0, 3] ∧ 2 < [0, 1, 1, 0, 3].length ∧ 4 < [0, 1, 1, 0, 3].length ∧
      ∃ ra rb lut', FindCorrespondingLabel [0, 1, 1, 0, 3] 2 = some ra ∧
        FindCorrespondingLabel [0, 1, 1, 0, 3] 4 = some rb ∧
        unionStep [0, 1, 1, 0, 3] 2 4 = some lut' ∧
        FindCorrespondingLabel lut' 2 = some (min ra rb) ∧
        FindCorrespondingLabel lut' 4 = some (min ra rb) :=
  ⟨acyclic_of_walks (by decide), by decide, by decide,
    union_canonical_minimality [0, 1, 1, 0, 3] 2 4 (acyclic_of_walks (by decide))
      (by decide) (by decide)⟩

/-- C2 (conservation of mass): whenever `Synthetize` returns on a state and a global
adjacency map, the sum of `m_LabelPopulation` over all labels is the same after as before;
and it does return on every consistent state and map. -/
theorem population_sum_conserved (s : State) (neighboursMap : NeighboursMap) :
    (∀ s', SynthetizeOn s neighboursMap = some s' →
      s'.m_LabelPopulation.sum = s.m_LabelPopulation.sum) ∧
    (WellFormed s neighboursMap → ∃ s', SynthetizeOn s neighboursMap = some s') := by
  refine ⟨?_, SynthetizeOn_total⟩
  intro s' h
  obtain ⟨lut1, lut2, _, _, h3⟩ := SynthetizeOn_some h
  exact (statFold_frame h3).2.2.2

theorem population_sum_conserved_witness :
    WellFormed demoState demoMap ∧ ∃ s', SynthetizeOn demoState demoMap = some s' ∧
      s'.m_LabelPopulation.sum = demoState.m_LabelPopulation.sum := by
  obtain ⟨s', h⟩ := (population_sum_conserved demoState demoMap).2 demo_wellFormed
  exact ⟨demo_wellFormed, s', h, (population_sum_conserved demoState demoMap).1 s' h⟩

/-- C3 (flatten): for every table in which every parent chain reaches a root, the flatten
loop of `Synthetize` returns a table of the same size in which the entry of every label `x`
is the label `r` that `FindCorrespondingLabel(x)` returned before the loop; that entry is
its own parent (`m_LUT[m_LUT[x]] = m_LUT[x]`), and `FindCorrespondingLabel(x)` returns the
same `r` on the flattened table. -/
theorem flatten_points_to_root (lut : List Nat) (hac : Acyclic lut) :
    ∃ lut', flattenLoop lut = some lut' ∧ lut'.length = lut.length ∧
      ∀ x, x < lut.length → ∃ r, FindCorrespondingLabel lut x = some r ∧
        lut'[x]? = some r ∧ lut'[r]? = some r ∧ FindCorrespondingLabel lut' x = some r := by
  obtain ⟨lut', h⟩ := flattenLoop_total hac
  obtain ⟨hlen, hroots, hpts⟩ := flattenLoop_spec h
  refine ⟨lut', h, hlen, ?_⟩
  intro x hx
  obtain ⟨r, hr⟩ := hac.hasRoot hx
  have hr' := hroots x r hr
  obtain ⟨s, hs1, hs2⟩ := (hpts x hx).toRootOf
  have hsr : s = r := hs2.unique hr'
  subst hsr
  exact ⟨s, rootOf_iff_find.1 hr, hs1, hs2.root_fixed, rootOf_iff_find.1 hr'⟩

theorem flatten_points_to_root_witness :
    Acyclic [0, 0, 1, 2, 4, 3] ∧
      ∃ lut', flattenLoop [0, 0, 1, 2, 4, 3] = some lut' ∧
        lut'.length = [0, 0, 1, 2, 4, 3].length ∧
        ∀ x, x < [0, 0, 1, 2, 4, 3].length → ∃ r,
          FindCorrespondingLabel [0, 0, 1, 2, 4, 3] x = some r ∧
          lut'[x]? = some r ∧ lut'[r]? = some r ∧ FindCorrespondingLabel lut' x = some r :=
  ⟨acyclic_of_walks (by decide),
    flatten_points_to_root [0, 0, 1, 2, 4, 3] (acyclic_of_walks (by decide))⟩

/-- C4 (idempotence of Find after Flatten): for every label `x` of a table produced by the
flatten loop of `Synthetize`, `FindCorrespondingLabel(x)` returns a label `r`, and
`FindCorrespondingLabel(r)` returns `r` again. -/
theorem find_idempotent_after_flatten (lut lut' : List Nat) (x : Nat)
    (hflat : flattenLoop lut = some lut') (hx : x < lut'.length) :
    ∃ r, FindCorrespondingLabel lut' x = some r ∧ FindCorrespondingLabel lut' r = some r := by
  obtain ⟨hlen, _, hpts⟩ := flattenLoop_spec hflat
  obtain ⟨s, _, hs⟩ := (hpts x (hlen ▸ hx)).toRootOf
  exact ⟨s, rootOf_iff_find.1 hs, rootOf_iff_find.1 hs.of_root⟩

theorem find_idempotent_after_flatten_witness :
    flattenLoop [0, 0, 1, 2, 4, 3] = some [0, 0, 0, 0, 4, 0] ∧
      3 < [0, 0, 0, 0, 4, 0].length ∧
      ∃ r, FindCorrespondingLabel [0, 0, 0, 0, 4, 0] 3 = some r ∧
        FindCorrespondingLabel [0, 0, 0, 0, 4, 0] r = some r :=
  ⟨by decide, by decide,
    find_idempotent_after_flatten [0, 0, 1, 2, 4, 3] [0, 0, 0, 0, 4, 0] 3 (by decide)
      (by decide)⟩

/-- C5 (one iteration of the statistics loop): for a label `absorbed` with non-zero
population `pf` whose entry `into = m_LUT[absorbed]` differs from it, the iteration stores in
`m_LabelStatistic[into]` the vector `(mean(into) * pop(into) + mean(absorbed) * pop(absorbed))
/ (pop(into) + pop(absorbed))` of the values before the iteration (componentwise
`(a * pi + b * pf) / (pi + pf)`), stores `pop(into) + pop(absorbed)` in
`m_LabelPopulation[into]` and `0` in `m_LabelPopulation[absorbed]`, and leaves `m_LUT` as it
was. -/
theorem stat_merge_step (s : State) (absorbed into pf pi : Nat) (mf mi : List ℚ)
    (hlut : s.m_LUT[absorbed]? = some into) (hne : into ≠ absorbed)
    (hpf : s.m_LabelPopulation[absorbed]? = some pf) (hpf0 : pf ≠ 0)
    (hpi : s.m_LabelPopulation[into]? = some pi)
    (hmi : s.m_LabelStatistic[into]? = some mi)
    (hmf : s.m_LabelStatistic[absorbed]? = some mf) :
    ∃ s', statStep s absorbed = some s' ∧
      s'.m_LabelStatistic[into]? =
        some (vdiv (vadd (vscale mi pi) (vscale mf pf)) ((pi : ℚ) + (pf : ℚ))) ∧
      (∀ (i : Nat) (a b : ℚ), mi[i]? = some a → mf[i]? = some b →
        ∃ m', s'.m_LabelStatistic[into]? = some m' ∧
          m'[i]? = some ((a * pi + b * pf) / ((pi : ℚ) + (pf : ℚ)))) ∧
      s'.m_LabelPopulation[into]? = some (pi + pf) ∧
      s'.m_LabelPopulation[absorbed]? = some 0 ∧
      s'.m_LUT = s.m_LUT := by
  have h1 : into < s.m_LabelStatistic.length := (List.getElem?_eq_some_iff.1 hmi).1
  have h2 : into < s.m_LabelPopulation.length := (List.getElem?_eq_some_iff.1 hpi).1
  have h3 : absorbed < s.m_LabelPopulation.length := (List.getElem?_eq_some_iff.1 hpf).1
  have hstat : (s.m_LabelStatistic.set into
      (vdiv (vadd (vscale mi pi) (vscale mf pf)) ((pf : ℚ) + (pi : ℚ))))[into]? =
      some (vdiv (vadd (vscale mi pi) (vscale mf pf)) ((pi : ℚ) + (pf : ℚ))) := by
    rw [List.getElem?_set_self h1, add_comm]
  refine ⟨_, statStep_merge hlut hpf hpf0 hne hmi hpi hmf, hstat, ?_, ?_, ?_, rfl⟩
  · intro i a b ha hb
    exact ⟨_, hstat, weighted_mean_component mi mf pi pf i a b ha hb⟩
  · show ((s.m_LabelPopulation.set into (pi + pf)).set absorbed 0)[into]? = some (pi + pf)
    rw [List.getElem?_set_ne (Ne.symm hne), List.getElem?_set_self h2]
  · show ((s.m_LabelPopulation.set into (pi + pf)).set absorbed 0)[absorbed]? = some 0
    rw [List.getElem?_set_self (by rw [List.length_set]; exact h3)]

theorem stat_merge_step_witness :
    demoPair.m_LUT[1]? = some 0 ∧ demoPair.m_LabelPopulation[1]? = some 1 ∧
      demoPair.m_LabelPopulation[0]? = some 3 ∧ demoPair.m_LabelStatistic[0]? = some [2] ∧
      demoPair.m_LabelStatistic[1]? = some [6] ∧
      ∃ s', statStep demoPair 1 = some s' ∧
        s'.m_LabelStatistic[0]? =
          some (vdiv (vadd (vscale [2] ((3 : Nat) : ℚ)) (vscale [6] ((1 : Nat) : ℚ)))
            (((3 : Nat) : ℚ) + ((1 : Nat) : ℚ))) ∧
        (∀ (i : Nat) (a b : ℚ), ([2] : List ℚ)[i]? = some a → ([6] : List ℚ)[i]? = some b →
          ∃ m', s'.m_LabelStatistic[0]? = some m' ∧
            m'[i]? = some ((a * ((3 : Nat) : ℚ) + b * ((1 : Nat) : ℚ)) /
              (((3 : Nat) : ℚ) + ((1 : Nat) : ℚ)))) ∧
        s'.m_LabelPopulation[0]? = some (3 + 1) ∧
        s'.m_LabelPopulation[1]? = some 0 ∧
        s'.m_LUT = demoPair.m_LUT :=
  ⟨rfl, rfl, rfl, rfl, rfl,
    stat_merge_step demoPair 1 0 1 3 [6] [2] rfl (by decide) rfl (by decide) rfl rfl rfl⟩

/-- C6 (every label's mass is folded into its root exactly once): whenever `Synthetize`
returns, every root `r` of the resulting table holds in `m_LabelPopulation[r]` the sum of
the populations before the pass of all labels `x` whose entry after the pass is `r`, each
label counted once; this holds for every state on which the pass returns, in particular
when the table was flattened before the pass and the unions of the pass built chains of
several hops. The pass returns on every consistent state and map. -/
theorem root_population_is_class_sum (s : State) (neighboursMap : NeighboursMap) :
    (∀ s', SynthetizeOn s neighboursMap = some s' → ∀ r : Nat, s'.m_LUT[r]? = some r →
      s'.m_LabelPopulation[r]? =
        some (∑ x ∈ (Finset.range s'.m_LUT.length).filter (fun x => s'.m_LUT[x]? = some r),
          (s.m_LabelPopulation[x]?).getD 0)) ∧
    (WellFormed s neighboursMap → ∃ s', SynthetizeOn s neighboursMap = some s') := by
  refine ⟨?_, SynthetizeOn_total⟩
  intro s' h r hr
  exact SynthetizeOn_population h hr

theorem root_population_is_class_sum_witness :
    WellFormed demoState demoMap ∧ ∃ s', SynthetizeOn demoState demoMap = some s' ∧
      ∀ r : Nat, s'.m_LUT[r]? = some r → s'.m_LabelPopulation[r]? =
        some (∑ x ∈ (Finset.range s'.m_LUT.length).filter (fun x => s'.m_LUT[x]? = some r),
          (demoState.m_LabelPopulation[x]?).getD 0) := by
  obtain ⟨s', h⟩ := (root_population_is_class_sum demoState demoMap).2 demo_wellFormed
  exact ⟨demo_wellFormed, s', h, (root_population_is_class_sum demoState demoMap).1 s' h⟩

/-- C8 (the scan): starting from an empty thread map, whenever `ThreadedGenerateData` with
threshold `t` returns on a region of pixels of the raster, label `M` is in the set stored
under key `L` exactly when some pixel `p` of the region has `FindCorrespondingLabel(raw(p))
= L`, `m_LabelPopulation[L] = t`, and one of the in-raster north, south, east or west
neighbours `q` of `p` has `FindCorrespondingLabel(raw(q)) = M` with `M != L`; a neighbour in
the sense used here shares a row or a column with `p`, so diagonal pixels never contribute;
no set contains its own key. The scan returns whenever every parent chain reaches a root,
every population is present and the labels of the raster are labels of the table. -/
theorem scan_records_adjacency (s : State) (t : Nat) (img : LabelImage) (region : List Pixel)
    (hregion : ∀ p ∈ region, img.inside p) :
    (∀ m, ThreadedGenerateData s t img region [] = some m →
      (∀ L M, M ∈ (lookupSet m L).getD [] ↔
        ∃ p ∈ region, FindCorrespondingLabel s.m_LUT (img.raw p.1 p.2) = some L ∧
          s.m_LabelPopulation[L]? = some t ∧
          ∃ q, Adjacent4 img p q ∧
            FindCorrespondingLabel s.m_LUT (img.raw q.1 q.2) = some M ∧ M ≠ L) ∧
      (∀ L, L ∉ (lookupSet m L).getD [])) ∧
    (∀ p q, Adjacent4 img p q → q.1 = p.1 ∨ q.2 = p.2) ∧
    (Acyclic s.m_LUT → s.m_LabelPopulation.length = s.m_LUT.length → ValidImage s img →
      ∃ m, ThreadedGenerateData s t img region [] = some m) := by
  have main : ∀ m, ThreadedGenerateData s t img region [] = some m →
      ∀ L M, M ∈ (lookupSet m L).getD [] ↔
        ∃ p ∈ region, FindCorrespondingLabel s.m_LUT (img.raw p.1 p.2) = some L ∧
          s.m_LabelPopulation[L]? = some t ∧
          ∃ q, Adjacent4 img p q ∧
            FindCorrespondingLabel s.m_LUT (img.raw q.1 q.2) = some M ∧ M ≠ L := by
    intro m hm L M
    rw [(scanFold_spec region [] m hregion hm).1 L M]
    simp only [lookupSet, Option.getD_none, List.not_mem_nil, false_or, Touches]
    constructor
    · rintro ⟨p, hp, h1, h2, h3⟩; exact ⟨p, hp, h2, h1, h3⟩
    · rintro ⟨p, hp, h1, h2, h3⟩; exact ⟨p, hp, h2, h1, h3⟩
  refine ⟨fun m hm => ⟨main m hm, ?_⟩, ?_, ?_⟩
  · intro L hL
    obtain ⟨p, _, _, _, q, _, _, hne⟩ := (main m hm L L).1 hL
    exact hne rfl
  · rintro p q ⟨_, h | h⟩
    · exact Or.inl h.1
    · exact Or.inr h.1
  · intro hac hpop himg
    exact scanFold_total hac hpop himg region [] hregion

theorem scan_records_adjacency_witness :
    (∀ p ∈ demoRegion, demoImage.inside p) ∧
      ThreadedGenerateData demoState 1 demoImage demoRegion [] =
        some [(1, [0, 3]), (2, [0, 3])] ∧
      ∀ L M, M ∈ (lookupSet [(1, [0, 3]), (2, [0, 3])] L).getD [] ↔
        ∃ p ∈ demoRegion,
          FindCorrespondingLabel demoState.m_LUT (demoImage.raw p.1 p.2) = some L ∧
          demoState.m_LabelPopulation[L]? = some 1 ∧
          ∃ q, Adjacent4 demoImage p q ∧
            FindCorrespondingLabel demoState.m_LUT (demoImage.raw q.1 q.2) = some M ∧ M ≠ L :=
  ⟨by decide, by decide,
    ((scan_records_adjacency demoState 1 demoImage demoRegion (by decide)).1
      [(1, [0, 3]), (2, [0, 3])] (by decide)).1⟩

/-- C9 (reduce): the global map built at the start of `Synthetize` from the thread maps has
a key `L` exactly when some thread map has an entry with key `L`; a label `M` is in its set
under `L` exactly when `M` is in a set stored under `L` by some thread; and the global map
has one entry per key. -/
theorem reduce_is_union_per_key (m_NeighboursMapsTmp : List NeighboursMap) (L : Nat) :
    ((lookupSet (reduceMaps m_NeighboursMapsTmp) L).isSome = true ↔
      ∃ t ∈ m_NeighboursMapsTmp, ∃ set, (L, set) ∈ t) ∧
    (∀ M, M ∈ (lookupSet (reduceMaps m_NeighboursMapsTmp) L).getD [] ↔
      ∃ t ∈ m_NeighboursMapsTmp, ∃ set, (L, set) ∈ t ∧ M ∈ set) ∧
    (∀ set, (L, set) ∈ reduceMaps m_NeighboursMapsTmp ↔
      lookupSet (reduceMaps m_NeighboursMapsTmp) L = some set) := by
  obtain ⟨h1, h2⟩ := reduce_fold_spec m_NeighboursMapsTmp [] L
  refine ⟨?_, ?_, fun set => mem_iff_lookupSet (reduceMaps_uniqueKeys _)⟩
  · unfold reduceMaps
    rw [h1]
    simp [lookupSet]
  · intro M
    unfold reduceMaps
    rw [h2]
    simp [lookupSet]

/-- C12 (no pass for `m_MinSize <= 1`): for `m_MinSize = 0` or `1` the loop of
`GenerateData` runs no merge pass and `GenerateData` returns the state it was given, so the
look-up table, the populations and the statistics are unchanged; every label is mapped by
`FindCorrespondingLabel` as before the call, and with the identity table every pixel keeps
its input label. -/
theorem no_pass_below_two (keyOrder : NeighboursMap → NeighboursMap) (img : LabelImage)
    (regions : List (List Pixel)) (m_MinSize : Nat) (s : State) (hm : m_MinSize ≤ 1) :
    driverLoop (Update keyOrder img regions) m_MinSize 1 s = some (s, []) ∧
      GenerateData keyOrder img regions m_MinSize s = some s ∧
      (s.m_LUT = List.range s.m_LUT.length → ∀ p : Pixel,
        img.raw p.1 p.2 < s.m_LUT.length →
        FindCorrespondingLabel s.m_LUT (img.raw p.1 p.2) = some (img.raw p.1 p.2)) := by
  refine ⟨?_, ?_, ?_⟩
  · rw [driverLoop, if_neg (by omega)]
  · unfold GenerateData
    have : m_MinSize - 1 = 0 := by omega
    rw [this]
    rfl
  · intro hid p hp
    apply rootOf_iff_find.1
    rw [hid]
    rw [hid, List.length_range] at hp
    exact rootOf_range hp

theorem no_pass_below_two_witness :
    1 ≤ 1 ∧ driverLoop (Update id pairImage pairRegions) 1 1 nearPair = some (nearPair, []) ∧
      GenerateData id pairImage pairRegions 1 nearPair = some nearPair ∧
      FindCorrespondingLabel nearPair.m_LUT (pairImage.raw 1 0) = some (pairImage.raw 1 0) := by
  obtain ⟨a, b, c⟩ := no_pass_below_two id pairImage pairRegions 1 nearPair (le_refl 1)
  exact ⟨le_refl 1, a, b, c rfl (1, 0) (by decide)⟩

/-- C14 (two adjacent single-pixel regions of equal mean): from the identity table, for two
labels `a < b` of population `1` with equal feature means that are each other's only
neighbour, one pass of `Synthetize` on the global map with the two keys, visited in either
order, returns a state in which `FindCorrespondingLabel(a) = FindCorrespondingLabel(b) = a`,
the population of `a` is `2` and the population of `b` is `0`. -/
theorem equal_pair_merges_into_smaller (s : State) (a b : Nat) (m : List ℚ)
    (neighboursMap : NeighboursMap) (hab : a < b) (hbn : b < s.m_LUT.length)
    (hlut : s.m_LUT = List.range s.m_LUT.length)
    (hpop : s.m_LabelPopulation.length = s.m_LUT.length)
    (hstat : s.m_LabelStatistic.length = s.m_LUT.length)
    (hpa : s.m_LabelPopulation[a]? = some 1) (hpb : s.m_LabelPopulation[b]? = some 1)
    (hsa : s.m_LabelStatistic[a]? = some m) (hsb : s.m_LabelStatistic[b]? = some m)
    (hnm : neighboursMap = [(a, [b]), (b, [a])] ∨ neighboursMap = [(b, [a]), (a, [b])]) :
    ∃ s', SynthetizeOn s neighboursMap = some s' ∧
      FindCorrespondingLabel s'.m_LUT a = some a ∧
      FindCorrespondingLabel s'.m_LUT b = some a ∧
      s'.m_LabelPopulation[a]? = some 2 ∧ s'.m_LabelPopulation[b]? = some 0 := by
  have han : a < s.m_LUT.length := Nat.lt_trans hab hbn
  have hne : a ≠ b := Nat.ne_of_lt hab
  have hres : neighboursMap.foldlM (resolveStep s.m_LabelStatistic) s.m_LUT =
      some ((List.range s.m_LUT.length).set b a) := by
    have := @resolve_pair s.m_LabelStatistic s.m_LUT.length a b m hab hbn hsa hsb
      neighboursMap hnm
    rw [← hlut] at this
    rw [this, ← hlut]
  have hflat := flat_range_set hab hbn
  have hent := flat_entries hflat
  have hlen : ((List.range s.m_LUT.length).set b a).length = s.m_LUT.length := by
    rw [List.length_set, List.length_range]
  obtain ⟨s', hs'⟩ := @statFold_total
    (List.range ((List.range s.m_LUT.length).set b a).length)
    { s with m_LUT := (List.range s.m_LUT.length).set b a }
    (fun x c hx => (List.getElem?_eq_some_iff.1 (hent x c hx)).1)
    (hpop.trans hlen.symm) (hstat.trans hlen.symm) (fun l hl => List.mem_range.1 hl)
  have hsyn : SynthetizeOn s neighboursMap = some s' := by
    unfold SynthetizeOn
    rw [hres]
    simp only [Option.bind_eq_bind, Option.some_bind, flattenLoop_flat hflat]
    exact hs'
  have hlut' : s'.m_LUT = (List.range s.m_LUT.length).set b a := (statFold_frame hs').1
  have hla : s'.m_LUT[a]? = some a := by
    rw [hlut', List.getElem?_set_ne (Ne.symm hne)]
    exact List.getElem?_range han
  have hlb : s'.m_LUT[b]? = some a := by
    rw [hlut']
    exact List.getElem?_set_self (by rw [List.length_range]; exact hbn)
  have hra : RootOf s'.m_LUT a a := RootOf.self hla
  have hrb : RootOf s'.m_LUT b a := RootOf.step hlb hne hra
  refine ⟨s', hsyn, rootOf_iff_find.1 hra, rootOf_iff_find.1 hrb, ?_, ?_⟩
  · rw [SynthetizeOn_population hsyn hla]
    have hfilter : (Finset.range s'.m_LUT.length).filter (fun x => s'.m_LUT[x]? = some a) =
        {a, b} := by
      ext x
      simp only [Finset.mem_filter, Finset.mem_range, Finset.mem_insert, Finset.mem_singleton]
      constructor
      · rintro ⟨hx, hxa⟩
        by_cases hxb : x = b
        · exact Or.inr hxb
        · left
          rw [hlut', List.getElem?_set_ne (Ne.symm hxb), List.getElem?_range (by
            rw [hlut', hlen] at hx; exact hx)] at hxa
          exact Option.some.inj hxa
      · rintro (rfl | rfl)
        · exact ⟨by rw [hlut', hlen]; exact han, hla⟩
        · exact ⟨by rw [hlut', hlen]; exact hbn, hlb⟩
    rw [hfilter, Finset.sum_pair hne, hpa, hpb]
    rfl
  · exact statLoop_nonroot_zero hent hs' (by
      show ((List.range s.m_LUT.length).set b a)[b]? = some a
      exact List.getElem?_set_self (by rw [List.length_range]; exact hbn)) hne

theorem equal_pair_merges_into_smaller_witness :
    (1 : Nat) < 2 ∧ 2 < twinState.m_LUT.length ∧
      twinState.m_LUT = List.range twinState.m_LUT.length ∧
      twinState.m_LabelStatistic[1]? = some [3] ∧ twinState.m_LabelStatistic[2]? = some [3] ∧
      ∃ s', SynthetizeOn twinState [(2, [1]), (1, [2])] = some s' ∧
        FindCorrespondingLabel s'.m_LUT 1 = some 1 ∧
        FindCorrespondingLabel s'.m_LUT 2 = some 1 ∧
        s'.m_LabelPopulation[1]? = some 2 ∧ s'.m_LabelPopulation[2]? = some 0 :=
  ⟨by decide, by decide, rfl, rfl, rfl,
    equal_pair_merges_into_smaller twinState 1 2 [3] [(2, [1]), (1, [2])] (by decide)
      (by decide) rfl rfl rfl rfl rfl rfl rfl (Or.inr rfl)⟩

/-- C15 (isolated pixel): let the table be the identity and let `p` be a pixel of the
raster whose label has population `1` and none of whose four neighbours lies inside the
raster. Then the scan of any region records no entry for the label of `p` at any threshold,
and `GenerateData` returns, for every `m_MinSize`, the state it was given: after all passes
the label of `p` is still its own root and its population is still `1`. -/
theorem isolated_pixel_never_merges (keyOrder : NeighboursMap → NeighboursMap)
    (img : LabelImage) (regions : List (List Pixel)) (m_MinSize : Nat) (s : State) (p : Pixel)
    (hperm : ∀ m, (keyOrder m).Perm m) (hcov : Covers img regions)
    (hlut : s.m_LUT = List.range s.m_LUT.length)
    (hpop : s.m_LabelPopulation.length = s.m_LUT.length)
    (hvalid : ValidImage s img) (hp : img.inside p) (hiso : ∀ q, ¬ Adjacent4 img p q)
    (hone : s.m_LabelPopulation[img.raw p.1 p.2]? = some 1) :
    (∀ t region m, (∀ p' ∈ region, img.inside p') →
      ThreadedGenerateData s t img region [] = some m →
      lookupSet m (img.raw p.1 p.2) = none) ∧
    GenerateData keyOrder img regions m_MinSize s = some s ∧
    FindCorrespondingLabel s.m_LUT (img.raw p.1 p.2) = some (img.raw p.1 p.2) ∧
    s.m_LabelPopulation[img.raw p.1 p.2]? = some 1 := by
  have hnone := no_neighbour_anywhere hp hiso
  have hno : ∀ p' L M, img.inside p' → ¬ Touches s img p' L M := by
    rintro p' L M hp' ⟨_, q, hadj, _⟩
    exact hnone p' q hp' hadj
  have hflat : Flat s.m_LUT := by rw [hlut]; exact flat_range _
  have hzero : ∀ x c : Nat, s.m_LUT[x]? = some c → c ≠ x →
      s.m_LabelPopulation[x]? = some 0 := by
    intro x c hx hne
    have hxl : x < s.m_LUT.length := (List.getElem?_eq_some_iff.1 hx).1
    have hxx : s.m_LUT[x]? = some x := by
      rw [hlut]
      exact List.getElem?_range hxl
    rw [hxx] at hx
    exact absurd (Option.some.inj hx).symm hne
  refine ⟨?_, ?_, ?_, hone⟩
  · intro t region m hregion hm
    have hkey := (scanFold_spec region [] m hregion hm).2.1 (img.raw p.1 p.2)
    cases hl : lookupSet m (img.raw p.1 p.2) with
    | none => rfl
    | some set =>
      rw [hl] at hkey
      rcases hkey.1 rfl with h | ⟨p', hp', _, M, hT⟩
      · simp [lookupSet] at h
      · exact absurd hT (hno p' _ M (hregion p' hp'))
  · unfold GenerateData
    exact foldlM_fixed _ s _ (fun t _ =>
      update_noTouch t hperm hcov hflat hpop hzero hvalid hno)
  · apply rootOf_iff_find.1
    have hv := hvalid p hp
    rw [hlut] at hv ⊢
    rw [List.length_range] at hv
    exact rootOf_range hv

theorem isolated_pixel_never_merges_witness :
    Covers dotImage [[(0, 0)]] ∧ dotImage.inside (0, 0) ∧
      (∀ q, ¬ Adjacent4 dotImage (0, 0) q) ∧
      (∀ t region m, (∀ p' ∈ region, dotImage.inside p') →
        ThreadedGenerateData dotState t dotImage region [] = some m →
        lookupSet m (dotImage.raw 0 0) = none) ∧
      GenerateData id dotImage [[(0, 0)]] 3 dotState = some dotState ∧
      FindCorrespondingLabel dotState.m_LUT (dotImage.raw 0 0) = some (dotImage.raw 0 0) ∧
      dotState.m_LabelPopulation[dotImage.raw 0 0]? = some 1 := by
  have hpix : ∀ p : Pixel, dotImage.inside p → p = (0, 0) := by
    rintro ⟨x, y⟩ ⟨hx, hy⟩
    simp only [dotImage] at hx hy
    have hx0 : x = 0 := by omega
    have hy0 : y = 0 := by omega
    rw [hx0, hy0]
  have hcov : Covers dotImage [[(0, 0)]] := by
    constructor
    · decide
    · intro p hp
      rw [hpix p hp]
      exact ⟨_, List.mem_singleton.2 rfl, List.mem_singleton.2 rfl⟩
  have hiso : ∀ q, ¬ Adjacent4 dotImage (0, 0) q := by
    rintro ⟨qx, qy⟩ ⟨hq, hadj⟩
    have := hpix _ hq
    simp only [Prod.mk.injEq] at this
    obtain ⟨rfl, rfl⟩ := this
    simp at hadj
  have hvalid : ValidImage dotState dotImage := by
    intro p _
    show 0 < 1
    decide
  exact ⟨hcov, by decide, hiso,
    isolated_pixel_never_merges id dotImage [[(0, 0)]] 3 dotState (0, 0)
      (fun m => List.Perm.refl _) hcov rfl rfl hvalid (by decide) hiso rfl⟩

/-- C16 (empty neighbour set): for a key label of a table in which every parent chain
reaches a root, with an empty neighbour set, the selection loop keeps
`closestNeighbour = label`, and the resolve-and-union step returns the table it was given:
no entry of `m_LUT` changes and the step has a result. -/
theorem empty_set_key_unchanged (stat : List (List ℚ)) (lut : List Nat) (label : Nat)
    (hac : Acyclic lut) (hl : label < lut.length) :
    closestNeighbour stat label [] = some label ∧
      resolveStep stat lut (label, []) = some lut := by
  have hc : closestNeighbour stat label [] = some label := rfl
  refine ⟨hc, ?_⟩
  obtain ⟨r, hr⟩ := hac.hasRoot hl
  unfold resolveStep
  rw [hc]
  simp only [Option.bind_eq_bind, Option.some_bind]
  rw [unionStep_eq hr hr, if_neg (Nat.lt_irrefl r), if_pos rfl]

theorem empty_set_key_unchanged_witness :
    Acyclic [0, 0, 1] ∧ 2 < [0, 0, 1].length ∧
      closestNeighbour [[1], [2], [3]] 2 [] = some 2 ∧
      resolveStep [[1], [2], [3]] [0, 0, 1] (2, []) = some [0, 0, 1] :=
  ⟨acyclic_of_walks (by decide), by decide,
    empty_set_key_unchanged [[1], [2], [3]] [0, 0, 1] 2 (acyclic_of_walks (by decide))
      (by decide)⟩

/-- C17 (independence of the order of the keys): for every pre-pass state whose table
satisfies `m_LUT[x] <= x` (flattened or not) and every global map, visiting the entries of
the map in another order gives the same result of `Synthetize`: the same flattened
`m_LUT`, the same populations and, over exact rationals, the same means; and when one order
has no result, neither has the other. The same holds for any two iteration orders
`keyOrder` of the reduced map. -/
theorem synthetize_order_independent (s : State) (neighboursMap other : NeighboursMap)
    (hd : Descending s.m_LUT) (hperm : neighboursMap.Perm other) :
    SynthetizeOn s neighboursMap = SynthetizeOn s other ∧
      ∀ (keyOrder keyOrder' : NeighboursMap → NeighboursMap)
        (m_NeighboursMapsTmp : List NeighboursMap),
        (∀ m, (keyOrder m).Perm m) → (∀ m, (keyOrder' m).Perm m) →
        Synthetize keyOrder s m_NeighboursMapsTmp =
          Synthetize keyOrder' s m_NeighboursMapsTmp := by
  have key : ∀ nm nm' : NeighboursMap, nm.Perm nm' →
      SynthetizeOn s nm = SynthetizeOn s nm' := by
    intro nm nm' hp
    cases h : SynthetizeOn s nm with
    | some s' => exact (SynthetizeOn_perm hd hp h).symm
    | none =>
      cases h' : SynthetizeOn s nm' with
      | none => rfl
      | some s' =>
        rw [SynthetizeOn_perm hd hp.symm h'] at h
        cases h
  refine ⟨key _ _ hperm, ?_⟩
  intro keyOrder keyOrder' tmp hk hk'
  exact key _ _ ((hk _).trans (hk' _).symm)

theorem synthetize_order_independent_witness :
    Descending chainState.m_LUT ∧ chainMap.Perm chainMap.reverse ∧
      chainMap.foldlM (resolveStep chainState.m_LabelStatistic) chainState.m_LUT =
        some [0, 1, 1, 2] ∧
      chainMap.reverse.foldlM (resolveStep chainState.m_LabelStatistic) chainState.m_LUT =
        some [0, 1, 1, 1] ∧
      (∃ s', SynthetizeOn chainState chainMap = some s') ∧
      SynthetizeOn chainState chainMap = SynthetizeOn chainState chainMap.reverse :=
  ⟨descending_range 4, (List.reverse_perm _).symm, chain_resolve.1, chain_resolve.2,
    SynthetizeOn_total chain_wellFormed,
    (synthetize_order_independent chainState chainMap chainMap.reverse (descending_range 4)
      (List.reverse_perm _).symm).1⟩

/-- C18 (the partition into thread regions does not matter): for every label image, state
and threshold, for every list of thread regions that covers the raster, in any order, and
for every scan order of a single thread over the whole raster, whenever the scans return,
the global map obtained by reducing the thread maps in `Synthetize` holds under every key
the same set as the map of the single thread, and has the same entries up to the order of
iteration. The scans return whenever every parent chain reaches a root, every population is
present and the labels of the raster are labels of the table. -/
theorem reduce_independent_of_partition (s : State) (t : Nat) (img : LabelImage)
    (regions : List (List Pixel)) (whole : List Pixel)
    (hcov : Covers img regions) (hwhole : Covers img [whole]) :
    (∀ tmp m, scanAll s t img regions = some tmp →
      ThreadedGenerateData s t img whole [] = some m →
      (∀ L, lookupSet (reduceMaps tmp) L = lookupSet m L) ∧ (reduceMaps tmp).Perm m) ∧
    (Acyclic s.m_LUT → s.m_LabelPopulation.length = s.m_LUT.length → ValidImage s img →
      ∃ tmp m, scanAll s t img regions = some tmp ∧
        ThreadedGenerateData s t img whole [] = some m) := by
  constructor
  · intro tmp m htmp hm
    exact passMap_eq_wholeScan hcov hwhole htmp hm
  · intro hac hpop hvalid
    obtain ⟨tmp, htmp⟩ := @scanAll_total s t img regions hac hpop hvalid hcov
    obtain ⟨m, hm⟩ := scanFold_total (t := t) hac hpop hvalid whole []
      (hwhole.1 whole (List.mem_singleton.2 rfl))
    exact ⟨tmp, m, htmp, hm⟩

theorem reduce_independent_of_partition_witness :
    Covers demoImage demoSplit ∧ Covers demoImage [demoRegion] ∧
      scanAll demoState 1 demoImage demoSplit = some [[(2, [0, 3])], [(1, [0, 3])]] ∧
      ThreadedGenerateData demoState 1 demoImage demoRegion [] =
        some [(1, [0, 3]), (2, [0, 3])] ∧
      (∀ L, lookupSet (reduceMaps [[(2, [0, 3])], [(1, [0, 3])]]) L =
        lookupSet [(1, [0, 3]), (2, [0, 3])] L) ∧
      (reduceMaps [[(2, [0, 3])], [(1, [0, 3])]]).Perm [(1, [0, 3]), (2, [0, 3])] := by
  have h := (reduce_independent_of_partition demoState 1 demoImage demoSplit demoRegion
    demoSplit_covers demoRegion_covers).1 [[(2, [0, 3])], [(1, [0, 3])]]
    [(1, [0, 3]), (2, [0, 3])] (by decide) (by decide)
  exact ⟨demoSplit_covers, demoRegion_covers, by decide, by decide, h.1, h.2⟩

/-- C19 (the statistics loop is idempotent on a flat table): whenever the statistics loop
returns on a state whose table is flat, running it again on its own result returns that
result once more, so no population and no mean changes: every label that was absorbed has
population `0` and is not merged again. The loop returns whenever the three vectors have
one entry per label. -/
theorem stat_loop_twice (s : State) (hflat : Flat s.m_LUT) :
    (∀ s1, statLoop s = some s1 → statLoop s1 = some s1) ∧
    (s.m_LabelPopulation.length = s.m_LUT.length →
      s.m_LabelStatistic.length = s.m_LUT.length → ∃ s1, statLoop s = some s1) := by
  have hent := flat_entries hflat
  constructor
  · intro s1 h
    obtain ⟨hlut, hpl, _, _⟩ := statFold_frame h
    unfold statLoop
    apply statFold_skip
    intro l hl
    rw [hlut] at hl ⊢
    have hll : l < s.m_LUT.length := List.mem_range.1 hl
    have hlp : l < s1.m_LabelPopulation.length := by
      rw [hpl]; exact statFold_reads h l (List.mem_range.2 hll)
    refine ⟨s.m_LUT[l], s1.m_LabelPopulation[l], List.getElem?_eq_getElem hll,
      List.getElem?_eq_getElem hlp, ?_⟩
    rintro ⟨hne0, hne⟩
    have := statLoop_nonroot_zero hent h (List.getElem?_eq_getElem hll) hne
    rw [List.getElem?_eq_getElem hlp] at this
    exact hne0 (Option.some.inj this)
  · intro hp hst
    exact statFold_total (fun x c hx => (List.getElem?_eq_some_iff.1 (hent x c hx)).1) hp hst
      (fun l hl => List.mem_range.1 hl)

theorem stat_loop_twice_witness :
    Flat demoPair.m_LUT ∧ ∃ s1, statLoop demoPair = some s1 ∧ statLoop s1 = some s1 ∧
      s1.m_LabelPopulation = [4, 0] := by
  have hflat : Flat demoPair.m_LUT := by
    intro x hx
    have hx' : x = 0 ∨ x = 1 := by
      simp only [demoPair, List.length_cons, List.length_nil] at hx
      omega
    rcases hx' with rfl | rfl <;> exact ⟨0, rfl, rfl⟩
  obtain ⟨s1, h1⟩ := (stat_loop_twice demoPair hflat).2 rfl rfl
  refine ⟨hflat, s1, h1, (stat_loop_twice demoPair hflat).1 s1 h1, ?_⟩
  have : statLoop demoPair = some { demoPair with
      m_LabelPopulation := [4, 0],
      m_LabelStatistic := [vdiv (vadd (vscale [2] 3) (vscale [6] 1)) (1 + 3), [6]] } := by
    simp [statLoop, statStep, demoPair, List.range_succ, write]
  rw [this] at h1
  rw [← Option.some.inj h1]

/-- C20 (length mismatch): when the global map has a key label and a recorded neighbour
whose feature means have different lengths, the `assert` of the selection loop fails and
the merge pass has no result: no distance is computed for the pair and no union, flatten or
statistics update takes place, whatever the order in which the keys are visited. -/
theorem dimension_mismatch_fails (keyOrder : NeighboursMap → NeighboursMap) (s : State)
    (m_NeighboursMapsTmp : List NeighboursMap) (neighboursMap : NeighboursMap)
    (key neighbour : Nat) (set : List Nat) (a b : List ℚ)
    (hperm : ∀ m, (keyOrder m).Perm m)
    (ha : s.m_LabelStatistic[key]? = some a) (hb : s.m_LabelStatistic[neighbour]? = some b)
    (hlen : a.length ≠ b.length) (hn : neighbour ∈ set) :
    closestNeighbour s.m_LabelStatistic key set = none ∧
      ((key, set) ∈ neighboursMap → SynthetizeOn s neighboursMap = none) ∧
      ((key, set) ∈ reduceMaps m_NeighboursMapsTmp →
        Synthetize keyOrder s m_NeighboursMapsTmp = none) := by
  have hc : closestNeighbour s.m_LabelStatistic key set = none := by
    unfold closestNeighbour
    rw [foldlM_none_of_step _ set _ ⟨neighbour, hn, closestFold_none ha hb hlen⟩]
    rfl
  have hsyn : ∀ nm : NeighboursMap, (key, set) ∈ nm → SynthetizeOn s nm = none := by
    intro nm hmem
    unfold SynthetizeOn
    rw [foldlM_none_of_step _ nm _ ⟨(key, set), hmem, fun lut => by
      unfold resolveStep
      rw [hc]
      rfl⟩]
    rfl
  refine ⟨hc, hsyn neighboursMap, ?_⟩
  intro hmem
  exact hsyn _ ((hperm _).mem_iff.2 hmem)

theorem dimension_mismatch_fails_witness :
    (∀ m : NeighboursMap, (id m).Perm m) ∧
      demoState.m_LabelStatistic[1]? = some [1] ∧
      ({ demoState with m_LabelStatistic := [[0], [1], [5, 4], [7]] } : State
        ).m_LabelStatistic[2]? = some [5, 4] ∧
      closestNeighbour [[0], [1], [5, 4], [7]] 1 [0, 2] = none ∧
      SynthetizeOn { demoState with m_LabelStatistic := [[0], [1], [5, 4], [7]] } demoMap =
        none := by
  obtain ⟨h1, h2, _⟩ := dimension_mismatch_fails id
    { demoState with m_LabelStatistic := [[0], [1], [5, 4], [7]] } [] demoMap 1 2 [0, 2]
    [1] [5, 4] (fun m => List.Perm.refl _) rfl rfl (by decide) (by decide)
  exact ⟨fun m => List.Perm.refl _, rfl, rfl, h1, h2 (by decide)⟩

/-- C22 (canonical labels are the minima of the components): for every pre-pass state whose
table satisfies `m_LUT[x] <= x` and every global map whose labels are labels of the table
with comparable means, the resolve-and-union loop and the flatten loop of `Synthetize`
return, and in the flattened table two labels have the same entry exactly when they are
connected in the undirected graph whose edges are the pre-pass pairs `(x, m_LUT[x])` and
the pairs of a key label and its selected closest neighbour; every key label has the same
entry as its selected neighbour, and the entry of every label is the smallest label of its
component. -/
theorem canonical_label_is_component_minimum (s : State) (neighboursMap : NeighboursMap)
    (hd : Descending s.m_LUT)
    (hent : ∀ e ∈ neighboursMap, e.1 < s.m_LUT.length ∧
      ∀ n ∈ e.2, n < s.m_LUT.length ∧ Comparable s.m_LabelStatistic e.1 n) :
    ∃ lut1 lut2,
      neighboursMap.foldlM (resolveStep s.m_LabelStatistic) s.m_LUT = some lut1 ∧
      flattenLoop lut1 = some lut2 ∧
      (∀ x y, x < s.m_LUT.length → y < s.m_LUT.length →
        (lut2[x]? = lut2[y]? ↔ Connected s.m_LUT s.m_LabelStatistic neighboursMap x y)) ∧
      (∀ e ∈ neighboursMap, ∃ c, closestNeighbour s.m_LabelStatistic e.1 e.2 = some c ∧
        lut2[e.1]? = lut2[c]?) ∧
      (∀ x, x < s.m_LUT.length → ∃ r, lut2[x]? = some r ∧
        Connected s.m_LUT s.m_LabelStatistic neighboursMap x r ∧
        ∀ y, Connected s.m_LUT s.m_LabelStatistic neighboursMap x y → r ≤ y) := by
  obtain ⟨lut1, h1⟩ := @resolve_fold_total s.m_LabelStatistic neighboursMap s.m_LUT
    hd.acyclic hent
  obtain ⟨hlen, hg, hkeys⟩ := resolve_fold_spec h1
  obtain ⟨lut2, h2⟩ := flattenLoop_total (acyclic_of_coarsening hd.acyclic hlen hg)
  refine ⟨lut1, lut2, h1, h2, ?_, ?_, ?_⟩
  · intro x y hx hy
    obtain ⟨rx, hrx, hcx, _⟩ := resolve_fold_component hd h1 hx
    obtain ⟨ry, hry, hcy, _⟩ := resolve_fold_component hd h1 hy
    rw [flatten_entry h2 hrx, flatten_entry h2 hry]
    constructor
    · intro h
      cases h
      exact Relation.EqvGen.trans _ _ _ hcx (Relation.EqvGen.symm _ _ hcy)
    · intro h
      have hf := resolve_fold_merges hd.acyclic h1 h
      rw [rootOf_iff_find.1 hrx, rootOf_iff_find.1 hry] at hf
      exact hf
  · intro e he
    obtain ⟨c, r', hc, hr1, hr2⟩ := hkeys e he
    exact ⟨c, hc, by rw [flatten_entry h2 hr1, flatten_entry h2 hr2]⟩
  · intro x hx
    obtain ⟨r, hr, hc, hmin⟩ := resolve_fold_component hd h1 hx
    exact ⟨r, flatten_entry h2 hr, hc, hmin⟩

theorem canonical_label_is_component_minimum_witness :
    Descending chainState.m_LUT ∧
      ∃ lut1 lut2,
        chainMap.foldlM (resolveStep chainState.m_LabelStatistic) chainState.m_LUT =
          some lut1 ∧
        flattenLoop lut1 = some lut2 ∧
        (∀ x y, x < chainState.m_LUT.length → y < chainState.m_LUT.length →
          (lut2[x]? = lut2[y]? ↔
            Connected chainState.m_LUT chainState.m_LabelStatistic chainMap x y)) ∧
        (∀ e ∈ chainMap, ∃ c, closestNeighbour chainState.m_LabelStatistic e.1 e.2 = some c ∧
          lut2[e.1]? = lut2[c]?) ∧
        (∀ x, x < chainState.m_LUT.length → ∃ r, lut2[x]? = some r ∧
          Connected chainState.m_LUT chainState.m_LabelStatistic chainMap x r ∧
          ∀ y, Connected chainState.m_LUT chainState.m_LabelStatistic chainMap x y → r ≤ y) :=
  ⟨descending_range 4,
    canonical_label_is_component_minimum chainState chainMap (descending_range 4)
      chain_wellFormed.entries⟩

/-- C23 (the invariant `m_LUT[x] <= x`): the predicate "every entry is at most its index",
which makes every entry a valid index, holds for the identity table; on a table that
satisfies it every union step on valid labels returns and every returned table satisfies it
again, the flatten loop returns a table that satisfies it, and so do the loop over the map,
`Synthetize` and every run of the driver started from the identity table; in a table that
satisfies it, following parent pointers from a label `x` reaches after at most `x` steps a
label `r` with `m_LUT[r] = r`, so that no chain of parent pointers runs into a cycle. -/
theorem descending_table_invariant (n : Nat) (lut : List Nat) (hd : Descending lut) :
    Descending (List.range n) ∧
      (∀ x c : Nat, lut[x]? = some c → c ≤ x ∧ c < lut.length) ∧
      (∀ label closest lut', unionStep lut label closest = some lut' → Descending lut') ∧
      (∀ label closest, label < lut.length → closest < lut.length →
        ∃ lut', unionStep lut label closest = some lut') ∧
      (∃ lut', flattenLoop lut = some lut' ∧ Descending lut') ∧
      (∀ (stat : List (List ℚ)) (neighboursMap : NeighboursMap) lut',
        neighboursMap.foldlM (resolveStep stat) lut = some lut' → Descending lut') ∧
      (∀ (s s' : State) (neighboursMap : NeighboursMap), s.m_LUT = lut →
        SynthetizeOn s neighboursMap = some s' → Descending s'.m_LUT ∧ Acyclic s'.m_LUT) ∧
      (∀ (keyOrder : NeighboursMap → NeighboursMap) (img : LabelImage)
        (regions : List (List Pixel)) (m_MinSize : Nat) (s s' : State),
        s.m_LUT = List.range n →
        GenerateData keyOrder img regions m_MinSize s = some s' →
        Descending s'.m_LUT ∧ Acyclic s'.m_LUT) ∧
      (∀ x, x < lut.length → ∃ k r, k ≤ x ∧ RootN lut k x r ∧ lut[r]? = some r) ∧
      Acyclic lut := by
  refine ⟨descending_range n, fun x c h => ⟨hd x c h, hd.entry_lt h⟩,
    fun _ _ _ hu => unionStep_descending hd hu, ?_, ?_,
    fun _ _ _ h => resolve_fold_descending hd h, ?_, ?_, ?_, hd.acyclic⟩
  · intro a b ha hb
    obtain ⟨ra, hra⟩ := hd.acyclic.hasRoot ha
    obtain ⟨rb, hrb⟩ := hd.acyclic.hasRoot hb
    exact ⟨_, unionStep_eq hra hrb⟩
  · obtain ⟨lut', h⟩ := flattenLoop_total hd.acyclic
    exact ⟨lut', h, flattenLoop_descending hd h⟩
  · intro s s' nm hs h
    have := SynthetizeOn_descending (hs ▸ hd) h
    exact ⟨this, this.acyclic⟩
  · intro keyOrder img regions m s s' hs h
    have := generate_descending (hs ▸ descending_range n) h
    exact ⟨this, this.acyclic⟩
  · intro x hx
    obtain ⟨k, r, hk, _, hr⟩ := hd.rootN x hx
    exact ⟨k, r, hk, hr, hr.fixedN⟩

theorem descending_table_invariant_witness :
    Descending [0, 0, 1, 2] ∧
      (∃ lut', unionStep [0, 0, 1, 2] 3 3 = some lut') ∧
      (∃ lut', flattenLoop [0, 0, 1, 2] = some lut' ∧ Descending lut') ∧
      (∀ x, x < 4 → ∃ k r, k ≤ x ∧ RootN [0, 0, 1, 2] k x r ∧
        ([0, 0, 1, 2] : List Nat)[r]? = some r) := by
  have hd : Descending [0, 0, 1, 2] := by
    intro x c h
    have hx : x < 4 := (List.getElem?_eq_some_iff.1 h).1
    interval_cases x <;> cases h <;> decide
  obtain ⟨_, _, _, h4, h5, _, _, _, h9, _⟩ := descending_table_invariant 4 [0, 0, 1, 2] hd
  exact ⟨hd, h4 3 3 (by decide) (by decide), h5, h9⟩

/-- C24 (termination of `FindCorrespondingLabel`): on a table with `m_LUT[x] <= x` for all
`x` and for a valid `label`, the loop of `FindCorrespondingLabel(label)` ends after
`k <= label` pointer steps and returns the label `r` reached from `label` by `k` parent
pointers, which satisfies `m_LUT[r] = r` and `r <= label`; the inline root walk of
`Synthetize` returns the same label within the same number of steps. -/
theorem find_terminates_within_label_steps (lut : List Nat) (label : Nat)
    (hd : Descending lut) (hlabel : label < lut.length) :
    ∃ k r c, k ≤ label ∧ RootN lut k label r ∧ lut[r]? = some r ∧ r ≤ label ∧
      lut[label]? = some c ∧
      findLoop lut (k + 1) label c = some r ∧ findLoop lut (label + 1) label c = some r ∧
      FindCorrespondingLabel lut label = some r ∧
      rootWalk lut (k + 1) label = some r ∧ rootWalk lut lut.length label = some r := by
  obtain ⟨k, r, hk, hr, hroot⟩ := hd.rootN label hlabel
  have hc : lut[label]? = some lut[label] := List.getElem?_eq_getElem hlabel
  have hw : ∀ n, k < n → rootWalk lut n label = some r := rootWalk_of_RootN hroot
  refine ⟨k, r, lut[label], hk, hroot, hroot.fixedN, hr, hc, ?_, ?_, ?_, hw _ (by omega), ?_⟩
  · rw [findLoop_eq_rootWalk _ _ _ hc]
    exact hw _ (by omega)
  · rw [findLoop_eq_rootWalk _ _ _ hc]
    exact hw _ (by omega)
  · exact rootOf_iff_find.1 ⟨k, hroot⟩
  · exact rootOf_iff_rootWalk.1 ⟨k, hroot⟩

theorem find_terminates_within_label_steps_witness :
    ∃ k r c, k ≤ 3 ∧ RootN [0, 0, 1, 2] k 3 r ∧ ([0, 0, 1, 2] : List Nat)[r]? = some r ∧
      r ≤ 3 ∧ ([0, 0, 1, 2] : List Nat)[3]? = some c ∧
      findLoop [0, 0, 1, 2] (k + 1) 3 c = some r ∧ findLoop [0, 0, 1, 2] (3 + 1) 3 c = some r ∧
      FindCorrespondingLabel [0, 0, 1, 2] 3 = some r ∧
      rootWalk [0, 0, 1, 2] (k + 1) 3 = some r ∧
      rootWalk [0, 0, 1, 2] ([0, 0, 1, 2] : List Nat).length 3 = some r :=
  find_terminates_within_label_steps [0, 0, 1, 2] 3
    (by
      intro x c h
      have hx : x < 4 := (List.getElem?_eq_some_iff.1 h).1
      interval_cases x <;> cases h <;> decide)
    (by decide)

/-- C25 (only roots carry population after a pass): whenever `Synthetize` returns, every
label `x` of the resulting table with `m_LUT[x] != x` has `m_LabelPopulation[x] = 0`. The
pass returns on every state in which every parent chain reaches a root and which is
consistent with the map. -/
theorem nonroot_population_zero (s : State) (neighboursMap : NeighboursMap) :
    (∀ s', SynthetizeOn s neighboursMap = some s' → ∀ x c : Nat, s'.m_LUT[x]? = some c →
      c ≠ x → s'.m_LabelPopulation[x]? = some 0) ∧
    (WellFormed s neighboursMap → ∃ s', SynthetizeOn s neighboursMap = some s') := by
  refine ⟨?_, SynthetizeOn_total⟩
  intro s' h x c hx hne
  exact SynthetizeOn_nonroot_zero h hx hne

theorem nonroot_population_zero_witness :
    WellFormed chainState chainMap ∧ ∃ s', SynthetizeOn chainState chainMap = some s' ∧
      ∀ x c : Nat, s'.m_LUT[x]? = some c → c ≠ x → s'.m_LabelPopulation[x]? = some 0 := by
  obtain ⟨s', h⟩ := (nonroot_population_zero chainState chainMap).2 chain_wellFormed
  exact ⟨chain_wellFormed, s', h, (nonroot_population_zero chainState chainMap).1 s' h⟩

/-- C26 (populations count pixels): if before a pass every parent chain reaches a root,
every root `r` has `m_LabelPopulation[r]` equal to the number of pixels `p` of the raster
with `FindCorrespondingLabel(raw(p)) = r`, and every other label has population `0`, then
whenever `Synthetize` returns the same holds for the resulting state with respect to its
own table. The pass returns on every state consistent with the map. -/
theorem populations_count_pixels (img : LabelImage) (s : State) (neighboursMap : NeighboursMap)
    (hac : Acyclic s.m_LUT)
    (hroot : ∀ r : Nat, s.m_LUT[r]? = some r →
      s.m_LabelPopulation[r]? = some (classCount img s.m_LUT r))
    (hzero : ∀ x c : Nat, s.m_LUT[x]? = some c → c ≠ x → s.m_LabelPopulation[x]? = some 0) :
    (∀ s', SynthetizeOn s neighboursMap = some s' →
      Acyclic s'.m_LUT ∧
      (∀ r : Nat, s'.m_LUT[r]? = some r →
        s'.m_LabelPopulation[r]? = some (classCount img s'.m_LUT r)) ∧
      (∀ x c : Nat, s'.m_LUT[x]? = some c → c ≠ x → s'.m_LabelPopulation[x]? = some 0)) ∧
    (WellFormed s neighboursMap → ∃ s', SynthetizeOn s neighboursMap = some s') := by
  refine ⟨?_, SynthetizeOn_total⟩
  intro s' h
  exact ⟨SynthetizeOn_acyclic h, fun r hr => SynthetizeOn_counts hac hroot hzero h hr,
    fun x c hx hne => SynthetizeOn_nonroot_zero h hx hne⟩

theorem populations_count_pixels_witness :
    Acyclic chainState.m_LUT ∧
      (∀ r : Nat, chainState.m_LUT[r]? = some r →
        chainState.m_LabelPopulation[r]? =
          some (classCount chainImage chainState.m_LUT r)) ∧
      ∃ s', SynthetizeOn chainState chainMap = some s' ∧
        (∀ r : Nat, s'.m_LUT[r]? = some r →
          s'.m_LabelPopulation[r]? = some (classCount chainImage s'.m_LUT r)) ∧
        (∀ x c : Nat, s'.m_LUT[x]? = some c → c ≠ x →
          s'.m_LabelPopulation[x]? = some 0) := by
  have hp := populations_count_pixels chainImage chainState chainMap chain_wellFormed.acyclic
    chain_counts.1 chain_counts.2
  obtain ⟨s', h⟩ := hp.2 chain_wellFormed
  exact ⟨chain_wellFormed.acyclic, chain_counts.1, s', h, (hp.1 s' h).2.1, (hp.1 s' h).2.2⟩

/-- C27 (the weighted sum of the means is conserved): over exact rationals and feature
means of one common length, whenever `Synthetize` returns, every component of the
population-weighted sum of the means, the sum over all labels `x` of
`m_LabelPopulation[x] * m_LabelStatistic[x]`, is the same after the pass as before it. The
pass returns on every state consistent with the map. -/
theorem weighted_mean_sum_conserved (s : State) (neighboursMap : NeighboursMap) (d : Nat)
    (hdim : UniformDim s.m_LabelStatistic d) :
    (∀ s', SynthetizeOn s neighboursMap = some s' →
      ∀ i, weightedSum s' i = weightedSum s i) ∧
    (WellFormed s neighboursMap → ∃ s', SynthetizeOn s neighboursMap = some s') := by
  refine ⟨?_, SynthetizeOn_total⟩
  intro s' h i
  obtain ⟨lut1, lut2, _, _, h3⟩ := SynthetizeOn_some h
  exact @statFold_weighted _ d { s with m_LUT := lut2 } s' h3 hdim i

theorem weighted_mean_sum_conserved_witness :
    UniformDim chainState.m_LabelStatistic 1 ∧ weightedSum chainState 0 = 23 ∧
      ∃ s', SynthetizeOn chainState chainMap = some s' ∧
        ∀ i, weightedSum s' i = weightedSum chainState i := by
  have hp := weighted_mean_sum_conserved chainState chainMap 1 chain_dim
  obtain ⟨s', h⟩ := hp.2 chain_wellFormed
  refine ⟨chain_dim, ?_, s', h, hp.1 s' h⟩
  simp [weightedSum, chainState, Finset.sum_range_succ]
  norm_num

/-- C28 (the divisor of the statistics loop is not zero): with populations as natural
numbers, the statistics loop in which a division by zero has no result computes, at every
iteration and as a whole, exactly what the statistics loop of `Synthetize` computes: the
division by `m_LabelPopulation[label] + m_LabelPopulation[correspondingLabel]` is executed
only when `m_LabelPopulation[label] != 0`, and then the divisor is not zero. -/
theorem stat_divisor_nonzero (s : State) :
    (∀ label, statStepChecked s label = statStep s label) ∧
      statLoopChecked s = statLoop s ∧
      (∀ label correspondingLabel popLabel popCorr : Nat,
        s.m_LUT[label]? = some correspondingLabel →
        s.m_LabelPopulation[label]? = some popLabel →
        s.m_LabelPopulation[correspondingLabel]? = some popCorr →
        popLabel ≠ 0 ∧ correspondingLabel ≠ label →
        vdivChecked (vadd (vscale ((s.m_LabelStatistic[correspondingLabel]?).getD []) popCorr)
            (vscale ((s.m_LabelStatistic[label]?).getD []) popLabel))
            ((popLabel : ℚ) + (popCorr : ℚ)) ≠ none ∧
          ((popLabel : ℚ) + (popCorr : ℚ)) ≠ 0) := by
  refine ⟨statStepChecked_eq s, ?_, ?_⟩
  · have hfun : statStepChecked = statStep := funext (fun t => funext (statStepChecked_eq t))
    unfold statLoopChecked statLoop
    rw [hfun]
  · intro label c pl pc _ _ _ hcond
    have hpos : ((pl : ℚ) + (pc : ℚ)) ≠ 0 := by
      have h1 : (0 : ℚ) < (pl : ℚ) := by exact_mod_cast Nat.pos_of_ne_zero hcond.1
      have h2 : (0 : ℚ) ≤ (pc : ℚ) := by exact_mod_cast Nat.zero_le pc
      linarith
    refine ⟨?_, hpos⟩
    unfold vdivChecked
    rw [if_neg hpos]
    exact Option.some_ne_none _

theorem stat_divisor_nonzero_witness :
    statLoopChecked demoPair = statLoop demoPair ∧
      statStepChecked demoPair 1 =
        some { m_LUT := [0, 0], m_LabelPopulation := [4, 0], m_LabelStatistic := [[3], [6]] } ∧
      (((1 : Nat) : ℚ) + ((3 : Nat) : ℚ)) ≠ 0 := by
  obtain ⟨h1, h2, h3⟩ := stat_divisor_nonzero demoPair
  refine ⟨h2, ?_, (h3 1 0 1 3 rfl rfl rfl ⟨by decide, by decide⟩).2⟩
  simp [statStepChecked, demoPair, vdivChecked, vdiv, vadd, vscale, write]
  norm_num

/-- C29 (frame of the union step): on a table in which every parent chain reaches a root and
for valid labels `label` and `closestNeighbour` with roots `ra` and `rb`, the union step
returns a table that differs from the old one at most in the entry of the larger root, which
becomes the smaller root; when `ra < rb` fails, the two writes of the else branch give the
table of the single write `m_LUT[ra] = rb`, and when both roots are equal the table is
unchanged. -/
theorem union_changes_one_entry (lut : List Nat) (label closest : Nat) (hac : Acyclic lut)
    (hl : label < lut.length) (hc : closest < lut.length) :
    ∃ ra rb lut', RootOf lut label ra ∧ RootOf lut closest rb ∧
      unionStep lut label closest = some lut' ∧ lut'.length = lut.length ∧
      (∀ x, x ≠ max ra rb → lut'[x]? = lut[x]?) ∧
      lut'[max ra rb]? = some (min ra rb) ∧
      (¬ ra < rb → lut' = lut.set ra rb) ∧
      (ra = rb → lut' = lut) := by
  obtain ⟨ra, hra⟩ := hac.hasRoot hl
  obtain ⟨rb, hrb⟩ := hac.hasRoot hc
  have hu := unionStep_eq hra hrb
  have hfa := hra.root_fixed
  have hfb := hrb.root_fixed
  have hla := hra.root_lt_length
  have hlb := hrb.root_lt_length
  refine ⟨ra, rb, _, hra, hrb, hu, ?_, ?_, ?_, ?_, ?_⟩
  · split
    · simp
    · split <;> simp
  · intro x hx
    split
    · rename_i hlt
      rw [List.getElem?_set_ne]
      rw [max_eq_right (le_of_lt hlt)] at hx
      exact fun h => hx h.symm
    · split
      · rfl
      · rename_i h1 h2
        rw [List.getElem?_set_ne]
        rw [max_eq_left (by omega)] at hx
        exact fun h => hx h.symm
  · split
    · rename_i hlt
      rw [max_eq_right (le_of_lt hlt), min_eq_left (le_of_lt hlt), List.getElem?_set_self hlb]
    · split
      · rename_i h1 h2
        subst h2
        rw [max_self, min_self]
        exact hfa
      · rename_i h1 h2
        rw [max_eq_left (by omega), min_eq_right (by omega), List.getElem?_set_self hla]
  · intro hnlt
    rw [if_neg hnlt]
    split
    · rename_i h2
      subst h2
      exact (set_eq_self_of_getElem? hfa).symm
    · rfl
  · intro heq
    subst heq
    rw [if_neg (lt_irrefl _), if_pos rfl]

theorem union_changes_one_entry_witness :
    ∃ ra rb lut', RootOf [0, 0, 2, 2] 3 ra ∧ RootOf [0, 0, 2, 2] 1 rb ∧
      unionStep [0, 0, 2, 2] 3 1 = some lut' ∧ lut'.length = ([0, 0, 2, 2] : List Nat).length ∧
      (∀ x, x ≠ max ra rb → lut'[x]? = ([0, 0, 2, 2] : List Nat)[x]?) ∧
      lut'[max ra rb]? = some (min ra rb) ∧
      (¬ ra < rb → lut' = ([0, 0, 2, 2] : List Nat).set ra rb) ∧
      (ra = rb → lut' = [0, 0, 2, 2]) :=
  union_changes_one_entry [0, 0, 2, 2] 3 1 (acyclic_of_walks (by decide)) (by decide)
    (by decide)

end SmallRegionMerging
